import Mathlib

/-!
Verification of the safeunmarshal JSON repair/decode pipeline of the
minimcp repository, shallowly embedded over `List Char`.  Strings are
modelled as lists of characters (the repository operates on bytes; all
behaviour relevant here is in the ASCII range, where bytes and
characters coincide).
-/

namespace SafeUnmarshal

/-- Character set trimmed by the Go function strings.TrimSpace
(unicode.IsSpace restricted to Latin-1: tab, newline, vertical tab,
form feed, carriage return, space, NEL, NBSP). -/
def isGoSpace (c : Char) : Bool :=
  c = ' ' || c = '\t' || c = '\n' || c = Char.ofNat 11 || c = Char.ofNat 12 ||
  c = '\r' || c = Char.ofNat 0x85 || c = Char.ofNat 0xA0

/-- Whitespace skipped by Go's encoding/json scanner: space, tab,
newline, carriage return. -/
def isJSONWs (c : Char) : Bool :=
  c = ' ' || c = '\t' || c = '\n' || c = '\r'

/-- The character class matched by the regexp escape backslash-s in Go
regexes: tab, newline, form feed, carriage return, space. -/
def isReWs (c : Char) : Bool :=
  c = '\t' || c = '\n' || c = Char.ofNat 12 || c = '\r' || c = ' '

/-- The regexp word-character class: digits, letters, underscore. -/
def isWordChar (c : Char) : Bool :=
  ('0' ≤ c && c ≤ '9') || ('a' ≤ c && c ≤ 'z') || ('A' ≤ c && c ≤ 'Z') || c = '_'

/-- ASCII letters, the leading character class of the unquoted-value
identifier regexes. -/
def isAlphaChar (c : Char) : Bool :=
  ('a' ≤ c && c ≤ 'z') || ('A' ≤ c && c ≤ 'Z')

/-- ASCII digit test. -/
def isDigitChar (c : Char) : Bool :=
  '0' ≤ c && c ≤ '9'

/-- strings.TrimSpace: drop leading and trailing whitespace. -/
def goTrimSpace (s : List Char) : List Char :=
  ((s.dropWhile isGoSpace).reverse.dropWhile isGoSpace).reverse

/-- strings.TrimPrefix: remove the prefix when present. -/
def goTrimPrefixOf (pre s : List Char) : List Char :=
  if pre.isPrefixOf s then s.drop pre.length else s

/-- strings.TrimSuffix: remove the suffix when present. -/
def goTrimSuffixOf (suf s : List Char) : List Char :=
  if suf.isSuffixOf s then s.take (s.length - suf.length) else s

/-- strings.Contains for a needle list: some suffix starts with the
needle. -/
def containsStr (s needle : List Char) : Bool :=
  match s with
  | [] => needle.isPrefixOf []
  | _ :: t => needle.isPrefixOf s || containsStr t needle

/-- ASCII lowercase of one character (strings.ToLower restricted to
ASCII, all characters appearing in the repair heuristics). -/
def lowerChar (c : Char) : Char :=
  if 'A' ≤ c && c ≤ 'Z' then Char.ofNat (c.toNat + 32) else c

/-- ASCII lowercase of a list of characters. -/
def lowerStr (s : List Char) : List Char := s.map lowerChar

/-- The double-quote character. -/
def qch : Char := Char.ofNat 34

/-- strings.Count for a single-character substring: the number of
occurrences of the character. -/
def countCh (c : Char) : List Char → Nat
  | [] => 0
  | x :: t => (if x = c then 1 else 0) + countCh c t

/-! ## JSON values with raw lexemes

Model of the grammar accepted by Go's encoding/json validity scanner.
Number and string lexemes are kept uninterpreted so that serialising a
parsed value reproduces the input minus insignificant whitespace,
exactly as Go's json.Compact does. -/

mutual
inductive JVal : Type where
  | jNull : JVal
  | jBool : Bool → JVal
  | jNum : List Char → JVal
  | jStr : List Char → JVal
  | jArr : JElems → JVal
  | jObj : JFields → JVal
inductive JElems : Type where
  | nil : JElems
  | cons : JVal → JElems → JElems
inductive JFields : Type where
  | nil : JFields
  | cons : List Char → JVal → JFields → JFields
end

deriving instance DecidableEq for JVal
deriving instance DecidableEq for JElems
deriving instance DecidableEq for JFields

/-- Append one element at the end of a JSON element list. -/
def snocE : JElems → JVal → JElems
  | JElems.nil, v => JElems.cons v JElems.nil
  | JElems.cons w es, v => JElems.cons w (snocE es v)

/-- Append one field at the end of a JSON field list. -/
def snocF : JFields → List Char → JVal → JFields
  | JFields.nil, k, v => JFields.cons k v JFields.nil
  | JFields.cons k0 v0 fs, k, v => JFields.cons k0 v0 (snocF fs k v)

/-- Hexadecimal digit test, for unicode escapes in strings. -/
def isHexChar (c : Char) : Bool :=
  isDigitChar c || ('a' ≤ c && c ≤ 'f') || ('A' ≤ c && c ≤ 'F')

/-- Single-character string escapes accepted by the Go scanner
(quote, backslash, slash, b, f, n, r, t). -/
def isEscChar (c : Char) : Bool :=
  c = qch || c = '\\' || c = '/' || c = 'b' || c = 'f' || c = 'n' || c = 'r' || c = 't'

/-- Scan a string body after the opening quote.  Returns the raw body
(escapes unresolved) and the remainder after the closing quote.
Mirrors the in-string states of Go's scanner: any character of code
at least 0x20 other than quote and backslash, simple escapes, and
unicode escapes with four hex digits. -/
def scanStr : List Char → Option (List Char × List Char)
  | [] => none
  | c :: r =>
    if c = qch then some ([], r)
    else if c = '\\' then
      match r with
      | [] => none
      | e :: r2 =>
        if e = 'u' then
          match r2 with
          | a :: b :: c2 :: d :: r3 =>
            if isHexChar a && isHexChar b && isHexChar c2 && isHexChar d then
              (scanStr r3).map (fun p => ('\\' :: 'u' :: a :: b :: c2 :: d :: p.1, p.2))
            else none
          | _ => none
        else if isEscChar e then
          (scanStr r2).map (fun p => ('\\' :: e :: p.1, p.2))
        else none
    else if 0x20 ≤ c.toNat then
      (scanStr r).map (fun p => (c :: p.1, p.2))
    else none

/-- Split a maximal run of digits from the front. -/
def digitSpan (s : List Char) : List Char × List Char :=
  (s.takeWhile isDigitChar, s.dropWhile isDigitChar)

/-- Integer part of a JSON number: a single 0, or a nonzero digit
followed by digits. -/
def numIntPart : List Char → Option (List Char × List Char)
  | [] => none
  | c :: r =>
    if c = '0' then some (['0'], r)
    else if isDigitChar c then
      let p := digitSpan r
      some (c :: p.1, p.2)
    else none

/-- Optional fraction part: a dot followed by at least one digit. -/
def numFracPart : List Char → Option (List Char × List Char)
  | [] => some ([], [])
  | c :: r =>
    if c = '.' then
      match digitSpan r with
      | ([], _) => none
      | (ds, r2) => some ('.' :: ds, r2)
    else some ([], c :: r)

/-- Optional exponent part: e or E, optional sign, at least one digit. -/
def numExpPart : List Char → Option (List Char × List Char)
  | [] => some ([], [])
  | c :: r =>
    if c = 'e' || c = 'E' then
      match r with
      | [] => none
      | s2 :: r2 =>
        if s2 = '+' || s2 = '-' then
          match digitSpan r2 with
          | ([], _) => none
          | (ds, r3) => some (c :: s2 :: ds, r3)
        else
          match digitSpan (s2 :: r2) with
          | ([], _) => none
          | (ds, r3) => some (c :: ds, r3)
    else some ([], c :: r)

/-- Scan the non-negative portion of a number lexeme. -/
def numScanPos (s : List Char) : Option (List Char × List Char) :=
  match numIntPart s with
  | none => none
  | some (ip, r1) =>
    match numFracPart r1 with
    | none => none
    | some (fp, r2) =>
      match numExpPart r2 with
      | none => none
      | some (ep, r3) => some (ip ++ fp ++ ep, r3)

/-- Scan a JSON number lexeme (optional minus, integer, fraction,
exponent), returning the lexeme and remainder. -/
def numScan : List Char → Option (List Char × List Char)
  | [] => none
  | c :: r =>
    if c = '-' then
      match numScanPos r with
      | some p => some ('-' :: p.1, p.2)
      | none => none
    else numScanPos (c :: r)

/-- Skip insignificant JSON whitespace. -/
def skipWs (s : List Char) : List Char := s.dropWhile isJSONWs

mutual
/-- Recursive-descent parser for the language accepted by Go's
json.Valid, fuel-indexed.  Returns the parsed value and remainder. -/
def parseVal : Nat → List Char → Option (JVal × List Char)
  | 0, _ => none
  | Nat.succ f, s =>
    match skipWs s with
    | [] => none
    | c :: r =>
      if c = '{' then
        match skipWs r with
        | [] => none
        | c2 :: r2 =>
          if c2 = '}' then some (JVal.jObj JFields.nil, r2)
          else if c2 = qch then
            match scanStr r2 with
            | none => none
            | some (k, r3) =>
              match skipWs r3 with
              | [] => none
              | c3 :: r4 =>
                if c3 = ':' then
                  match parseVal f r4 with
                  | none => none
                  | some (v, r5) => parseObjRest f (JFields.cons k v JFields.nil) r5
                else none
          else none
      else if c = '[' then
        match skipWs r with
        | [] => none
        | c2 :: r2 =>
          if c2 = ']' then some (JVal.jArr JElems.nil, r2)
          else
            match parseVal f (c2 :: r2) with
            | none => none
            | some (v, r3) => parseArrRest f (JElems.cons v JElems.nil) r3
      else if c = qch then
        match scanStr r with
        | none => none
        | some (b, r2) => some (JVal.jStr b, r2)
      else if c = 't' then
        if ['r', 'u', 'e'].isPrefixOf r then some (JVal.jBool true, r.drop 3) else none
      else if c = 'f' then
        if ['a', 'l', 's', 'e'].isPrefixOf r then some (JVal.jBool false, r.drop 4) else none
      else if c = 'n' then
        if ['u', 'l', 'l'].isPrefixOf r then some (JVal.jNull, r.drop 3) else none
      else if c = '-' || isDigitChar c then
        match numScan (c :: r) with
        | some p => some (JVal.jNum p.1, p.2)
        | none => none
      else none

/-- Continue an array after a parsed element: comma and next element,
or closing bracket. -/
def parseArrRest : Nat → JElems → List Char → Option (JVal × List Char)
  | 0, _, _ => none
  | Nat.succ f, acc, s =>
    match skipWs s with
    | [] => none
    | c :: r =>
      if c = ']' then some (JVal.jArr acc, r)
      else if c = ',' then
        match parseVal f r with
        | none => none
        | some (v, r2) => parseArrRest f (snocE acc v) r2
      else none

/-- Continue an object after a parsed member: comma and next member,
or closing brace. -/
def parseObjRest : Nat → JFields → List Char → Option (JVal × List Char)
  | 0, _, _ => none
  | Nat.succ f, acc, s =>
    match skipWs s with
    | [] => none
    | c :: r =>
      if c = '}' then some (JVal.jObj acc, r)
      else if c = ',' then
        match skipWs r with
        | [] => none
        | c2 :: r2 =>
          if c2 = qch then
            match scanStr r2 with
            | none => none
            | some (k, r3) =>
              match skipWs r3 with
              | [] => none
              | c3 :: r4 =>
                if c3 = ':' then
                  match parseVal f r4 with
                  | none => none
                  | some (v, r5) => parseObjRest f (snocF acc k v) r5
                else none
          else none
      else none
end

/-- Parse a complete JSON text: one value with only whitespace after
it.  The fuel length+1 always suffices (each parsing step consumes at
least one character). -/
def jparseFull (s : List Char) : Option JVal :=
  match parseVal (s.length + 1) s with
  | some (v, rest) => if (skipWs rest).isEmpty then some v else none
  | none => none

/-- Embedding of Go's json.Valid: the text parses completely. -/
def jsonValid (s : List Char) : Bool := (jparseFull s).isSome

mutual
/-- Serialise a value back to text with no insignificant whitespace.
Since lexemes are kept raw, on parsed input this reproduces the
original text minus whitespace — the behaviour of Go's json.Compact. -/
def serV : JVal → List Char
  | JVal.jNull => ['n', 'u', 'l', 'l']
  | JVal.jBool true => ['t', 'r', 'u', 'e']
  | JVal.jBool false => ['f', 'a', 'l', 's', 'e']
  | JVal.jNum l => l
  | JVal.jStr b => qch :: b ++ [qch]
  | JVal.jArr JElems.nil => ['[', ']']
  | JVal.jArr (JElems.cons v es) => '[' :: (serV v ++ serElemsTail es ++ [']'])
  | JVal.jObj JFields.nil => ['{', '}']
  | JVal.jObj (JFields.cons k v fs) =>
    '{' :: (qch :: k ++ qch :: ':' :: serV v ++ serFieldsTail fs ++ ['}'])

/-- Serialise the tail of an array: a comma before each element. -/
def serElemsTail : JElems → List Char
  | JElems.nil => []
  | JElems.cons v es => ',' :: (serV v ++ serElemsTail es)

/-- Serialise the tail of an object: a comma before each member. -/
def serFieldsTail : JFields → List Char
  | JFields.nil => []
  | JFields.cons k v fs => ',' :: (qch :: k ++ qch :: ':' :: serV v ++ serFieldsTail fs)
end

/-- Embedding of Go's json.Compact for valid input: serialise the
parse (identical to dropping insignificant whitespace, since lexemes
are raw).  On invalid input (never reached in the repository on this
path) the text is returned unchanged. -/
def jsonCompact (s : List Char) : List Char :=
  match jparseFull s with
  | some v => serV v
  | none => s

/-- Well-formed raw string body: exactly the bodies the string scanner
can produce. -/
def okBody : List Char → Bool
  | [] => true
  | c :: r =>
    if c = '\\' then
      match r with
      | [] => false
      | e :: r2 =>
        if e = 'u' then
          match r2 with
          | a :: b :: c2 :: d :: r3 =>
            isHexChar a && isHexChar b && isHexChar c2 && isHexChar d && okBody r3
          | _ => false
        else isEscChar e && okBody r2
    else (decide (c ≠ qch) && decide (0x20 ≤ c.toNat)) && okBody r

mutual
/-- Well-formed values: string bodies and number lexemes are exactly
what the scanners produce. -/
def wfV : JVal → Bool
  | JVal.jNull => true
  | JVal.jBool _ => true
  | JVal.jNum l => numScan l == some (l, [])
  | JVal.jStr b => okBody b
  | JVal.jArr es => wfE es
  | JVal.jObj fs => wfF fs
def wfE : JElems → Bool
  | JElems.nil => true
  | JElems.cons v es => wfV v && wfE es
def wfF : JFields → Bool
  | JFields.nil => true
  | JFields.cons k v fs => okBody k && wfV v && wfF fs
end

mutual
/-- Number of object nodes of a value. -/
def objCount : JVal → Nat
  | JVal.jObj fs => 1 + objCountF fs
  | JVal.jArr es => objCountE es
  | _ => 0
def objCountE : JElems → Nat
  | JElems.nil => 0
  | JElems.cons v es => objCount v + objCountE es
def objCountF : JFields → Nat
  | JFields.nil => 0
  | JFields.cons _ v fs => objCount v + objCountF fs
end

mutual
/-- Number of array nodes of a value. -/
def arrCount : JVal → Nat
  | JVal.jArr es => 1 + arrCountE es
  | JVal.jObj fs => arrCountF fs
  | _ => 0
def arrCountE : JElems → Nat
  | JElems.nil => 0
  | JElems.cons v es => arrCount v + arrCountE es
def arrCountF : JFields → Nat
  | JFields.nil => 0
  | JFields.cons _ v fs => arrCount v + arrCountF fs
end

mutual
/-- Occurrences of a character inside the string bodies, object keys
and number lexemes of a value (the in-literal occurrences, invisible
to the JSON structure). -/
def lexCount (c : Char) : JVal → Nat
  | JVal.jNum l => countCh c l
  | JVal.jStr b => countCh c b
  | JVal.jArr es => lexCountE c es
  | JVal.jObj fs => lexCountF c fs
  | _ => 0
def lexCountE (c : Char) : JElems → Nat
  | JElems.nil => 0
  | JElems.cons v es => lexCount c v + lexCountE c es
def lexCountF (c : Char) : JFields → Nat
  | JFields.nil => 0
  | JFields.cons k v fs => countCh c k + lexCount c v + lexCountF c fs
end

mutual
/-- Fuel weight of a value: an amount of fuel sufficient for the
parser to reparse its serialisation. -/
def weightV : JVal → Nat
  | JVal.jNull => 1
  | JVal.jBool _ => 1
  | JVal.jNum _ => 1
  | JVal.jStr _ => 1
  | JVal.jArr JElems.nil => 1
  | JVal.jArr (JElems.cons v es) => 1 + max (weightV v) (needE es)
  | JVal.jObj JFields.nil => 1
  | JVal.jObj (JFields.cons _ v fs) => 1 + max (weightV v) (needF fs)
/-- Fuel weight of an array continuation. -/
def needE : JElems → Nat
  | JElems.nil => 1
  | JElems.cons v es => 1 + max (weightV v) (needE es)
/-- Fuel weight of an object continuation. -/
def needF : JFields → Nat
  | JFields.nil => 1
  | JFields.cons _ v fs => 1 + max (weightV v) (needF fs)
end

/-- Append two element lists. -/
def appendE : JElems → JElems → JElems
  | JElems.nil, b => b
  | JElems.cons v es, b => JElems.cons v (appendE es b)

/-- Append two field lists. -/
def appendF : JFields → JFields → JFields
  | JFields.nil, b => b
  | JFields.cons k v fs, b => JFields.cons k v (appendF fs b)

mutual
/-- Total occurrences of a character in the serialised form of a
value that are either structural delimiters of that kind or located
inside lexemes: one opener and one closer per object and per array
node, plus the in-lexeme occurrences. -/
def ccV (c : Char) : JVal → Nat
  | JVal.jNull => 0
  | JVal.jBool _ => 0
  | JVal.jNum l => countCh c l
  | JVal.jStr b => countCh c b
  | JVal.jArr es => (if '[' = c then 1 else 0) + (if ']' = c then 1 else 0) + ccE c es
  | JVal.jObj fs => (if '{' = c then 1 else 0) + (if '}' = c then 1 else 0) + ccF c fs
def ccE (c : Char) : JElems → Nat
  | JElems.nil => 0
  | JElems.cons v es => ccV c v + ccE c es
def ccF (c : Char) : JFields → Nat
  | JFields.nil => 0
  | JFields.cons k v fs => countCh c k + ccV c v + ccF c fs
end

/-- Continuations after which a serialised number lexeme is read back
unchanged: end of input, or a comma, closing bracket or closing brace
(the only characters that can follow a serialised value inside
serialised JSON). -/
def stopOk : List Char → Bool
  | [] => true
  | c :: _ => c = ',' || c = ']' || c = '}'

/-! ## Extractor: prepareJSONForUnmarshalling -/

/-- The span-extraction loop of prepareJSONForUnmarshalling: walk the
text keeping a signed open-minus-close counter and, once the first
opener has been seen, the collected span (in reverse).  Returns the
span from the first opener to the character that brings the counter
back to zero, exactly as the Go index loop does. -/
def spanScan (o c : Char) : List Char → Int → Option (List Char) → Option (List Char)
  | [], _, _ => none
  | x :: xs, cnt, acc =>
    if x = o then
      match acc with
      | none => spanScan o c xs (cnt + 1) (some [x])
      | some a => spanScan o c xs (cnt + 1) (some (x :: a))
    else if x = c then
      match acc with
      | none => spanScan o c xs (cnt - 1) none
      | some a =>
        if cnt - 1 = 0 then some (x :: a).reverse
        else spanScan o c xs (cnt - 1) (some (x :: a))
    else
      match acc with
      | none => spanScan o c xs cnt none
      | some a => spanScan o c xs cnt (some (x :: a))

/-- Extract the first counter-balanced span between the given opener
and closer. -/
def extractBetween (o c : Char) (s : List Char) : Option (List Char) :=
  spanScan o c s 0 none

/-- Instrumented extractor: the boolean records whether the span
search ran (false on the trimmed-empty and complete-delimiter fast
paths).  Mirrors prepareJSONForUnmarshalling. -/
def prepareT (data : List Char) : Option (List Char) × Bool :=
  let t := goTrimSpace data
  match t.head?, t.getLast? with
  | some h0, some hl =>
    if (h0 = '{' && hl = '}') || (h0 = '[' && hl = ']') then (some t, false)
    else
      match extractBetween '{' '}' data with
      | some s => (some s, true)
      | none =>
        match extractBetween '[' ']' data with
        | some s => (some s, true)
        | none => (none, true)
  | _, _ => (none, false)

/-- prepareJSONForUnmarshalling: trim; return the trimmed text when it
is a complete object or array; otherwise extract the first balanced
object span, then the first balanced array span; otherwise nothing. -/
def prepareJSONForUnmarshalling (data : List Char) : Option (List Char) :=
  (prepareT data).1

/-- isJSONArray: skip blanks, test whether the first other character
is an opening bracket. -/
def isJSONArray : List Char → Bool
  | [] => false
  | b :: rest =>
    if b = ' ' || b = '\t' || b = '\n' || b = '\r' then isJSONArray rest
    else b = '['

/-! ## Decoders for the target types exercised by the claims -/

/-- Value of a hexadecimal digit. -/
def hexVal (c : Char) : Nat :=
  if isDigitChar c then c.toNat - 48
  else if 'a' ≤ c && c ≤ 'f' then c.toNat - 87
  else c.toNat - 55

/-- Resolve a single-character escape. -/
def escCharOf (e : Char) : Char :=
  if e = 'b' then Char.ofNat 8
  else if e = 'f' then Char.ofNat 12
  else if e = 'n' then '\n'
  else if e = 'r' then '\r'
  else if e = 't' then '\t'
  else e

/-- Resolve the escapes of a raw string body (surrogate-pair
combination is not modelled; no claim depends on it). -/
def unescBody : List Char → List Char
  | [] => []
  | c :: r =>
    if c = '\\' then
      match r with
      | [] => []
      | e :: r2 =>
        if e = 'u' then
          match r2 with
          | a :: b :: c2 :: d :: r3 =>
            Char.ofNat (hexVal a * 4096 + hexVal b * 256 + hexVal c2 * 16 + hexVal d) ::
              unescBody r3
          | _ => []
        else escCharOf e :: unescBody r2
    else c :: unescBody r

/-- Digits to a natural number. -/
def digitsToNat (l : List Char) : Nat :=
  l.foldl (fun acc c => acc * 10 + (c.toNat - 48)) 0

/-- Decode a number lexeme into a Go int: sign and digits only
(fractions and exponents are rejected, as Go's strconv.ParseInt
rejects them; overflow is not modelled). -/
def decIntLex : List Char → Option Int
  | [] => none
  | c :: r =>
    if c = '-' then
      if r ≠ [] && r.all isDigitChar then some (-(digitsToNat r : Int)) else none
    else if (c :: r).all isDigitChar then some ((digitsToNat (c :: r) : Int))
    else none

/-- A decode target: the reflect-derived array/slice flag and the
type-directed decoding of a parsed value, modelling json.Unmarshal
into that Go type. -/
structure DecTarget (α : Type) : Type where
  isArrayKind : Bool
  dec : JVal → Option α

/-- json.Unmarshal into the target: strict parse then type-directed
decode; any failure is an error. -/
def unmarshalWith {α : Type} (t : DecTarget α) (data : List Char) : Option α :=
  match jparseFull data with
  | some v => t.dec v
  | none => none

/-- Decoding into a Go string: a JSON string unescapes; null leaves
the zero value; other shapes fail. -/
def decStringVal : JVal → Option (List Char)
  | JVal.jStr b => some (unescBody b)
  | JVal.jNull => some []
  | _ => none

/-- The string target type. -/
def stringTarget : DecTarget (List Char) := ⟨false, decStringVal⟩

/-- Decode a JSON element list as Go ints. -/
def decIntElems : JElems → Option (List Int)
  | JElems.nil => some []
  | JElems.cons v es =>
    match v with
    | JVal.jNum l =>
      match decIntLex l with
      | some i => (decIntElems es).map (fun rest => i :: rest)
      | none => none
    | _ => none

/-- Decoding into a Go int slice: root must be an array of numbers;
null leaves the zero (nil) slice. -/
def decIntSliceVal : JVal → Option (List Int)
  | JVal.jArr es => decIntElems es
  | JVal.jNull => some []
  | _ => none

/-- The int-slice target type. -/
def intSliceTarget : DecTarget (List Int) := ⟨true, decIntSliceVal⟩

/-- Field loop for a record with fields name (string) and age (int):
fields decoded in order of appearance with overwrite, null leaving
the previous value, unknown keys ignored, type mismatch failing (Go
reports an error for the whole Unmarshal call). -/
def fieldsDecPerson : JFields → List Char × Int → Option (List Char × Int)
  | JFields.nil, st => some st
  | JFields.cons k v fs, st =>
    if k = "name".data then
      match v with
      | JVal.jStr b => fieldsDecPerson fs (unescBody b, st.2)
      | JVal.jNull => fieldsDecPerson fs st
      | _ => none
    else if k = "age".data then
      match v with
      | JVal.jNum l =>
        match decIntLex l with
        | some i => fieldsDecPerson fs (st.1, i)
        | none => none
      | JVal.jNull => fieldsDecPerson fs st
      | _ => none
    else fieldsDecPerson fs st

/-- Decoding into the record type. -/
def decPersonVal : JVal → Option (List Char × Int)
  | JVal.jObj fs => fieldsDecPerson fs ([], 0)
  | JVal.jNull => some ([], 0)
  | _ => none

/-- The record (struct) target type. -/
def personTarget : DecTarget (List Char × Int) := ⟨false, decPersonVal⟩

/-- Field loop for a record with the single string field value. -/
def fieldsDecValue : JFields → List Char → Option (List Char)
  | JFields.nil, st => some st
  | JFields.cons k v fs, st =>
    if k = "value".data then
      match v with
      | JVal.jStr b => fieldsDecValue fs (unescBody b)
      | JVal.jNull => fieldsDecValue fs st
      | _ => none
    else fieldsDecValue fs st

/-- Decoding into the single-field wrapper record. -/
def decValueWrap : JVal → Option (List Char)
  | JVal.jObj fs => fieldsDecValue fs []
  | JVal.jNull => some []
  | _ => none

/-- The wrapper-record target type. -/
def valueWrapTarget : DecTarget (List Char) := ⟨false, decValueWrap⟩

/-! ## Regex engines

The repair heuristics use a fixed set of Go regexes; each is
hand-compiled to a deterministic matcher anchored at the current
position (the required backtracking is resolved statically and noted
at each matcher).  The engines below supply the leftmost,
non-overlapping scanning of ReplaceAllString(Func),
FindStringSubmatch and FindAllStringSubmatch.  None of the compiled
patterns can match the empty string, so empty-match positions need no
treatment. -/

/-- ReplaceAll engine, fuel-indexed (one unit of fuel per character
position; the initial fuel, the text length, always suffices since
every matcher consumes at least one character): at each position try
the anchored matcher, which returns the replacement text and the
remainder after the match; on success continue after the match,
otherwise keep the character and move on. -/
def replaceScanF (tryM : List Char → Option (List Char × List Char)) :
    Nat → List Char → List Char
  | _, [] => []
  | 0, s => s
  | Nat.succ fuel, c :: t =>
    match tryM (c :: t) with
    | some (rep, rest) =>
      if rest.length ≤ t.length then rep ++ replaceScanF tryM fuel rest
      else rep ++ rest
    | none => c :: replaceScanF tryM fuel t

/-- ReplaceAll engine at full fuel. -/
def replaceScan (tryM : List Char → Option (List Char × List Char))
    (s : List Char) : List Char :=
  replaceScanF tryM s.length s

/-- Find engine: leftmost match of the anchored matcher (the position
at the end of the text is also tried, as Go does). -/
def findScan {α : Type} (tryM : List Char → Option α) : List Char → Option α
  | [] => tryM []
  | c :: t =>
    match tryM (c :: t) with
    | some a => some a
    | none => findScan tryM t

/-- FindAll engine, fuel-indexed: successive leftmost non-overlapping
matches. -/
def collectScanF {α : Type} (tryM : List Char → Option (α × List Char)) :
    Nat → List Char → List α
  | _, [] => []
  | 0, _ => []
  | Nat.succ fuel, c :: t =>
    match tryM (c :: t) with
    | some (a, rest) =>
      if rest.length ≤ t.length then a :: collectScanF tryM fuel rest
      else [a]
    | none => collectScanF tryM fuel t

/-- FindAll engine at full fuel. -/
def collectScan {α : Type} (tryM : List Char → Option (α × List Char))
    (s : List Char) : List α :=
  collectScanF tryM s.length s

/-- Greedy span of a character class. -/
def spanP (p : Char → Bool) (s : List Char) : List Char × List Char :=
  (s.takeWhile p, s.dropWhile p)

/-- Require at least one regex-whitespace character, then skip the
whole run (the compiled form of a greedy one-or-more whitespace,
whose continuations here never start with whitespace). -/
def needWs1 (s : List Char) : Option (List Char) :=
  match s with
  | [] => none
  | c :: _ => if isReWs c then some (s.dropWhile isReWs) else none

/-! ## The individual repair regexes -/

/-- Matcher for a backslash-s-star run followed by three literal
dots (ellipsisRe), replaced by nothing.  Greedy whitespace needs no
backtracking since whitespace and dots are disjoint. -/
def ellipsisTry (s : List Char) : Option (List Char × List Char) :=
  let p := spanP isReWs s
  if ['.', '.', '.'].isPrefixOf p.2 then some ([], p.2.drop 3) else none

/-- ellipsisRe.ReplaceAllString(s, ""). -/
def ellipsisRemoveAll (s : List Char) : List Char := replaceScan ellipsisTry s

/-- Anchored matcher for arrayExtractRe: an opening bracket, then a
lazy dot-star (which cannot cross a newline) up to the first closing
bracket or the end of the text; yields the first capture group. -/
def arrayExtractTry (s : List Char) : Option (List Char) :=
  match s with
  | [] => none
  | c :: t =>
    if c = '[' then
      let content := t.takeWhile (fun x => x ≠ ']' && x ≠ '\n')
      match t.dropWhile (fun x => x ≠ ']' && x ≠ '\n') with
      | [] => some content
      | x :: _ => if x = ']' then some content else none
    else none

/-- arrayExtractRe.FindStringSubmatch, first capture group. -/
def arrayExtractFind (s : List Char) : Option (List Char) :=
  findScan arrayExtractTry s

/-- Lazy content loop for trailingCommaArrayRe: grow the content one
character at a time (newlines cannot be crossed); at each comma test
whether whitespace and then a closing bracket or the end follows. -/
def tcaLoop : List Char → List Char → Option (List Char)
  | [], _ => none
  | c :: r, accRev =>
    if c = '\n' then none
    else if c = ',' then
      match r.dropWhile isReWs with
      | [] => some accRev.reverse
      | x :: _ => if x = ']' then some accRev.reverse else tcaLoop r (c :: accRev)
    else tcaLoop r (c :: accRev)

/-- Anchored matcher for trailingCommaArrayRe, first capture group. -/
def tcaTry (s : List Char) : Option (List Char) :=
  match s with
  | [] => none
  | c :: t => if c = '[' then tcaLoop t [] else none

/-- trailingCommaArrayRe.FindStringSubmatch, first capture group. -/
def tcaFind (s : List Char) : Option (List Char) := findScan tcaTry s

/-- A quoted token (quote, any characters other than a quote, quote);
returns the token including its quotes and the remainder.  Used where
the pattern requires nonempty content the caller checks emptiness. -/
def quotedTok (s : List Char) : Option (List Char × List Char) :=
  match s with
  | [] => none
  | c :: t =>
    if c = qch then
      let content := t.takeWhile (fun x => x ≠ qch)
      match t.dropWhile (fun x => x ≠ qch) with
      | _ :: r2 => some (qch :: content ++ [qch], r2)
      | [] => none
    else none

/-- Anchored matcher for quotedStringsRe (existence only): bracket,
whitespace, three nonempty quoted strings separated by mandatory
whitespace, mandatory whitespace, a digit. -/
def qsTry (s : List Char) : Option Unit :=
  match s with
  | [] => none
  | c :: t =>
    if c = '[' then
      match quotedTok (t.dropWhile isReWs) with
      | some (q1, r2) =>
        if q1.length ≤ 2 then none
        else
          match needWs1 r2 with
          | some r3 =>
            match quotedTok r3 with
            | some (q2, r4) =>
              if q2.length ≤ 2 then none
              else
                match needWs1 r4 with
                | some r5 =>
                  match quotedTok r5 with
                  | some (q3, r6) =>
                    if q3.length ≤ 2 then none
                    else
                      match needWs1 r6 with
                      | some r7 =>
                        match r7 with
                        | d :: _ => if isDigitChar d then some () else none
                        | [] => none
                      | none => none
                  | none => none
                | none => none
            | none => none
          | none => none
      | none => none
    else none

/-- quotedStringsRe.MatchString. -/
def quotedStringsMatch (s : List Char) : Bool := (findScan qsTry s).isSome

/-- Anchored matcher for apostropheRe (a literal backslash,
apostrophe, t), replaced by apostrophe-t. -/
def apostropheTry (s : List Char) : Option (List Char × List Char) :=
  match s with
  | b :: a :: t2 :: r =>
    if b = '\\' && a = Char.ofNat 39 && t2 = 't' then
      some ([Char.ofNat 39, 't'], r)
    else none
  | _ => none

/-- apostropheRe.MatchString. -/
def apostropheMatch (s : List Char) : Bool := (findScan apostropheTry s).isSome

/-- apostropheRe.ReplaceAllString(s, apostrophe-t). -/
def apostropheReplaceAll (s : List Char) : List Char := replaceScan apostropheTry s

/-- Second token of arrayMissingCommaRe: quoted string (possibly
empty content), else greedy digits, else greedy word characters; the
pattern ends after it, so the greedy runs stand. -/
def amcTok2 (s : List Char) : Option (List Char × List Char) :=
  match quotedTok s with
  | some p => some p
  | none =>
    match s with
    | [] => none
    | c :: _ =>
      if isDigitChar c then some (spanP isDigitChar s)
      else if isWordChar c then some (spanP isWordChar s)
      else none

/-- Continuation of arrayMissingCommaRe after the first token:
mandatory whitespace then the second token; on success the
replacement dollar-one comma dollar-two and the remainder. -/
def amcRest (t1 r1 : List Char) : Option (List Char × List Char) :=
  match needWs1 r1 with
  | none => none
  | some r2 =>
    match amcTok2 r2 with
    | some (t2, r3) => some (t1 ++ ',' :: t2, r3)
    | none => none

/-- Anchored matcher for arrayMissingCommaRe with its replacement.
Alternative order is quoted, digits, word; when the digit
alternative's continuation fails the engine falls back to the word
alternative (shorter greedy runs cannot help, as the following
character would belong to the same class, not whitespace). -/
def amcTry (s : List Char) : Option (List Char × List Char) :=
  match quotedTok s with
  | some (t1, r1) => amcRest t1 r1
  | none =>
    match s with
    | [] => none
    | c :: _ =>
      if isDigitChar c then
        let p := spanP isDigitChar s
        match amcRest p.1 p.2 with
        | some res => some res
        | none =>
          let q := spanP isWordChar s
          amcRest q.1 q.2
      else if isWordChar c then
        let q := spanP isWordChar s
        amcRest q.1 q.2
      else none

/-- arrayMissingCommaRe.ReplaceAllString(s, dollar-one comma
dollar-two). -/
def arrayMissingCommaAll (s : List Char) : List Char := replaceScan amcTry s

/-- Value alternatives of keyValPatternRe: quoted string (content may
be empty), digits, true, false, null (case-sensitive, in pattern
order). -/
def kvValue (s : List Char) : Option (List Char × List Char) :=
  match quotedTok s with
  | some p => some p
  | none =>
    match s with
    | [] => none
    | c :: _ =>
      if isDigitChar c then some (spanP isDigitChar s)
      else if ['t', 'r', 'u', 'e'].isPrefixOf s then some (['t', 'r', 'u', 'e'], s.drop 4)
      else if ['f', 'a', 'l', 's', 'e'].isPrefixOf s then
        some (['f', 'a', 'l', 's', 'e'], s.drop 5)
      else if ['n', 'u', 'l', 'l'].isPrefixOf s then some (['n', 'u', 'l', 'l'], s.drop 4)
      else none

/-- Anchored matcher for keyValPatternRe: quoted nonempty key,
whitespace, colon, whitespace, value; yields the key content and the
whole value lexeme, as the reconstruction loop uses them. -/
def kvTry (s : List Char) : Option ((List Char × List Char) × List Char) :=
  match s with
  | [] => none
  | c :: t =>
    if c = qch then
      let key := t.takeWhile (fun x => x ≠ qch)
      if key = [] then none
      else
        match t.dropWhile (fun x => x ≠ qch) with
        | _ :: r2 =>
          match r2.dropWhile isReWs with
          | c3 :: r4 =>
            if c3 = ':' then
              match kvValue (r4.dropWhile isReWs) with
              | some (vl, r6) => some ((key, vl), r6)
              | none => none
            else none
          | [] => none
        | [] => none
    else none

/-- keyValPatternRe.FindAllStringSubmatch. -/
def keyValFindAll (s : List Char) : List (List Char × List Char) :=
  collectScan kvTry s

/-- Case-insensitive literal prefix (the literal is given lowercase);
returns the remainder. -/
def ciPrefixOf : List Char → List Char → Option (List Char)
  | [], s => some s
  | _ :: _, [] => none
  | l :: ls, c :: cs => if lowerChar c = l then ciPrefixOf ls cs else none

/-- The closing group shared by boolNullRe and unquotedValueRe:
whitespace then a comma or closing brace, or whitespace then the end
of the text.  The first alternative is preferred; greedy whitespace
needs no backtracking since the closers are not whitespace. -/
def reCloseGroup (s : List Char) : Option (List Char × List Char) :=
  let w := s.takeWhile isReWs
  match s.dropWhile isReWs with
  | [] => some (w, [])
  | c :: r2 => if c = ',' || c = '}' then some (w ++ [c], r2) else none

/-- Anchored matcher for boolNullRe together with its replacement
function, which lowercases the literal and keeps the surroundings. -/
def bnTry (s : List Char) : Option (List Char × List Char) :=
  match s with
  | [] => none
  | c :: t =>
    if c = ':' then
      let w := t.takeWhile isReWs
      let r1 := t.dropWhile isReWs
      match ciPrefixOf ['t', 'r', 'u', 'e'] r1 with
      | some r2 =>
        match reCloseGroup r2 with
        | some (g2, rest) => some (':' :: w ++ ['t', 'r', 'u', 'e'] ++ g2, rest)
        | none => none
      | none =>
        match ciPrefixOf ['f', 'a', 'l', 's', 'e'] r1 with
        | some r2 =>
          match reCloseGroup r2 with
          | some (g2, rest) => some (':' :: w ++ ['f', 'a', 'l', 's', 'e'] ++ g2, rest)
          | none => none
        | none =>
          match ciPrefixOf ['n', 'u', 'l', 'l'] r1 with
          | some r2 =>
            match reCloseGroup r2 with
            | some (g2, rest) => some (':' :: w ++ ['n', 'u', 'l', 'l'] ++ g2, rest)
            | none => none
          | none => none
    else none

/-- First pass of fixUnquotedValues: boolNullRe.ReplaceAllStringFunc
with the case-normalising function. -/
def boolNullPass (s : List Char) : List Char := replaceScan bnTry s

/-- Anchored matcher for unquotedValueRe together with the process
function of fixUnquotedValues: when the lowercased match contains
colon-space-true/false/null it is kept, otherwise the identifier is
wrapped in quotes (re-running FindStringSubmatch on the match
reproduces exactly the groups, the matcher being deterministic). -/
def uvTry (s : List Char) : Option (List Char × List Char) :=
  match s with
  | [] => none
  | c :: t =>
    if c = ':' then
      let w := t.takeWhile isReWs
      match t.dropWhile isReWs with
      | c1 :: t1 =>
        if isAlphaChar c1 then
          let ident := c1 :: t1.takeWhile isWordChar
          match reCloseGroup (t1.dropWhile isWordChar) with
          | some (g3, rest) =>
            let m := ':' :: w ++ ident ++ g3
            let ml := lowerStr m
            if containsStr ml [':', ' ', 't', 'r', 'u', 'e'] ||
               containsStr ml [':', ' ', 'f', 'a', 'l', 's', 'e'] ||
               containsStr ml [':', ' ', 'n', 'u', 'l', 'l'] then
              some (m, rest)
            else some ((':' :: w) ++ (qch :: ident ++ [qch]) ++ g3, rest)
          | none => none
        else none
      | [] => none
    else none

/-- Second pass of fixUnquotedValues:
unquotedValueRe.ReplaceAllStringFunc with the process function. -/
def unquotedValuePass (s : List Char) : List Char := replaceScan uvTry s

/-- Anchored matcher for unquotedValueEndRe with its replacement
colon-space-quoted-identifier (anchored at the end of the text). -/
def uveTry (s : List Char) : Option (List Char × List Char) :=
  match s with
  | [] => none
  | c :: t =>
    if c = ':' then
      match t.dropWhile isReWs with
      | c1 :: t1 =>
        if isAlphaChar c1 then
          if t1.dropWhile isWordChar = [] then
            some (':' :: ' ' :: qch :: (c1 :: t1.takeWhile isWordChar) ++ [qch], [])
          else none
        else none
      | [] => none
    else none

/-- Third pass of fixUnquotedValues:
unquotedValueEndRe.ReplaceAllString. -/
def unquotedValueEndPass (s : List Char) : List Char := replaceScan uveTry s

/-- fixUnquotedValues: the three passes in source order. -/
def fixUnquotedValues (s : List Char) : List Char :=
  unquotedValueEndPass (unquotedValuePass (boolNullPass s))

/-- Anchored matcher for unquotedKeyRe with its replacement
dollar-one quoted-dollar-two dollar-three. -/
def ukTry (s : List Char) : Option (List Char × List Char) :=
  match s with
  | [] => none
  | c :: t =>
    if c = '{' || c = ',' then
      let w := t.takeWhile isReWs
      let r1 := t.dropWhile isReWs
      let ident := r1.takeWhile isWordChar
      if ident = [] then none
      else
        let r2 := r1.dropWhile isWordChar
        let w2 := r2.takeWhile isReWs
        match r2.dropWhile isReWs with
        | c3 :: r4 =>
          if c3 = ':' then
            some (c :: w ++ (qch :: ident ++ [qch]) ++ w2 ++ [':'], r4)
          else none
        | [] => none
    else none

/-- fixUnquotedKeys: unquotedKeyRe.ReplaceAllString. -/
def fixUnquotedKeys (s : List Char) : List Char := replaceScan ukTry s

/-- Anchored matcher for trailingCommaBraceRe, replaced by the brace. -/
def tcBraceTry (s : List Char) : Option (List Char × List Char) :=
  match s with
  | [] => none
  | c :: t =>
    if c = ',' then
      match t.dropWhile isReWs with
      | c2 :: r2 => if c2 = '}' then some (['}'], r2) else none
      | [] => none
    else none

/-- Anchored matcher for trailingCommaBracketRe, replaced by the
bracket. -/
def tcBracketTry (s : List Char) : Option (List Char × List Char) :=
  match s with
  | [] => none
  | c :: t =>
    if c = ',' then
      match t.dropWhile isReWs with
      | c2 :: r2 => if c2 = ']' then some ([']'], r2) else none
      | [] => none
    else none

/-- removeTrailingCommas: the brace pattern then the bracket pattern. -/
def removeTrailingCommas (s : List Char) : List Char :=
  replaceScan tcBracketTry (replaceScan tcBraceTry s)

/-- replaceQuotes: single quotes become double quotes, with an escape
flag and an in-string flag tracked character by character (the
in-string flag is carried but, as in the source, never read). -/
def replaceQuotesGo : List Char → Bool → Bool → List Char
  | [], _, _ => []
  | c :: r, inString, escape =>
    if escape then c :: replaceQuotesGo r inString false
    else if c = '\\' then c :: replaceQuotesGo r inString true
    else if c = qch then c :: replaceQuotesGo r (!inString) false
    else if c = Char.ofNat 39 then qch :: replaceQuotesGo r (!inString) false
    else c :: replaceQuotesGo r inString false

/-- replaceQuotes entry point. -/
def replaceQuotes (s : List Char) : List Char := replaceQuotesGo s false false

/-- Pop the top of the stack when it equals the given opener (the
condition balanceBrackets checks before shrinking its stack). -/
def popIf (o : Char) : List Char → List Char
  | t :: st' => if t = o then st' else t :: st'
  | [] => []

/-- Stack scan of balanceBrackets: push openers, pop on a matching
closer, ignore everything else; the head of the list is the top. -/
def bbScan : List Char → List Char → List Char
  | [], st => st
  | c :: r, st =>
    if c = '{' || c = '[' then bbScan r (c :: st)
    else if c = '}' then bbScan r (popIf '{' st)
    else if c = ']' then bbScan r (popIf '[' st)
    else bbScan r st

/-- The closer matching an opener. -/
def closerOf (c : Char) : Char := if c = '{' then '}' else ']'

/-- balanceBrackets: append the closers of the still-open entries in
reverse order of opening. -/
def balanceBrackets (s : List Char) : List Char :=
  s ++ (bbScan s []).map closerOf

/-! ## repairJSON -/

/-- The error type of repairJSON (ErrJSONRepairFailed; the compaction
error paths are unreachable, compaction of valid text being total). -/
inductive RepairErr : Type where
  | repairFailed : RepairErr
deriving DecidableEq

deriving instance DecidableEq for Except

/-- Whether an Except value is an error. -/
def exceptIsErr {ε α : Type} : Except ε α → Bool
  | .error _ => true
  | .ok _ => false

/-- The fixed rewrite chain of the repair pipeline, from
replaceQuotes through the conditional ellipsis and missing-comma
passes. -/
def stagePipeline (src : List Char) : List Char :=
  let r := balanceBrackets (removeTrailingCommas (fixUnquotedValues
    (fixUnquotedKeys (replaceQuotes src))))
  let r := if containsStr r ['.', '.', '.'] then ellipsisRemoveAll r else r
  if ['['].isPrefixOf r then arrayMissingCommaAll r else r

/-- Render the reconstructed flat object of the last-resort branch. -/
def renderKVs : List (List Char × List Char) → List Char
  | [] => []
  | [(k, v)] => qch :: k ++ qch :: ':' :: v
  | (k, v) :: rest => (qch :: k ++ qch :: ':' :: v) ++ ',' :: renderKVs rest

/-- The last-resort key/value reconstruction: when the text is still
invalid, starts with a brace and has more openers than closers of
either kind, rebuild a flat object from all key/value matches (kept
unchanged when no pair matches). -/
def reconstructStep (r : List Char) : List Char :=
  if !(jsonValid r) && ['{'].isPrefixOf r &&
     (decide (countCh '}' r < countCh '{' r) || decide (countCh ']' r < countCh '[' r)) then
    match keyValFindAll r with
    | [] => r
    | ms => '{' :: renderKVs ms ++ ['}']
  else r

/-- The conditional apostrophe rewrite at the head of the repair
tail. -/
def postApos (src : List Char) : List Char :=
  if apostropheMatch src then apostropheReplaceAll src else src

/-- The working text after every rewrite stage including the
last-resort reconstruction, for text entering the repair tail. -/
def repairFinalText (src : List Char) : List Char :=
  reconstructStep (stagePipeline (postApos src))

/-- Tail of repairJSON: apostrophe fix, the two-character object and
array starts, the stage chain, the post-stage validity checks, the
reconstruction, and the terminal fallback. -/
def repairTail (src : List Char) : Except RepairErr (List Char) :=
  let src1 := postApos src
  if ['{', qch].isPrefixOf src1 && src1.length ≤ 2 then .ok ['{', '}'] else
  if ['[', qch].isPrefixOf src1 && src1.length ≤ 2 then .ok ['[', ']'] else
  let r := stagePipeline src1
  if jsonValid r then .ok (jsonCompact r) else
  let r2 := reconstructStep r
  if jsonValid r2 then .ok (jsonCompact r2) else
  if !(jsonValid r2) then
    (if ['{'].isPrefixOf r2 then .ok ['{', '}']
     else if ['['].isPrefixOf r2 then .ok ['[', ']']
     else .error RepairErr.repairFailed)
  else .error RepairErr.repairFailed

/-- strings.IndexAny for the two opener characters, returning the
suffix from the first hit. -/
def dropToAny : List Char → Option (List Char)
  | [] => none
  | c :: t => if c = '{' || c = '[' then some (c :: t) else dropToAny t

/-- strings.Split on a comma (empty segments included). -/
def splitOnComma : List Char → List (List Char)
  | [] => [[]]
  | c :: t =>
    if c = ',' then [] :: splitOnComma t
    else
      match splitOnComma t with
      | seg :: rest => (c :: seg) :: rest
      | [] => [[c]]

/-- strings.Join with a comma separator. -/
def joinComma : List (List Char) → List Char
  | [] => []
  | [e] => e
  | e :: rest => e ++ ',' :: joinComma rest




/-- Step of repairJSON handling the space-separated quoted-strings
array shape, rewritten to the fixed literal the source returns. -/
def repairQuotedStage (src : List Char) : Except RepairErr (List Char) :=
  if (['[', qch].isPrefixOf src || ['[', Char.ofNat 39].isPrefixOf src) &&
     quotedStringsMatch src then
    .ok ('[' :: qch :: 'a' :: qch :: ',' :: qch :: 'b' :: qch :: ',' ::
         qch :: 'c' :: qch :: ',' :: '1' :: [']'])
  else repairTail src

/-- Step of repairJSON handling an array with apparent trailing comma:
return the first capture of trailingCommaArrayRe re-wrapped in
brackets when it matches. -/
def repairCommaStage (src : List Char) : Except RepairErr (List Char) :=
  if ['['].isPrefixOf src && [','].isSuffixOf (goTrimSpace src) then
    match tcaFind src with
    | some content => .ok ('[' :: content ++ [']'])
    | none => repairQuotedStage src
  else repairQuotedStage src

/-- Step of repairJSON handling an array that looks truncated with a
literal ellipsis: strip the ellipses, extract the first bracket
content, keep the nonempty trimmed comma-separated elements; when no
element survives, fall through with the ellipsis-stripped text. -/
def repairArrayStage (src : List Char) : Except RepairErr (List Char) :=
  if ['['].isPrefixOf src && containsStr src ['.', '.', '.'] then
    let src2 := ellipsisRemoveAll src
    match arrayExtractFind src2 with
    | some content =>
      let elems := ((splitOnComma content).map goTrimSpace).filter (fun e => e ≠ [])
      if elems ≠ [] then .ok ('[' :: joinComma elems ++ [']'])
      else repairCommaStage src2
    | none => repairCommaStage src2
  else repairCommaStage src

/-- repairJSON: trim and strip code fences, canonicalise trivial
inputs, cut to the first opener (or bail out to the empty-string
literal), take the valid fast path, handle the minimal bracket
specials, then run the array shortcuts and the staged pipeline. -/
def repairJSON (src0 : List Char) : Except RepairErr (List Char) :=
  if src0 = [] then .ok [] else
  let srcA := goTrimSpace src0
  let srcB := goTrimPrefixOf ("```json".data) srcA
  let srcC := goTrimSuffixOf ("```".data) srcB
  let src := goTrimSpace srcC
  if src = [qch] then .ok [qch, qch] else
  if src = ['\n'] || src = [' '] then .ok [qch, qch] else
  if src = [']'] || src = ['}'] then .ok [qch, qch] else
  match (if !(['{'].isPrefixOf src) && !(['['].isPrefixOf src) && !([qch].isPrefixOf src)
         then dropToAny src else some src) with
  | none => .ok [qch, qch]
  | some src2 =>
    if jsonValid src2 then .ok (jsonCompact src2) else
    if src2 = ['['] then .ok ['[', ']'] else
    if src2 = ['{'] then .ok ['{', '}'] else
    if src2 = ['[', '{', ']'] then .ok ['[', '{', '}', ']'] else
    repairArrayStage src2

/-- Mirror of repairQuotedStage for tailEntry. -/
def tailEntryQuoted (src : List Char) : Option (List Char) :=
  if (['[', qch].isPrefixOf src || ['[', Char.ofNat 39].isPrefixOf src) &&
     quotedStringsMatch src then none
  else some src

/-- Mirror of repairCommaStage and repairQuotedStage for tailEntry. -/
def tailEntryComma (src : List Char) : Option (List Char) :=
  if ['['].isPrefixOf src && [','].isSuffixOf (goTrimSpace src) then
    match tcaFind src with
    | some _ => none
    | none => tailEntryQuoted src
  else tailEntryQuoted src


/-- Mirror of the control flow of repairJSON recording the text
passed on to repairTail, or nothing when an earlier branch returns;
`repairJSON_tailEntry` below proves the two definitions agree. -/
def tailEntry (src0 : List Char) : Option (List Char) :=
  if src0 = [] then none else
  let srcA := goTrimSpace src0
  let srcB := goTrimPrefixOf ("```json".data) srcA
  let srcC := goTrimSuffixOf ("```".data) srcB
  let src := goTrimSpace srcC
  if src = [qch] then none else
  if src = ['\n'] || src = [' '] then none else
  if src = [']'] || src = ['}'] then none else
  match (if !(['{'].isPrefixOf src) && !(['['].isPrefixOf src) && !([qch].isPrefixOf src)
         then dropToAny src else some src) with
  | none => none
  | some src2 =>
    if jsonValid src2 then none else
    if src2 = ['['] then none else
    if src2 = ['{'] then none else
    if src2 = ['[', '{', ']'] then none else
    if ['['].isPrefixOf src2 && containsStr src2 ['.', '.', '.'] then
      let src3 := ellipsisRemoveAll src2
      match arrayExtractFind src3 with
      | some content =>
        let elems := ((splitOnComma content).map goTrimSpace).filter (fun e => e ≠ [])
        if elems ≠ [] then none else tailEntryComma src3
      | none => tailEntryComma src3
    else tailEntryComma src2


/-! ## Options and entry points -/

/-- DefaultMaxInputSize: ten mebibytes. -/
def DefaultMaxInputSize : Nat := 10 * 1024 * 1024

/-- UnmarshalOptions: the size ceiling (zero means unlimited; the Go
field is a non-negative int in all constructions) and the repair
switch. -/
structure UnmarshalOptions : Type where
  maxInputSize : Nat
  enableRepair : Bool
deriving DecidableEq

/-- DefaultOptions: lenient preset. -/
def DefaultOptions : UnmarshalOptions := ⟨DefaultMaxInputSize, true⟩

/-- StrictOptions: repair disabled. -/
def StrictOptions : UnmarshalOptions := ⟨DefaultMaxInputSize, false⟩

/-- The distinct error values of ToWithOptions, in source order: the
size message, the empty-input message, ErrExpectedJSONArray, the
strict parse failure, a repair error, the empty repair result, and
the post-repair parse failure. -/
inductive UErr : Type where
  | sizeExceeded : UErr
  | emptyInput : UErr
  | expectedJSONArray : UErr
  | parseFailed : UErr
  | repairFailed : UErr
  | repairEmpty : UErr
  | repairedParseFailed : UErr
deriving DecidableEq

/-- Events observed during a ToWithOptions call: whether control got
past the size check to extraction, how many unmarshal attempts ran,
and whether repairJSON was invoked. -/
structure DecodeTrace : Type where
  extractionRun : Bool
  decodeAttempts : Nat
  repairInvoked : Bool
deriving DecidableEq

/-- ToWithOptions with its event trace: size check, extraction,
newline removal, emptiness check, direct unmarshal, the array-shape
guard, the repair gate, repair, and the post-repair unmarshal. -/
def ToWithOptionsT {α : Type} (t : DecTarget α) (raw : List Char) (opts : UnmarshalOptions) :
    Except UErr α × DecodeTrace :=
  if opts.maxInputSize > 0 && raw.length > opts.maxInputSize then
    (.error .sizeExceeded, ⟨false, 0, false⟩)
  else
    let data0 := (prepareJSONForUnmarshalling raw).getD []
    let data := data0.filter (fun c => c ≠ '\n')
    if data = [] then (.error .emptyInput, ⟨true, 0, false⟩)
    else
      match unmarshalWith t data with
      | some v => (.ok v, ⟨true, 1, false⟩)
      | none =>
        if t.isArrayKind && !(isJSONArray data) then
          (.error .expectedJSONArray, ⟨true, 1, false⟩)
        else if !opts.enableRepair then
          (.error .parseFailed, ⟨true, 1, false⟩)
        else
          match repairJSON data with
          | .error _ => (.error .repairFailed, ⟨true, 1, true⟩)
          | .ok rd =>
            if rd = [] then (.error .repairEmpty, ⟨true, 1, true⟩)
            else
              match unmarshalWith t rd with
              | some v => (.ok v, ⟨true, 2, true⟩)
              | none => (.error .repairedParseFailed, ⟨true, 2, true⟩)

/-- ToWithOptions: the result component. -/
def ToWithOptions {α : Type} (t : DecTarget α) (raw : List Char) (opts : UnmarshalOptions) :
    Except UErr α :=
  (ToWithOptionsT t raw opts).1

/-- ToLenient: ToWithOptions with the lenient preset. -/
def ToLenient {α : Type} (t : DecTarget α) (raw : List Char) : Except UErr α :=
  ToWithOptions t raw DefaultOptions

/-- To: ToWithOptions with the strict preset. -/
def To {α : Type} (t : DecTarget α) (raw : List Char) : Except UErr α :=
  ToWithOptions t raw StrictOptions

/-! ## Generic list lemmas -/

theorem mem_takeWhile_sat {p : Char → Bool} :
    ∀ {l : List Char} {a : Char}, a ∈ l.takeWhile p → p a = true := by
  intro l
  induction l with
  | nil => intro a h; simp [List.takeWhile] at h
  | cons c t ih =>
    intro a h
    simp only [List.takeWhile] at h
    cases hc : p c with
    | false => rw [hc] at h; simp at h
    | true =>
      rw [hc] at h
      rcases List.mem_cons.mp h with rfl | h2
      · exact hc
      · exact ih h2

theorem dropWhile_head_not {p : Char → Bool} :
    ∀ {l : List Char} {d : Char} {r : List Char},
      l.dropWhile p = d :: r → p d = false := by
  intro l
  induction l with
  | nil => intro d r h; simp [List.dropWhile] at h
  | cons c t ih =>
    intro d r h
    simp only [List.dropWhile] at h
    cases hc : p c with
    | false =>
      rw [hc] at h
      cases h
      exact hc
    | true => rw [hc] at h; exact ih h

theorem count_eq_zero_of_class {p : Char → Bool} {c : Char} {l : List Char}
    (hl : ∀ x ∈ l, p x = true) (hc : p c = false) : l.count c = 0 := by
  rw [List.count_eq_zero]
  intro hmem
  rw [hl c hmem] at hc
  exact Bool.noConfusion hc

/-! ## Claim C9: balanceBrackets -/

theorem popIf_mem {o x : Char} : ∀ {st : List Char}, x ∈ popIf o st → x ∈ st := by
  intro st
  cases st with
  | nil => intro h; simpa [popIf] using h
  | cons t st' =>
    intro h
    simp only [popIf] at h
    by_cases ht : t = o
    · rw [if_pos ht] at h
      exact List.mem_cons_of_mem _ h
    · rw [if_neg ht] at h
      exact h

theorem countCh_append (c : Char) :
    ∀ (a b : List Char), countCh c (a ++ b) = countCh c a + countCh c b := by
  intro a b
  induction a with
  | nil => simp [countCh]
  | cons x t ih =>
    simp only [List.cons_append, countCh, List.append_eq] at ih ⊢
    rw [ih]
    omega

theorem countCh_eq_zero_of_class (p : Char → Bool) {c : Char}
    (hc : p c = false) :
    ∀ {l : List Char}, (∀ x ∈ l, p x = true) → countCh c l = 0 := by
  intro l
  induction l with
  | nil => intro _; simp [countCh]
  | cons x t ih =>
    intro hl
    simp only [countCh]
    have hx : ¬ x = c := by
      intro hh
      subst hh
      rw [hl x (List.mem_cons_self x t)] at hc
      exact Bool.noConfusion hc
    rw [if_neg hx, ih (fun y hy => hl y (List.mem_cons_of_mem _ hy))]

theorem popIf_count_ne {a o : Char} (hne : a ≠ o) :
    ∀ st : List Char, countCh a (popIf o st) = countCh a st := by
  intro st
  cases st with
  | nil => simp [popIf]
  | cons t st' =>
    simp only [popIf]
    by_cases ht : t = o
    · rw [if_pos ht]
      subst ht
      simp only [countCh]
      rw [if_neg (fun hh => hne hh.symm)]
      omega
    · rw [if_neg ht]

theorem popIf_count_le (a o : Char) :
    ∀ st : List Char, countCh a st ≤ countCh a (popIf o st) + 1 := by
  intro st
  cases st with
  | nil => simp [popIf]
  | cons t st' =>
    simp only [popIf]
    by_cases ht : t = o
    · rw [if_pos ht]
      simp only [countCh]
      by_cases hta : t = a
      · rw [if_pos hta]
        omega
      · rw [if_neg hta]
        omega
    · rw [if_neg ht]
      omega

theorem bbScan_stack_mem :
    ∀ (s st : List Char), (∀ x ∈ st, x = '{' ∨ x = '[') →
      ∀ x ∈ bbScan s st, x = '{' ∨ x = '[' := by
  intro s
  induction s with
  | nil =>
    intro st h x hx
    simp only [bbScan] at hx
    exact h x hx
  | cons c t ih =>
    intro st h x hx
    simp only [bbScan] at hx
    by_cases h1 : (c = '{' || c = '[') = true
    · rw [if_pos h1] at hx
      refine ih _ ?_ x hx
      intro y hy
      rcases List.mem_cons.mp hy with rfl | hy2
      · simpa using h1
      · exact h y hy2
    · rw [if_neg h1] at hx
      by_cases h2 : c = '}'
      · rw [if_pos h2] at hx
        exact ih _ (fun y hy => h y (popIf_mem hy)) x hx
      · rw [if_neg h2] at hx
        by_cases h4 : c = ']'
        · rw [if_pos h4] at hx
          exact ih _ (fun y hy => h y (popIf_mem hy)) x hx
        · rw [if_neg h4] at hx
          exact ih _ h x hx

theorem bbScan_count_le_brace :
    ∀ (s st : List Char),
      countCh '{' s + countCh '{' st ≤ countCh '}' s + countCh '{' (bbScan s st) := by
  intro s
  induction s with
  | nil =>
    intro st
    simp [bbScan, countCh]
  | cons c t ih =>
    intro st
    by_cases hc1 : c = '{'
    · subst hc1
      simp only [bbScan, countCh]
      have h := ih ('{' :: st)
      simp only [countCh] at h
      simp at h ⊢
      omega
    · by_cases hc2 : c = '['
      · subst hc2
        simp only [bbScan, countCh]
        have h := ih ('[' :: st)
        simp only [countCh] at h
        simp at h ⊢
        omega
      · by_cases hc3 : c = '}'
        · subst hc3
          simp only [bbScan, countCh]
          have h := ih (popIf '{' st)
          have hle := popIf_count_le '{' '{' st
          simp at h ⊢
          omega
        · by_cases hc4 : c = ']'
          · subst hc4
            simp only [bbScan, countCh]
            have h := ih (popIf '[' st)
            rw [popIf_count_ne (by decide : ('{' : Char) ≠ '[')] at h
            simp at h ⊢
            omega
          · simp only [bbScan, countCh]
            simp only [if_neg hc1, if_neg hc3, if_neg hc4,
              if_neg (show ¬ ((c = '{' || c = '[') = true) by simp [hc1, hc2])]
            have h := ih st
            omega

theorem bbScan_count_le_bracket :
    ∀ (s st : List Char),
      countCh '[' s + countCh '[' st ≤ countCh ']' s + countCh '[' (bbScan s st) := by
  intro s
  induction s with
  | nil =>
    intro st
    simp [bbScan, countCh]
  | cons c t ih =>
    intro st
    by_cases hc1 : c = '{'
    · subst hc1
      simp only [bbScan, countCh]
      have h := ih ('{' :: st)
      simp only [countCh] at h
      simp at h ⊢
      omega
    · by_cases hc2 : c = '['
      · subst hc2
        simp only [bbScan, countCh]
        have h := ih ('[' :: st)
        simp only [countCh] at h
        simp at h ⊢
        omega
      · by_cases hc3 : c = '}'
        · subst hc3
          simp only [bbScan, countCh]
          have h := ih (popIf '{' st)
          rw [popIf_count_ne (by decide : ('[' : Char) ≠ '{')] at h
          simp at h ⊢
          omega
        · by_cases hc4 : c = ']'
          · subst hc4
            simp only [bbScan, countCh]
            have h := ih (popIf '[' st)
            have hle := popIf_count_le '[' '[' st
            simp at h ⊢
            omega
          · simp only [bbScan, countCh]
            simp only [if_neg hc1, if_neg hc3, if_neg hc4, if_neg hc2,
              if_neg (show ¬ ((c = '{' || c = '[') = true) by simp [hc1, hc2])]
            have h := ih st
            omega

/-! ## Count preservation through the replace engines -/

theorem replaceScanF_count (c : Char) (tryM : List Char → Option (List Char × List Char))
    (hp : ∀ s rep rest, tryM s = some (rep, rest) →
      countCh c s = countCh c rep + countCh c rest) :
    ∀ (fuel : Nat) (s : List Char),
      countCh c (replaceScanF tryM fuel s) = countCh c s := by
  intro fuel
  induction fuel with
  | zero =>
    intro s
    cases s <;> simp [replaceScanF]
  | succ f ih =>
    intro s
    cases s with
    | nil => simp [replaceScanF]
    | cons x t =>
      simp only [replaceScanF]
      cases htry : tryM (x :: t) with
      | none => simp only [countCh, ih t]
      | some pr =>
        obtain ⟨rep, rest⟩ := pr
        have hc := hp _ _ _ htry
        dsimp only
        by_cases hlen : rest.length ≤ t.length
        · rw [if_pos hlen, countCh_append, ih rest, hc]
        · rw [if_neg hlen, countCh_append, hc]

theorem replaceScan_count (c : Char) (tryM : List Char → Option (List Char × List Char))
    (hp : ∀ s rep rest, tryM s = some (rep, rest) →
      countCh c s = countCh c rep + countCh c rest) (s : List Char) :
    countCh c (replaceScan tryM s) = countCh c s :=
  replaceScanF_count c tryM hp s.length s

theorem spanP_decomp (p : Char → Bool) (s : List Char) :
    s = (spanP p s).1 ++ (spanP p s).2 := by
  simp [spanP, List.takeWhile_append_dropWhile]

theorem quotedTok_decomp {s tok rest : List Char}
    (h : quotedTok s = some (tok, rest)) : s = tok ++ rest := by
  cases s with
  | nil => simp [quotedTok] at h
  | cons c t =>
    simp only [quotedTok] at h
    by_cases hc : c = qch
    · rw [if_pos hc] at h
      cases hd : t.dropWhile (fun x => decide (x ≠ qch)) with
      | nil => rw [hd] at h; simp at h
      | cons d r2 =>
        rw [hd] at h
        simp only [Option.some.injEq, Prod.mk.injEq] at h
        obtain ⟨htok, hrest⟩ := h
        have hdq : d = qch := by
          have := dropWhile_head_not hd
          simpa using this
        subst hc
        subst htok
        subst hrest
        have ht : t = t.takeWhile (fun x => decide (x ≠ qch)) ++
            t.dropWhile (fun x => decide (x ≠ qch)) :=
          (List.takeWhile_append_dropWhile _ _).symm
        rw [hd, hdq] at ht
        conv_lhs => rw [ht]
        simp
    · rw [if_neg hc] at h
      simp at h

theorem amcTok2_decomp {s tok rest : List Char}
    (h : amcTok2 s = some (tok, rest)) : s = tok ++ rest := by
  simp only [amcTok2] at h
  cases hq : quotedTok s with
  | some p =>
    rw [hq] at h
    dsimp only at h
    simp only [Option.some.injEq] at h
    obtain rfl : p = (tok, rest) := h
    exact quotedTok_decomp hq
  | none =>
    rw [hq] at h
    dsimp only at h
    split at h
    · simp at h
    · rename_i c tail
      by_cases hd : isDigitChar c = true
      · rw [if_pos hd] at h
        simp only [Option.some.injEq, Prod.mk.injEq, spanP] at h
        obtain ⟨rfl, rfl⟩ := h
        exact (List.takeWhile_append_dropWhile _ _).symm
      · rw [if_neg hd] at h
        by_cases hw : isWordChar c = true
        · rw [if_pos hw] at h
          simp only [Option.some.injEq, Prod.mk.injEq, spanP] at h
          obtain ⟨rfl, rfl⟩ := h
          exact (List.takeWhile_append_dropWhile _ _).symm
        · rw [if_neg hw] at h
          simp at h

theorem needWs1_spec {s r : List Char} (h : needWs1 s = some r) :
    s = s.takeWhile isReWs ++ r ∧ ∀ x ∈ s.takeWhile isReWs, isReWs x = true := by
  cases s with
  | nil => simp [needWs1] at h
  | cons c t =>
    simp only [needWs1] at h
    by_cases hc : isReWs c = true
    · rw [if_pos hc] at h
      simp only [Option.some.injEq] at h
      subst h
      refine ⟨?_, fun x hx => mem_takeWhile_sat hx⟩
      exact (List.takeWhile_append_dropWhile _ _).symm
    · rw [if_neg hc] at h
      simp at h

theorem amcRest_spec {t1 r1 rep rest : List Char}
    (h : amcRest t1 r1 = some (rep, rest)) :
    ∃ w t2, rep = t1 ++ ',' :: t2 ∧ r1 = w ++ (t2 ++ rest) ∧
      ∀ x ∈ w, isReWs x = true := by
  simp only [amcRest] at h
  cases hw : needWs1 r1 with
  | none => rw [hw] at h; simp at h
  | some r2 =>
    rw [hw] at h
    dsimp only at h
    cases ht2 : amcTok2 r2 with
    | none => rw [ht2] at h; simp at h
    | some p =>
      obtain ⟨t2, r3⟩ := p
      rw [ht2] at h
      dsimp only at h
      simp only [Option.some.injEq, Prod.mk.injEq] at h
      obtain ⟨rfl, rfl⟩ := h
      obtain ⟨hr1, hws⟩ := needWs1_spec hw
      exact ⟨r1.takeWhile isReWs, t2, rfl, by conv_lhs => rw [hr1, amcTok2_decomp ht2], hws⟩

theorem amcTry_count {c : Char} (hws : isReWs c = false) (hcm : c ≠ ',') :
    ∀ s rep rest, amcTry s = some (rep, rest) →
      countCh c s = countCh c rep + countCh c rest := by
  have key : ∀ (t1 r1 rep rest : List Char), amcRest t1 r1 = some (rep, rest) →
      countCh c (t1 ++ r1) = countCh c rep + countCh c rest := by
    intro t1 r1 rep rest h
    obtain ⟨w, t2, hrep, hr1, hw⟩ := amcRest_spec h
    subst hrep
    rw [hr1]
    rw [countCh_append, countCh_append, countCh_append, countCh_append]
    have hw0 : countCh c w = 0 := countCh_eq_zero_of_class isReWs hws hw
    simp only [countCh]
    rw [if_neg (fun hh => hcm hh.symm)] at *
    omega
  intro s rep rest h
  simp only [amcTry] at h
  cases hq : quotedTok s with
  | some p =>
    obtain ⟨t1, r1⟩ := p
    rw [hq] at h
    dsimp only at h
    have := key t1 r1 rep rest h
    rw [quotedTok_decomp hq]
    exact this
  | none =>
    rw [hq] at h
    dsimp only at h
    split at h
    · simp at h
    · rename_i x tail
      by_cases hd : isDigitChar x = true
      · rw [if_pos hd] at h
        cases hr : amcRest (spanP isDigitChar (x :: tail)).1 (spanP isDigitChar (x :: tail)).2 with
        | some res =>
          rw [hr] at h
          dsimp only at h
          simp only [Option.some.injEq] at h
          obtain rfl : res = (rep, rest) := h
          have := key _ _ rep rest hr
          rw [← spanP_decomp] at this
          exact this
        | none =>
          rw [hr] at h
          dsimp only at h
          have := key _ _ rep rest h
          rw [← spanP_decomp] at this
          exact this
      · rw [if_neg hd] at h
        by_cases hwd : isWordChar x = true
        · rw [if_pos hwd] at h
          have := key _ _ rep rest h
          rw [← spanP_decomp] at this
          exact this
        · rw [if_neg hwd] at h
          simp at h

theorem ellipsisTry_count {c : Char} (hws : isReWs c = false) (hdot : c ≠ '.') :
    ∀ s rep rest, ellipsisTry s = some (rep, rest) →
      countCh c s = countCh c rep + countCh c rest := by
  intro s rep rest h
  simp only [ellipsisTry, spanP] at h
  by_cases hpre : (['.', '.', '.'].isPrefixOf (s.dropWhile isReWs)) = true
  · rw [if_pos hpre] at h
    simp only [Option.some.injEq, Prod.mk.injEq] at h
    obtain ⟨rfl, rfl⟩ := h
    obtain ⟨tail, htail⟩ := List.isPrefixOf_iff_prefix.mp hpre
    have hs : s = s.takeWhile isReWs ++ s.dropWhile isReWs :=
      (List.takeWhile_append_dropWhile _ _).symm
    conv_lhs => rw [hs, ← htail]
    rw [countCh_append, countCh_append]
    have h0 : countCh c (s.takeWhile isReWs) = 0 :=
      countCh_eq_zero_of_class isReWs hws (fun x hx => mem_takeWhile_sat hx)
    have h1 : countCh c ['.', '.', '.'] = 0 := by
      have hne : ¬ ('.' : Char) = c := fun hh => hdot hh.symm
      simp only [countCh]
      rw [if_neg hne]
    have h2 : (s.dropWhile isReWs).drop 3 = tail := by
      rw [← htail]
      simp
    rw [h0, h1, h2, countCh]
    omega
  · rw [if_neg hpre] at h
    simp at h

/-! ## The reconstruction branch is unreachable after balancing -/

theorem closer_mem (y : Char) : closerOf y = '}' ∨ closerOf y = ']' := by
  simp only [closerOf]
  by_cases hy : y = '{'
  · rw [if_pos hy]; exact Or.inl rfl
  · rw [if_neg hy]; exact Or.inr rfl

theorem countCh_closers_opener (c : Char) (hc1 : c = '{' ∨ c = '[') :
    ∀ st : List Char, countCh c (st.map closerOf) = 0 := by
  intro st
  refine countCh_eq_zero_of_class (fun y => y = '}' || y = ']') ?_ ?_
  · rcases hc1 with rfl | rfl <;> decide
  · intro x hx
    obtain ⟨y, _, rfl⟩ := List.mem_map.mp hx
    rcases closer_mem y with h | h <;> simp [h]

theorem countCh_closers_brace :
    ∀ st : List Char, (∀ y ∈ st, y = '{' ∨ y = '[') →
      countCh '}' (st.map closerOf) = countCh '{' st := by
  intro st
  induction st with
  | nil => intro _; simp [countCh]
  | cons y st' ih =>
    intro hst
    simp only [List.map_cons, countCh]
    rw [ih (fun z hz => hst z (List.mem_cons_of_mem _ hz))]
    rcases hst y (List.mem_cons_self y st') with rfl | rfl
    · simp [closerOf]
    · simp [closerOf]

theorem countCh_closers_bracket :
    ∀ st : List Char, (∀ y ∈ st, y = '{' ∨ y = '[') →
      countCh ']' (st.map closerOf) = countCh '[' st := by
  intro st
  induction st with
  | nil => intro _; simp [countCh]
  | cons y st' ih =>
    intro hst
    simp only [List.map_cons, countCh]
    rw [ih (fun z hz => hst z (List.mem_cons_of_mem _ hz))]
    rcases hst y (List.mem_cons_self y st') with rfl | rfl
    · simp [closerOf]
    · simp [closerOf]

theorem balanceBrackets_le (s : List Char) :
    countCh '{' (balanceBrackets s) ≤ countCh '}' (balanceBrackets s) ∧
    countCh '[' (balanceBrackets s) ≤ countCh ']' (balanceBrackets s) := by
  have hmem := bbScan_stack_mem s [] (by intro x hx; simp at hx)
  constructor
  · rw [balanceBrackets, countCh_append, countCh_append]
    rw [countCh_closers_opener '{' (Or.inl rfl), countCh_closers_brace _ hmem]
    have h := bbScan_count_le_brace s []
    simp only [countCh] at h
    omega
  · rw [balanceBrackets, countCh_append, countCh_append]
    rw [countCh_closers_opener '[' (Or.inr rfl), countCh_closers_bracket _ hmem]
    have h := bbScan_count_le_bracket s []
    simp only [countCh] at h
    omega

theorem stagePipeline_le (src : List Char) :
    countCh '{' (stagePipeline src) ≤ countCh '}' (stagePipeline src) ∧
    countCh '[' (stagePipeline src) ≤ countCh ']' (stagePipeline src) := by
  have pres : ∀ (c : Char), isReWs c = false → c ≠ '.' → c ≠ ',' →
      ∀ r : List Char,
        countCh c (if ['['].isPrefixOf
            (if containsStr r ['.', '.', '.'] then ellipsisRemoveAll r else r)
          then arrayMissingCommaAll
            (if containsStr r ['.', '.', '.'] then ellipsisRemoveAll r else r)
          else (if containsStr r ['.', '.', '.'] then ellipsisRemoveAll r else r)) =
        countCh c r := by
    intro c hws hdot hcm r
    have he : countCh c (if containsStr r ['.', '.', '.'] then ellipsisRemoveAll r else r) =
        countCh c r := by
      by_cases hc : containsStr r ['.', '.', '.'] = true
      · rw [if_pos hc]
        exact replaceScan_count c ellipsisTry (fun s rep rest h =>
          ellipsisTry_count hws hdot s rep rest h) r
      · rw [if_neg hc]
    by_cases hp : (['['].isPrefixOf
        (if containsStr r ['.', '.', '.'] then ellipsisRemoveAll r else r)) = true
    · rw [if_pos hp]
      exact (replaceScan_count c amcTry (fun s rep rest h =>
        amcTry_count hws hcm s rep rest h) _).trans he
    · rw [if_neg hp]
      exact he
  have hbal := balanceBrackets_le (removeTrailingCommas (fixUnquotedValues
    (fixUnquotedKeys (replaceQuotes src))))
  constructor
  · show countCh '{' (stagePipeline src) ≤ countCh '}' (stagePipeline src)
    simp only [stagePipeline]
    rw [pres '{' (by decide) (by decide) (by decide),
      pres '}' (by decide) (by decide) (by decide)]
    exact hbal.1
  · show countCh '[' (stagePipeline src) ≤ countCh ']' (stagePipeline src)
    simp only [stagePipeline]
    rw [pres '[' (by decide) (by decide) (by decide),
      pres ']' (by decide) (by decide) (by decide)]
    exact hbal.2

theorem reconstructStep_stagePipeline_eq (src : List Char) :
    reconstructStep (stagePipeline src) = stagePipeline src := by
  obtain ⟨h1, h2⟩ := stagePipeline_le src
  simp only [reconstructStep]
  rw [if_neg]
  intro hcond
  simp only [Bool.and_eq_true, Bool.or_eq_true, decide_eq_true_eq] at hcond
  obtain ⟨-, hlt⟩ := hcond
  rcases hlt with hlt | hlt <;> omega

/-! ## Claim C9: balanceBrackets appends matching closers -/

/-- C9: balanceBrackets returns its input followed only by appended
closing characters, one for each still-open opener in reverse order
of opening (the scan stack); consequently in its output the closer
counts dominate the opener counts for both bracket kinds, and the
last-resort reconstruction branch of repairJSON, guarded by an
opener count strictly exceeding a closer count, never fires on the
pipeline text, which has passed balanceBrackets and two
count-preserving rewrites. -/
theorem balanceBrackets_closers :
    (∀ s : List Char, balanceBrackets s = s ++ (bbScan s []).map closerOf) ∧
    (∀ s : List Char, ∀ x ∈ bbScan s [], x = '{' ∨ x = '[') ∧
    (∀ s : List Char,
      countCh '{' (balanceBrackets s) ≤ countCh '}' (balanceBrackets s) ∧
      countCh '[' (balanceBrackets s) ≤ countCh ']' (balanceBrackets s)) ∧
    (∀ src : List Char, reconstructStep (stagePipeline src) = stagePipeline src) :=
  ⟨fun _ => rfl,
    fun s => bbScan_stack_mem s [] (by intro x hx; simp at hx),
    balanceBrackets_le,
    reconstructStep_stagePipeline_eq⟩

/-! ## Claim C7: errors arise only at the terminal fallback -/

theorem link_quoted (src : List Char) :
    match tailEntryQuoted src with
    | some s2 => repairQuotedStage src = repairTail s2
    | none => ∃ t, repairQuotedStage src = .ok t := by
  by_cases hc : ((['[', qch].isPrefixOf src || ['[', Char.ofNat 39].isPrefixOf src) &&
      quotedStringsMatch src) = true
  · simp only [tailEntryQuoted, repairQuotedStage, if_pos hc]
    exact ⟨_, rfl⟩
  · simp only [tailEntryQuoted, repairQuotedStage, if_neg hc]

theorem link_comma (src : List Char) :
    match tailEntryComma src with
    | some s2 => repairCommaStage src = repairTail s2
    | none => ∃ t, repairCommaStage src = .ok t := by
  by_cases hc : (['['].isPrefixOf src && [','].isSuffixOf (goTrimSpace src)) = true
  · simp only [tailEntryComma, repairCommaStage, if_pos hc]
    cases ht : tcaFind src with
    | some content =>
      simp only [ht]
      exact ⟨_, rfl⟩
    | none =>
      simp only [ht]
      exact link_quoted src
  · simp only [tailEntryComma, repairCommaStage, if_neg hc]
    exact link_quoted src

theorem link_main (s : List Char) :
    match tailEntry s with
    | some src => repairJSON s = repairTail src
    | none => ∃ t, repairJSON s = .ok t := by
  by_cases h0 : s = []
  · simp only [tailEntry, repairJSON, if_pos h0]
    exact ⟨_, rfl⟩
  · simp only [tailEntry, repairJSON, if_neg h0]
    set src := goTrimSpace (goTrimSuffixOf ("```".data)
      (goTrimPrefixOf ("```json".data) (goTrimSpace s))) with hsrc
    by_cases h1 : src = [qch]
    · simp only [if_pos h1]
      exact ⟨_, rfl⟩
    · simp only [if_neg h1]
      by_cases h2 : (src = ['\n'] || src = [' ']) = true
      · simp only [if_pos h2]
        exact ⟨_, rfl⟩
      · simp only [if_neg h2]
        by_cases h3 : (src = [']'] || src = ['}']) = true
        · simp only [if_pos h3]
          exact ⟨_, rfl⟩
        · simp only [if_neg h3]
          cases hcut : (if !(['{'].isPrefixOf src) && !(['['].isPrefixOf src) &&
              !([qch].isPrefixOf src) then dropToAny src else some src) with
          | none =>
            simp only [hcut]
            exact ⟨_, rfl⟩
          | some src2 =>
            simp only [hcut]
            by_cases h5 : jsonValid src2 = true
            · simp only [if_pos h5]
              exact ⟨_, rfl⟩
            · simp only [if_neg h5]
              by_cases h6 : src2 = ['[']
              · simp only [if_pos h6]
                exact ⟨_, rfl⟩
              · simp only [if_neg h6]
                by_cases h7 : src2 = ['{']
                · simp only [if_pos h7]
                  exact ⟨_, rfl⟩
                · simp only [if_neg h7]
                  by_cases h8 : src2 = ['[', '{', ']']
                  · simp only [if_pos h8]
                    exact ⟨_, rfl⟩
                  · simp only [if_neg h8, repairArrayStage]
                    by_cases h9 : (['['].isPrefixOf src2 &&
                        containsStr src2 ['.', '.', '.']) = true
                    · simp only [if_pos h9]
                      cases hext : arrayExtractFind (ellipsisRemoveAll src2) with
                      | some content =>
                        simp only [hext]
                        by_cases h10 :
                            ((splitOnComma content).map goTrimSpace).filter
                              (fun e => e ≠ []) ≠ []
                        · simp only [if_pos h10]
                          exact ⟨_, rfl⟩
                        · simp only [if_neg h10]
                          exact link_comma (ellipsisRemoveAll src2)
                      | none =>
                        simp only [hext]
                        exact link_comma (ellipsisRemoveAll src2)
                    · simp only [if_neg h9]
                      exact link_comma src2

theorem repairTail_error_iff (src : List Char) :
    exceptIsErr (repairTail src) = true ↔
      ((['{', qch].isPrefixOf (postApos src) && (postApos src).length ≤ 2) = false ∧
       (['[', qch].isPrefixOf (postApos src) && (postApos src).length ≤ 2) = false ∧
       jsonValid (stagePipeline (postApos src)) = false ∧
       jsonValid (repairFinalText src) = false ∧
       ['{'].isPrefixOf (repairFinalText src) = false ∧
       ['['].isPrefixOf (repairFinalText src) = false) := by
  simp only [repairTail, repairFinalText]
  split
  · rename_i h1
    simp [exceptIsErr, h1]
  · rename_i h1
    split
    · rename_i h2
      simp [exceptIsErr, h1, h2]
    · rename_i h2
      split
      · rename_i h3
        simp [exceptIsErr, h1, h2, h3]
      · rename_i h3
        split
        · rename_i h4
          simp [exceptIsErr, h1, h2, h3, h4]
        · rename_i h4
          split
          · rename_i h5
            split
            · rename_i h6
              simp [exceptIsErr, h1, h2, h3, h4, h5, h6]
            · rename_i h6
              split
              · rename_i h7
                simp [exceptIsErr, h1, h2, h3, h4, h5, h6, h7]
              · rename_i h7
                simp [exceptIsErr, h1, h2, h3, h4, h5, h6, h7] at *
          · rename_i h5
            exfalso
            simp only [Bool.not_eq_true] at h4
            rw [h4] at h5
            exact h5 (by decide)

theorem repairTail_fallback (src : List Char)
    (hv1 : jsonValid (stagePipeline (postApos src)) = false)
    (hv2 : jsonValid (repairFinalText src) = false)
    (g1 : (['{', qch].isPrefixOf (postApos src) && (postApos src).length ≤ 2) = false)
    (g2 : (['[', qch].isPrefixOf (postApos src) && (postApos src).length ≤ 2) = false) :
    (['{'].isPrefixOf (repairFinalText src) = true →
      repairTail src = .ok ['{', '}']) ∧
    (['{'].isPrefixOf (repairFinalText src) = false →
      ['['].isPrefixOf (repairFinalText src) = true →
      repairTail src = .ok ['[', ']']) := by
  simp only [repairFinalText] at hv2 ⊢
  simp only [repairTail, g1, g2, hv1, hv2, Bool.false_eq_true, if_false,
    Bool.not_false, if_true]
  constructor
  · intro hp
    simp [hp]
  · intro hp1 hp2
    simp [hp1, hp2]

/-- C7: repairJSON returns an error exactly when control reaches the
repair tail and the working text, after every stage including the
last-resort reconstruction, is still invalid and starts with neither
an opening brace nor an opening bracket (the two-character starts
having also not fired); when the still-invalid final text starts with
an opening brace the empty object is returned as success, and when it
starts with an opening bracket the empty array. -/
theorem repairJSON_error_only_terminal :
    (∀ s : List Char, exceptIsErr (repairJSON s) = true ↔
      ∃ src, tailEntry s = some src ∧ exceptIsErr (repairTail src) = true) ∧
    (∀ src : List Char, exceptIsErr (repairTail src) = true ↔
      ((['{', qch].isPrefixOf (postApos src) && (postApos src).length ≤ 2) = false ∧
       (['[', qch].isPrefixOf (postApos src) && (postApos src).length ≤ 2) = false ∧
       jsonValid (stagePipeline (postApos src)) = false ∧
       jsonValid (repairFinalText src) = false ∧
       ['{'].isPrefixOf (repairFinalText src) = false ∧
       ['['].isPrefixOf (repairFinalText src) = false)) ∧
    (∀ src : List Char,
      jsonValid (stagePipeline (postApos src)) = false →
      jsonValid (repairFinalText src) = false →
      (['{', qch].isPrefixOf (postApos src) && (postApos src).length ≤ 2) = false →
      (['[', qch].isPrefixOf (postApos src) && (postApos src).length ≤ 2) = false →
      (['{'].isPrefixOf (repairFinalText src) = true →
        repairTail src = .ok ['{', '}']) ∧
      (['{'].isPrefixOf (repairFinalText src) = false →
        ['['].isPrefixOf (repairFinalText src) = true →
        repairTail src = .ok ['[', ']'])) := by
  refine ⟨?_, repairTail_error_iff, fun src hv1 hv2 g1 g2 =>
    repairTail_fallback src hv1 hv2 g1 g2⟩
  intro s
  have hl := link_main s
  constructor
  · intro herr
    cases hte : tailEntry s with
    | none =>
      rw [hte] at hl
      obtain ⟨t, ht⟩ := hl
      rw [ht] at herr
      simp [exceptIsErr] at herr
    | some src =>
      rw [hte] at hl
      rw [hl] at herr
      exact ⟨src, rfl, herr⟩
  · rintro ⟨src, hte, herr⟩
    rw [hte] at hl
    rw [hl]
    exact herr

/-- Witness for C7: the empty-object fallback fires on a concrete
unterminated object, and a concrete unterminated quoted string is an
error reached through the repair tail. -/
theorem repairJSON_error_only_terminal_witness :
    repairTail ("\x7b\"a".data) = .ok ['{', '}'] ∧
    exceptIsErr (repairJSON ("\"ab".data)) = true :=
  ⟨(repairJSON_error_only_terminal.2.2 ("\x7b\"a".data) (by decide) (by decide)
      (by decide) (by decide)).1 (by decide),
    (repairJSON_error_only_terminal.1 ("\"ab".data)).mpr
      ⟨"\"ab".data, by decide, by decide⟩⟩

/-! ## Claim C10: newline bytes are deleted after extraction -/

theorem filter_dropWhile_comm (keep q : Char → Bool)
    (h : ∀ c, keep c = false → q c = true) :
    ∀ l : List Char, (l.filter keep).dropWhile q = (l.dropWhile q).filter keep := by
  intro l
  induction l with
  | nil => simp
  | cons c t ih =>
    simp only [List.filter_cons]
    cases hk : keep c with
    | false =>
      simp only [Bool.false_eq_true, if_false]
      rw [ih]
      simp only [List.dropWhile_cons]
      rw [h c hk]
      simp
    | true =>
      simp only [if_true]
      simp only [List.dropWhile_cons]
      cases hq : q c with
      | false =>
        simp only [Bool.false_eq_true, if_false, List.filter_cons, hk, if_true]
      | true =>
        simp only [if_true]
        exact ih

theorem filter_goTrim (keep : Char → Bool)
    (h : ∀ c, keep c = false → isGoSpace c = true) (l : List Char) :
    goTrimSpace (l.filter keep) = (goTrimSpace l).filter keep := by
  simp only [goTrimSpace]
  rw [filter_dropWhile_comm keep isGoSpace h l, ← List.filter_reverse,
    filter_dropWhile_comm keep isGoSpace h, ← List.filter_reverse]

theorem dropWhile_getLast?_of_ne_nil (q : Char → Bool) (m : List Char)
    (h : m.dropWhile q ≠ []) : (m.dropWhile q).getLast? = m.getLast? := by
  conv_rhs => rw [← List.takeWhile_append_dropWhile q m]
  rw [List.getLast?_append_of_ne_nil _ h]

theorem goTrim_head_not_space {l : List Char} {c : Char} {r : List Char}
    (h : goTrimSpace l = c :: r) : isGoSpace c = false := by
  simp only [goTrimSpace] at h
  set A := l.dropWhile isGoSpace with hA
  set X := A.reverse.dropWhile isGoSpace with hX
  have hXne : X ≠ [] := by
    intro hx
    rw [hx] at h
    simp at h
  have h1 : X.getLast? = A.reverse.getLast? := dropWhile_getLast?_of_ne_nil _ _ hXne
  rw [List.getLast?_reverse] at h1
  have h2 : (X.reverse).head? = X.getLast? := List.head?_reverse X
  rw [h, h1] at h2
  cases hA2 : A with
  | nil =>
    rw [hA2] at h2
    simp at h2
  | cons d t =>
    rw [hA2] at h2
    simp only [List.head?_cons, Option.some.injEq] at h2
    subst h2
    exact dropWhile_head_not hA2

theorem goTrim_getLast_not_space {l : List Char} {c : Char}
    (h : (goTrimSpace l).getLast? = some c) : isGoSpace c = false := by
  simp only [goTrimSpace] at h
  rw [List.getLast?_reverse] at h
  cases hX : (l.dropWhile isGoSpace).reverse.dropWhile isGoSpace with
  | nil => rw [hX] at h; simp at h
  | cons d t =>
    rw [hX] at h
    simp only [List.head?_cons, Option.some.injEq] at h
    subst h
    exact dropWhile_head_not hX

theorem head?_filter_of_head {keep : Char → Bool} {c : Char} {r : List Char}
    (hk : keep c = true) : ((c :: r).filter keep).head? = some c := by
  simp [List.filter_cons, hk]

theorem getLast?_filter_of_getLast {keep : Char → Bool} {l : List Char} {c : Char}
    (h : l.getLast? = some c) (hk : keep c = true) :
    (l.filter keep).getLast? = some c := by
  rw [← List.head?_reverse] at h
  rw [← List.head?_reverse, ← List.filter_reverse]
  cases hrev : l.reverse with
  | nil => rw [hrev] at h; simp at h
  | cons d t =>
    rw [hrev] at h
    simp only [List.head?_cons, Option.some.injEq] at h
    subst h
    exact head?_filter_of_head hk

theorem spanScan_filter (o c : Char) (ho : o ≠ '\n') (hc : c ≠ '\n') :
    ∀ (s : List Char) (cnt : Int) (acc : Option (List Char)),
      spanScan o c (s.filter (fun ch => ch ≠ '\n')) cnt
          (acc.map (fun a => a.filter (fun ch => ch ≠ '\n'))) =
        (spanScan o c s cnt acc).map (fun sp => sp.filter (fun ch => ch ≠ '\n')) := by
  intro s
  induction s with
  | nil =>
    intro cnt acc
    simp [spanScan]
  | cons x t ih =>
    intro cnt acc
    by_cases hx : x = '\n'
    · subst hx
      have hfe : (('\n' :: t).filter (fun ch => decide (ch ≠ '\n'))) =
          t.filter (fun ch => decide (ch ≠ '\n')) := by
        simp
      cases acc with
      | none =>
        rw [hfe]
        have h2 : spanScan o c ('\n' :: t) cnt none = spanScan o c t cnt none := by
          simp only [spanScan]
          rw [if_neg (fun hh => ho hh.symm), if_neg (fun hh => hc hh.symm)]
        rw [h2]
        exact ih cnt none
      | some a =>
        rw [hfe]
        have h2 : spanScan o c ('\n' :: t) cnt (some a) =
            spanScan o c t cnt (some ('\n' :: a)) := by
          simp only [spanScan]
          rw [if_neg (fun hh => ho hh.symm), if_neg (fun hh => hc hh.symm)]
        rw [h2]
        have h3 := ih cnt (some ('\n' :: a))
        simp only [Option.map_some'] at h3 ⊢
        have hfa : ('\n' :: a).filter (fun ch => decide (ch ≠ '\n')) =
            a.filter (fun ch => decide (ch ≠ '\n')) := by
          simp
        rw [hfa] at h3
        exact h3
    · have hfe : ((x :: t).filter (fun ch => decide (ch ≠ '\n'))) =
          x :: t.filter (fun ch => decide (ch ≠ '\n')) := by
        simp [hx]
      cases acc with
      | none =>
        rw [hfe]
        simp only [Option.map_none', spanScan]
        by_cases hxo : x = o
        · rw [if_pos hxo, if_pos hxo]
          have h3 := ih (cnt + 1) (some [x])
          simp only [Option.map_some'] at h3
          have hfx : ([x].filter (fun ch => decide (ch ≠ '\n'))) = [x] := by
            simp [hx]
          rw [hfx] at h3
          exact h3
        · rw [if_neg hxo, if_neg hxo]
          by_cases hxc : x = c
          · rw [if_pos hxc, if_pos hxc]
            have h3 := ih (cnt - 1) none
            simpa using h3
          · rw [if_neg hxc, if_neg hxc]
            have h3 := ih cnt none
            simpa using h3
      | some a =>
        rw [hfe]
        simp only [Option.map_some', spanScan]
        by_cases hxo : x = o
        · rw [if_pos hxo, if_pos hxo]
          have h3 := ih (cnt + 1) (some (x :: a))
          simp only [Option.map_some'] at h3
          have hfx : ((x :: a).filter (fun ch => decide (ch ≠ '\n'))) =
              x :: a.filter (fun ch => decide (ch ≠ '\n')) := by
            simp [hx]
          rw [hfx] at h3
          exact h3
        · rw [if_neg hxo, if_neg hxo]
          by_cases hxc : x = c
          · rw [if_pos hxc, if_pos hxc]
            by_cases hz : cnt - 1 = 0
            · rw [if_pos hz, if_pos hz]
              simp only [Option.map_some', Option.some.injEq]
              rw [List.filter_reverse]
              congr 1
              simp [hx]
            · rw [if_neg hz, if_neg hz]
              have h3 := ih (cnt - 1) (some (x :: a))
              simp only [Option.map_some'] at h3
              have hfx : ((x :: a).filter (fun ch => decide (ch ≠ '\n'))) =
                  x :: a.filter (fun ch => decide (ch ≠ '\n')) := by
                simp [hx]
              rw [hfx] at h3
              exact h3
          · rw [if_neg hxc, if_neg hxc]
            have h3 := ih cnt (some (x :: a))
            simp only [Option.map_some'] at h3
            have hfx : ((x :: a).filter (fun ch => decide (ch ≠ '\n'))) =
                x :: a.filter (fun ch => decide (ch ≠ '\n')) := by
              simp [hx]
            rw [hfx] at h3
            exact h3

theorem extractBetween_filter (o c : Char) (ho : o ≠ '\n') (hc : c ≠ '\n')
    (s : List Char) :
    extractBetween o c (s.filter (fun ch => ch ≠ '\n')) =
      (extractBetween o c s).map (fun sp => sp.filter (fun ch => ch ≠ '\n')) := by
  have := spanScan_filter o c ho hc s 0 none
  simpa [extractBetween] using this

theorem prepare_filter (raw : List Char) :
    prepareJSONForUnmarshalling (raw.filter (fun ch => ch ≠ '\n')) =
      (prepareJSONForUnmarshalling raw).map
        (fun sp => sp.filter (fun ch => ch ≠ '\n')) := by
  have hsp : ∀ ch : Char, (fun c0 => decide (c0 ≠ '\n')) ch = false →
      isGoSpace ch = true := by
    intro ch hch
    simp only [decide_eq_false_iff_not, not_not] at hch
    subst hch
    decide
  simp only [prepareJSONForUnmarshalling, prepareT]
  rw [filter_goTrim _ hsp raw]
  cases hg : goTrimSpace raw with
  | nil =>
    simp
  | cons a b =>
    have hka : (fun c0 => decide (c0 ≠ '\n')) a = true := by
      have hsp2 := goTrim_head_not_space hg
      simp only [decide_eq_true_eq]
      intro hcontra
      subst hcontra
      exact Bool.noConfusion ((by decide : isGoSpace '\n' = true).symm.trans hsp2)
    cases hl : (a :: b).getLast? with
    | none =>
      exact absurd hl (by simp)
    | some l0 =>
      have hgl : (goTrimSpace raw).getLast? = some l0 := by
        rw [hg]
        exact hl
      have hkl : (fun c0 => decide (c0 ≠ '\n')) l0 = true := by
        have hsp2 := goTrim_getLast_not_space hgl
        simp only [decide_eq_true_eq]
        intro hcontra
        subst hcontra
        exact Bool.noConfusion ((by decide : isGoSpace '\n' = true).symm.trans hsp2)
      have hh2 : ((a :: b).filter (fun c0 => c0 ≠ '\n')).head? = some a :=
        head?_filter_of_head hka
      have hl2 : ((a :: b).filter (fun c0 => c0 ≠ '\n')).getLast? = some l0 :=
        getLast?_filter_of_getLast hl hkl
      rw [hh2, hl2]
      simp only [List.head?_cons, hl]
      by_cases hcond : ((a = '{' && l0 = '}') || (a = '[' && l0 = ']')) = true
      · rw [if_pos hcond, if_pos hcond]
        simp
      · rw [if_neg hcond, if_neg hcond]
        rw [extractBetween_filter '{' '}' (by decide) (by decide) raw]
        cases he1 : extractBetween '{' '}' raw with
        | some sp => simp [he1]
        | none =>
          simp only [he1, Option.map_none']
          rw [extractBetween_filter '[' ']' (by decide) (by decide) raw]
          cases he2 : extractBetween '[' ']' raw with
          | some sp => simp [he2]
          | none => simp [he2]

theorem filter_nl_idem (l : List Char) :
    (l.filter (fun ch => ch ≠ '\n')).filter (fun ch => ch ≠ '\n') =
      l.filter (fun ch => ch ≠ '\n') := by
  induction l with
  | nil => simp
  | cons x t ih =>
    by_cases hx : x = '\n'
    · subst hx
      simp [ih]
    · simp only [List.filter_cons]
      rw [if_pos (by simp [hx]), List.filter_cons, if_pos (by simp [hx]), ih]

theorem dataOf_filter (raw : List Char) :
    ((prepareJSONForUnmarshalling raw).getD []).filter (fun ch => ch ≠ '\n') =
      ((prepareJSONForUnmarshalling (raw.filter (fun ch => ch ≠ '\n'))).getD []).filter
        (fun ch => ch ≠ '\n') := by
  rw [prepare_filter raw]
  cases hp : prepareJSONForUnmarshalling raw with
  | none => simp [hp]
  | some sp =>
    simp only [Option.map_some', Option.getD_some]
    rw [filter_nl_idem]

/-- C10: newline bytes are deleted from the working text after
extraction and before any parse attempt, in both modes: any two
inputs within the size limit that agree after erasing newline bytes
decode identically (same result and same trace); and concretely an
input with a raw newline inside a quoted string value decodes
successfully with the newline removed, although the extracted text is
not well-formed JSON. -/
theorem newline_erasure_invariance :
    (∀ (α : Type) (t : DecTarget α) (raw1 raw2 : List Char) (opts : UnmarshalOptions),
      raw1.filter (fun ch => ch ≠ '\n') = raw2.filter (fun ch => ch ≠ '\n') →
      (opts.maxInputSize = 0 ∨ raw1.length ≤ opts.maxInputSize) →
      (opts.maxInputSize = 0 ∨ raw2.length ≤ opts.maxInputSize) →
      ToWithOptionsT t raw1 opts = ToWithOptionsT t raw2 opts) ∧
    (ToWithOptions valueWrapTarget ("\x7b\"value\":\"a\nb\"\x7d".data) DefaultOptions =
        .ok ("ab".data) ∧
      jsonValid ((prepareJSONForUnmarshalling
        ("\x7b\"value\":\"a\nb\"\x7d".data)).getD []) = false) := by
  constructor
  · intro α t raw1 raw2 opts heq hs1 hs2
    have hdata : ((prepareJSONForUnmarshalling raw1).getD []).filter
          (fun ch => ch ≠ '\n') =
        ((prepareJSONForUnmarshalling raw2).getD []).filter (fun ch => ch ≠ '\n') := by
      rw [dataOf_filter raw1, dataOf_filter raw2, heq]
    have hc1 : ¬((decide (opts.maxInputSize > 0) &&
        decide (raw1.length > opts.maxInputSize)) = true) := by
      simp only [Bool.and_eq_true, decide_eq_true_eq, not_and, not_lt]
      intro hpos
      rcases hs1 with h | h <;> omega
    have hc2 : ¬((decide (opts.maxInputSize > 0) &&
        decide (raw2.length > opts.maxInputSize)) = true) := by
      simp only [Bool.and_eq_true, decide_eq_true_eq, not_and, not_lt]
      intro hpos
      rcases hs2 with h | h <;> omega
    simp only [ToWithOptionsT]
    rw [if_neg hc1, if_neg hc2]
    rw [hdata]
  · exact ⟨by decide, by decide⟩

/-- Witness for C10 at two concrete inputs differing only in a
newline inside the object. -/
theorem newline_erasure_invariance_witness :
    ToWithOptionsT personTarget ("\x7b\"name\":\n\"John\"\x7d".data) DefaultOptions =
      ToWithOptionsT personTarget ("\x7b\"name\":\"John\"\x7d".data) DefaultOptions :=
  newline_erasure_invariance.1 (List Char × Int) personTarget _ _ DefaultOptions
    (by decide) (by decide) (by decide)

/-! ## Claim C8: size enforcement -/

/-- C8: with a positive size ceiling, any input of exactly ceiling
plus one bytes yields the size error with the zero result,
before extraction, decoding or repair; with a zero ceiling no size
error is ever produced. -/
theorem sizeCeiling_enforced :
    (∀ (α : Type) (t : DecTarget α) (raw : List Char) (opts : UnmarshalOptions),
      0 < opts.maxInputSize → raw.length = opts.maxInputSize + 1 →
      ToWithOptionsT t raw opts = (.error .sizeExceeded, ⟨false, 0, false⟩)) ∧
    (∀ (α : Type) (t : DecTarget α) (raw : List Char) (b : Bool),
      ToWithOptions t raw ⟨0, b⟩ ≠ .error .sizeExceeded) := by
  constructor
  · intro α t raw opts h1 h2
    simp only [ToWithOptionsT]
    rw [if_pos]
    simp only [Bool.and_eq_true, decide_eq_true_eq]
    omega
  · intro α t raw b
    simp only [ToWithOptions, ToWithOptionsT]
    rw [if_neg (by simp)]
    split
    · simp
    · split
      · simp
      · split
        · simp
        · split
          · simp
          · split
            · simp
            · split
              · simp
              · split <;> simp

/-- Witness for C8 at concrete inputs: ceiling three with a
four-character input gives the size error, and a zero ceiling gives
no size error. -/
theorem sizeCeiling_enforced_witness :
    ToWithOptionsT stringTarget ("aaaa".data) ⟨3, true⟩ =
      (.error .sizeExceeded, ⟨false, 0, false⟩) ∧
    ToWithOptions stringTarget ("x".data) ⟨0, true⟩ ≠ .error .sizeExceeded :=
  ⟨sizeCeiling_enforced.1 (List Char) stringTarget ("aaaa".data) ⟨3, true⟩ (by decide)
      (by decide),
    sizeCeiling_enforced.2 (List Char) stringTarget ("x".data) true⟩

/-! ## Claim C3: the lone closing bracket -/

/-- C3 counterexample: decoding the single character close-bracket
into the string target with repair enabled does not succeed as the
empty string (the claim asserts exactly that); it fails with the
empty-input error before repair is ever consulted. -/
theorem loneBracket_string_not_ok :
    ToWithOptions stringTarget ("]".data) DefaultOptions ≠ .ok ("".data) ∧
    ToWithOptions stringTarget ("]".data) DefaultOptions = .error .emptyInput := by
  constructor
  · intro h
    have h2 : ToWithOptions stringTarget ("]".data) DefaultOptions = .error .emptyInput := by
      decide
    rw [h2] at h
    exact Except.noConfusion h
  · decide

/-- C3 amended: for the input consisting of the single close-bracket,
lenient decoding fails with the empty-input error for both the string
target and the record target (the extractor finds no JSON span and
yields an empty working text), the repair pipeline is never invoked,
and repairJSON itself — had it been reached — maps the input to the
JSON empty-string literal. -/
theorem loneBracket_decode :
    ToWithOptions stringTarget ("]".data) DefaultOptions = .error .emptyInput ∧
    ToWithOptions personTarget ("]".data) DefaultOptions = .error .emptyInput ∧
    (ToWithOptionsT stringTarget ("]".data) DefaultOptions).2.repairInvoked = false ∧
    repairJSON ("]".data) = .ok [qch, qch] := by
  refine ⟨by decide, by decide, by decide, by decide⟩

/-! ## Claim C5: the extractor fast path -/

/-- C5 counterexample: for quoted text the extractor does not return
the trimmed text: the span search runs and finds nothing. -/
theorem extractor_quote_not_unchanged :
    prepareJSONForUnmarshalling ("\"x\"".data) ≠
      some (goTrimSpace ("\"x\"".data)) := by decide

/-- C5 amended: the extractor returns the trimmed text unchanged with
no span search exactly when the trimmed text starts with an opening
brace and ends with a closing brace, or starts with an opening
bracket and ends with a closing bracket. -/
theorem extractor_fastpath_iff (data : List Char) :
    prepareT data = (some (goTrimSpace data), false) ↔
      ((goTrimSpace data).head? = some '{' ∧ (goTrimSpace data).getLast? = some '}' ∨
       (goTrimSpace data).head? = some '[' ∧ (goTrimSpace data).getLast? = some ']') := by
  cases hh : (goTrimSpace data).head? with
  | none =>
    simp only [prepareT, hh]
    simp
  | some h0 =>
    cases hl : (goTrimSpace data).getLast? with
    | none =>
      simp only [prepareT, hh, hl]
      simp
    | some l0 =>
      simp only [prepareT, hh, hl]
      by_cases hcond : ((h0 = '{' && l0 = '}') || (h0 = '[' && l0 = ']')) = true
      · rw [if_pos hcond]
        simp only [Bool.or_eq_true, Bool.and_eq_true, decide_eq_true_eq] at hcond
        constructor
        · intro _
          rcases hcond with ⟨e1, e2⟩ | ⟨e1, e2⟩
          · exact Or.inl ⟨by rw [e1], by rw [e2]⟩
          · exact Or.inr ⟨by rw [e1], by rw [e2]⟩
        · intro _; rfl
      · rw [if_neg hcond]
        constructor
        · intro hres
          exfalso
          split at hres
          · simp_all
          · split at hres <;> simp_all
        · intro hr
          exfalso
          apply hcond
          rcases hr with ⟨e1, e2⟩ | ⟨e1, e2⟩ <;>
          · simp only [Option.some.injEq] at e1 e2
            subst e1; subst e2
            simp

/-- Witness for C5 at a concrete complete object. -/
theorem extractor_fastpath_witness :
    prepareT ("\x7b\"a\":1\x7d".data) =
      (some (goTrimSpace ("\x7b\"a\":1\x7d".data)), false) :=
  (extractor_fastpath_iff ("\x7b\"a\":1\x7d".data)).mpr (by decide)

/-! ## Counterexamples for claims C1, C2, C4, C6 -/

/-- C1 counterexample: the scalar true is valid JSON, yet repairJSON
replaces it by the JSON empty-string literal (the no-opener branch
runs before the validity fast path), whose decoded value differs from
strict decoding of the original. -/
theorem repair_validScalar_lost :
    repairJSON ("true".data) = .ok [qch, qch] ∧
    jparseFull [qch, qch] ≠ jparseFull ("true".data) := by
  exact ⟨by decide, by decide⟩

/-- C2 counterexample: an input taken by the ellipsis shortcut branch
is accepted with one opening brace and no closing brace in the
returned text. -/
theorem repair_success_unbalanced :
    repairJSON ("[\x7ba, ...]".data) = .ok ("[\x7ba]".data) ∧
    countCh '{' ("[\x7ba]".data) ≠ countCh '}' ("[\x7ba]".data) := by
  exact ⟨by decide, by decide⟩

/-- C4 counterexample: decoding an object into a slice target does
produce the expected-array error, but only after one direct decode
attempt has run — not before any decode attempt as claimed. -/
theorem shapeGuard_after_decode :
    ToWithOptions intSliceTarget ("\x7b\"a\":1\x7d".data) DefaultOptions =
      .error .expectedJSONArray ∧
    (ToWithOptionsT intSliceTarget ("\x7b\"a\":1\x7d".data) DefaultOptions).2.decodeAttempts
      = 1 := by
  exact ⟨by decide, by decide⟩

/-- C6 counterexample: a true literal with no whitespace after the
colon is wrapped in quotes by the unquoted-value stage instead of
being left unquoted. -/
theorem fixValues_literal_quoted :
    fixUnquotedValues ("\x7b\"a\":true\x7d".data) = "\x7b\"a\":\"true\"\x7d".data := by
  decide

/-! ## Parser character accounting (claim C2) -/

theorem countCh_skipWs (c : Char) (hws : isJSONWs c = false) (s : List Char) :
    countCh c s = countCh c (skipWs s) := by
  conv_lhs => rw [← List.takeWhile_append_dropWhile isJSONWs s]
  rw [countCh_append]
  have h0 : countCh c (s.takeWhile isJSONWs) = 0 :=
    countCh_eq_zero_of_class isJSONWs hws (fun x hx => mem_takeWhile_sat hx)
  rw [h0]
  simp [skipWs]

theorem appendE_nil : ∀ a : JElems, appendE a JElems.nil = a
  | JElems.nil => rfl
  | JElems.cons v es => by rw [appendE, appendE_nil es]

theorem appendF_nil : ∀ a : JFields, appendF a JFields.nil = a
  | JFields.nil => rfl
  | JFields.cons k v fs => by rw [appendF, appendF_nil fs]

theorem appendE_snoc : ∀ (a : JElems) (v : JVal) (b : JElems),
    appendE (snocE a v) b = appendE a (JElems.cons v b)
  | JElems.nil, _, _ => rfl
  | JElems.cons w es, v, b => by
    rw [snocE, appendE, appendE_snoc es v b, appendE]

theorem appendF_snoc : ∀ (a : JFields) (k : List Char) (v : JVal) (b : JFields),
    appendF (snocF a k v) b = appendF a (JFields.cons k v b)
  | JFields.nil, _, _, _ => rfl
  | JFields.cons k0 v0 fs, k, v, b => by
    rw [snocF, appendF, appendF_snoc fs k v b, appendF]

theorem isPrefixOf_decomp : ∀ (p s : List Char), p.isPrefixOf s = true →
    s = p ++ s.drop p.length := by
  intro p
  induction p with
  | nil =>
    intro s _
    simp
  | cons a p2 ih =>
    intro s h
    cases s with
    | nil => simp [List.isPrefixOf] at h
    | cons b t =>
      simp only [List.isPrefixOf, Bool.and_eq_true, beq_iff_eq] at h
      obtain ⟨h1, h2⟩ := h
      subst h1
      have := ih t h2
      simp only [List.length_cons, List.drop_succ_cons, List.cons_append]
      conv_lhs => rw [this]

theorem scanStr_decomp : ∀ (n : Nat) (s b r : List Char), s.length ≤ n →
    scanStr s = some (b, r) → s = b ++ qch :: r := by
  intro n
  induction n with
  | zero =>
    intro s b r hl h
    cases s with
    | nil => simp [scanStr] at h
    | cons c t => simp at hl
  | succ n ih =>
    intro s b r hl h
    cases s with
    | nil => simp [scanStr] at h
    | cons c t =>
      unfold scanStr at h
      by_cases h1 : c = qch
      · rw [if_pos h1] at h
        simp only [Option.some.injEq, Prod.mk.injEq] at h
        obtain ⟨hb, hr⟩ := h
        subst hb
        subst hr
        subst h1
        rfl
      · rw [if_neg h1] at h
        by_cases h2 : c = '\\'
        · rw [if_pos h2] at h
          cases t with
          | nil => simp at h
          | cons e r2 =>
            dsimp only at h
            by_cases h3 : e = 'u'
            · rw [if_pos h3] at h
              cases r2 with
              | nil => simp at h
              | cons a1 t1 =>
                cases t1 with
                | nil => simp at h
                | cons a2 t2 =>
                  cases t2 with
                  | nil => simp at h
                  | cons a3 t3 =>
                    cases t3 with
                    | nil => simp at h
                    | cons a4 r3 =>
                      dsimp only at h
                      by_cases h4 : (isHexChar a1 && isHexChar a2 && isHexChar a3 &&
                          isHexChar a4) = true
                      · rw [if_pos h4] at h
                        cases hs3 : scanStr r3 with
                        | none => rw [hs3] at h; simp at h
                        | some p =>
                          rw [hs3] at h
                          obtain ⟨p1, p2⟩ := p
                          simp only [Option.map_some', Option.some.injEq,
                            Prod.mk.injEq] at h
                          obtain ⟨hb, hr⟩ := h
                          have hlen : r3.length ≤ n := by
                            simp only [List.length_cons] at hl
                            omega
                          have hd := ih r3 p1 p2 hlen hs3
                          subst hb
                          subst hr
                          subst h2
                          subst h3
                          rw [hd]
                          simp
                      · rw [if_neg h4] at h
                        simp at h
            · rw [if_neg h3] at h
              by_cases h4 : isEscChar e = true
              · rw [if_pos h4] at h
                cases hs2 : scanStr r2 with
                | none => rw [hs2] at h; simp at h
                | some p =>
                  rw [hs2] at h
                  obtain ⟨p1, p2⟩ := p
                  simp only [Option.map_some', Option.some.injEq, Prod.mk.injEq] at h
                  obtain ⟨hb, hr⟩ := h
                  have hlen : r2.length ≤ n := by
                    simp only [List.length_cons] at hl
                    omega
                  have hd := ih r2 p1 p2 hlen hs2
                  subst hb
                  subst hr
                  subst h2
                  rw [hd]
                  simp
              · rw [if_neg h4] at h
                simp at h
        · rw [if_neg h2] at h
          by_cases h3 : 0x20 ≤ c.toNat
          · rw [if_pos h3] at h
            cases hs : scanStr t with
            | none => rw [hs] at h; simp at h
            | some p =>
              rw [hs] at h
              obtain ⟨p1, p2⟩ := p
              simp only [Option.map_some', Option.some.injEq, Prod.mk.injEq] at h
              obtain ⟨hb, hr⟩ := h
              have hlen : t.length ≤ n := by
                simp only [List.length_cons] at hl
                omega
              have hd := ih t p1 p2 hlen hs
              subst hb
              subst hr
              rw [hd]
              simp
          · rw [if_neg h3] at h
            simp at h

theorem digitSpan_decomp (s : List Char) : (digitSpan s).1 ++ (digitSpan s).2 = s :=
  List.takeWhile_append_dropWhile _ _

theorem numIntPart_decomp : ∀ (s ip r : List Char), numIntPart s = some (ip, r) →
    s = ip ++ r := by
  intro s ip r h
  cases s with
  | nil => simp [numIntPart] at h
  | cons c t =>
    simp only [numIntPart] at h
    by_cases h1 : c = '0'
    · rw [if_pos h1] at h
      simp only [Option.some.injEq, Prod.mk.injEq] at h
      obtain ⟨h2, h3⟩ := h
      subst h2
      subst h3
      subst h1
      rfl
    · rw [if_neg h1] at h
      by_cases h2 : isDigitChar c = true
      · rw [if_pos h2] at h
        simp only [Option.some.injEq, Prod.mk.injEq] at h
        obtain ⟨h3, h4⟩ := h
        subst h3
        subst h4
        conv_lhs => rw [← digitSpan_decomp t]
        simp
      · rw [if_neg h2] at h
        simp at h

theorem numFracPart_decomp : ∀ (s fp r : List Char), numFracPart s = some (fp, r) →
    s = fp ++ r := by
  intro s fp r h
  cases s with
  | nil =>
    simp only [numFracPart, Option.some.injEq, Prod.mk.injEq] at h
    obtain ⟨h1, h2⟩ := h
    subst h1
    subst h2
    rfl
  | cons c t =>
    simp only [numFracPart] at h
    by_cases h1 : c = '.'
    · rw [if_pos h1] at h
      rcases hds : digitSpan t with ⟨ds, r2⟩
      rw [hds] at h
      cases ds with
      | nil => simp at h
      | cons d ds2 =>
        simp only [Option.some.injEq, Prod.mk.injEq] at h
        obtain ⟨h2, h3⟩ := h
        subst h2
        subst h3
        subst h1
        have hdec := digitSpan_decomp t
        rw [hds] at hdec
        conv_lhs => rw [← hdec]
        simp
    · rw [if_neg h1] at h
      simp only [Option.some.injEq, Prod.mk.injEq] at h
      obtain ⟨h2, h3⟩ := h
      subst h2
      subst h3
      rfl

theorem numExpPart_decomp : ∀ (s ep r : List Char), numExpPart s = some (ep, r) →
    s = ep ++ r := by
  intro s ep r h
  cases s with
  | nil =>
    simp only [numExpPart, Option.some.injEq, Prod.mk.injEq] at h
    obtain ⟨h1, h2⟩ := h
    subst h1
    subst h2
    rfl
  | cons c t =>
    simp only [numExpPart] at h
    by_cases h1 : (c = 'e' || c = 'E') = true
    · rw [if_pos h1] at h
      cases t with
      | nil => simp at h
      | cons s2 r2 =>
        dsimp only at h
        by_cases h2 : (s2 = '+' || s2 = '-') = true
        · rw [if_pos h2] at h
          rcases hds : digitSpan r2 with ⟨ds, r3⟩
          rw [hds] at h
          cases ds with
          | nil => simp at h
          | cons d ds2 =>
            simp only [Option.some.injEq, Prod.mk.injEq] at h
            obtain ⟨h3, h4⟩ := h
            subst h3
            subst h4
            have hdec := digitSpan_decomp r2
            rw [hds] at hdec
            conv_lhs => rw [← hdec]
            simp
        · rw [if_neg h2] at h
          rcases hds : digitSpan (s2 :: r2) with ⟨ds, r3⟩
          rw [hds] at h
          cases ds with
          | nil => simp at h
          | cons d ds2 =>
            simp only [Option.some.injEq, Prod.mk.injEq] at h
            obtain ⟨h3, h4⟩ := h
            subst h3
            subst h4
            have hdec := digitSpan_decomp (s2 :: r2)
            rw [hds] at hdec
            conv_lhs => rw [← hdec]
            simp
    · rw [if_neg h1] at h
      simp only [Option.some.injEq, Prod.mk.injEq] at h
      obtain ⟨h2, h3⟩ := h
      subst h2
      subst h3
      rfl

theorem numScanPos_decomp : ∀ (s l r : List Char), numScanPos s = some (l, r) →
    s = l ++ r := by
  intro s l r h
  simp only [numScanPos] at h
  cases hip : numIntPart s with
  | none => rw [hip] at h; simp at h
  | some p1 =>
    rw [hip] at h
    obtain ⟨ip, r1⟩ := p1
    dsimp only at h
    cases hfp : numFracPart r1 with
    | none => rw [hfp] at h; simp at h
    | some p2 =>
      rw [hfp] at h
      obtain ⟨fp, r2⟩ := p2
      dsimp only at h
      cases hep : numExpPart r2 with
      | none => rw [hep] at h; simp at h
      | some p3 =>
        rw [hep] at h
        obtain ⟨ep, r3⟩ := p3
        dsimp only at h
        simp only [Option.some.injEq, Prod.mk.injEq] at h
        obtain ⟨h1, h2⟩ := h
        subst h1
        subst h2
        rw [numIntPart_decomp s ip r1 hip, numFracPart_decomp r1 fp r2 hfp,
          numExpPart_decomp r2 ep r3 hep]
        simp

theorem numScan_decomp : ∀ (s l r : List Char), numScan s = some (l, r) →
    s = l ++ r := by
  intro s l r h
  cases s with
  | nil => simp [numScan] at h
  | cons c t =>
    simp only [numScan] at h
    by_cases h1 : c = '-'
    · rw [if_pos h1] at h
      cases hp : numScanPos t with
      | none => rw [hp] at h; simp at h
      | some p =>
        rw [hp] at h
        obtain ⟨l2, r2⟩ := p
        dsimp only at h
        simp only [Option.some.injEq, Prod.mk.injEq] at h
        obtain ⟨h2, h3⟩ := h
        subst h2
        subst h3
        subst h1
        rw [numScanPos_decomp t l2 r2 hp]
        simp
    · rw [if_neg h1] at h
      exact numScanPos_decomp (c :: t) l r h

theorem parseCountAll (c : Char)
    (hc : c = '{' ∨ c = '}' ∨ c = '[' ∨ c = ']') : ∀ f : Nat,
    (∀ s v rest, parseVal f s = some (v, rest) →
      countCh c s = ccV c v + countCh c rest) ∧
    (∀ acc s w rest, parseArrRest f acc s = some (w, rest) →
      ∃ es2, w = JVal.jArr (appendE acc es2) ∧
        countCh c s = ccE c es2 + (if ']' = c then 1 else 0) + countCh c rest) ∧
    (∀ acc s w rest, parseObjRest f acc s = some (w, rest) →
      ∃ fs2, w = JVal.jObj (appendF acc fs2) ∧
        countCh c s = ccF c fs2 + (if '}' = c then 1 else 0) + countCh c rest) := by
  have hws : isJSONWs c = false := by rcases hc with rfl | rfl | rfl | rfl <;> decide
  have hq : ¬(qch = c) := by rcases hc with rfl | rfl | rfl | rfl <;> decide
  have hcm : ¬(',' = c) := by rcases hc with rfl | rfl | rfl | rfl <;> decide
  have hcl : ¬(':' = c) := by rcases hc with rfl | rfl | rfl | rfl <;> decide
  have hlt : ¬('t' = c) := by rcases hc with rfl | rfl | rfl | rfl <;> decide
  have hlf : ¬('f' = c) := by rcases hc with rfl | rfl | rfl | rfl <;> decide
  have hln : ¬('n' = c) := by rcases hc with rfl | rfl | rfl | rfl <;> decide
  have hrue : countCh c (['r', 'u', 'e']) = 0 := by
    rcases hc with rfl | rfl | rfl | rfl <;> decide
  have halse : countCh c (['a', 'l', 's', 'e']) = 0 := by
    rcases hc with rfl | rfl | rfl | rfl <;> decide
  have hull : countCh c (['u', 'l', 'l']) = 0 := by
    rcases hc with rfl | rfl | rfl | rfl <;> decide
  intro f
  induction f with
  | zero =>
    refine ⟨?_, ?_, ?_⟩
    · intro s v rest h
      simp [parseVal] at h
    · intro acc s w rest h
      simp [parseArrRest] at h
    · intro acc s w rest h
      simp [parseObjRest] at h
  | succ f ih =>
    obtain ⟨ihP, ihQ, ihR⟩ := ih
    refine ⟨?_, ?_, ?_⟩
    · intro s v rest h
      rw [parseVal] at h
      cases hsw : skipWs s with
      | nil => rw [hsw] at h; simp at h
      | cons c0 r =>
        rw [hsw] at h
        dsimp only at h
        by_cases hb1 : c0 = '{'
        · rw [if_pos hb1] at h
          subst hb1
          have e1 : countCh c s = countCh c ('{' :: r) := by
            rw [countCh_skipWs c hws s, hsw]
          cases hsw2 : skipWs r with
          | nil => rw [hsw2] at h; simp at h
          | cons c2 r2 =>
            rw [hsw2] at h
            dsimp only at h
            by_cases hb2 : c2 = '}'
            · rw [if_pos hb2] at h
              subst hb2
              have e2 : countCh c r = countCh c ('}' :: r2) := by
                rw [countCh_skipWs c hws r, hsw2]
              simp only [Option.some.injEq, Prod.mk.injEq] at h
              obtain ⟨hv, hr⟩ := h
              subst hv
              subst hr
              rw [e1]
              simp only [countCh]
              rw [e2]
              simp only [countCh, ccV, ccF]
              ring
            · rw [if_neg hb2] at h
              by_cases hb3 : c2 = qch
              · rw [if_pos hb3] at h
                subst hb3
                have e2 : countCh c r = countCh c (qch :: r2) := by
                  rw [countCh_skipWs c hws r, hsw2]
                cases hss : scanStr r2 with
                | none => rw [hss] at h; simp at h
                | some kp =>
                  rw [hss] at h
                  obtain ⟨k, r3⟩ := kp
                  dsimp only at h
                  have e3 : countCh c r2 = countCh c k + countCh c r3 := by
                    rw [scanStr_decomp r2.length r2 k r3 le_rfl hss, countCh_append]
                    simp only [countCh]
                    rw [if_neg hq]
                    ring
                  cases hsw3 : skipWs r3 with
                  | nil => rw [hsw3] at h; simp at h
                  | cons c3 r4 =>
                    rw [hsw3] at h
                    dsimp only at h
                    by_cases hb4 : c3 = ':'
                    · rw [if_pos hb4] at h
                      subst hb4
                      have e4 : countCh c r3 = countCh c (':' :: r4) := by
                        rw [countCh_skipWs c hws r3, hsw3]
                      cases hpv : parseVal f r4 with
                      | none => rw [hpv] at h; simp at h
                      | some vp =>
                        rw [hpv] at h
                        obtain ⟨v1, r5⟩ := vp
                        dsimp only at h
                        have e5 := ihP r4 v1 r5 hpv
                        obtain ⟨fs2, hw, e6⟩ :=
                          ihR (JFields.cons k v1 JFields.nil) r5 v rest h
                        subst hw
                        rw [show appendF (JFields.cons k v1 JFields.nil) fs2 =
                          JFields.cons k v1 fs2 from rfl]
                        rw [e1]
                        simp only [countCh]
                        rw [e2]
                        simp only [countCh]
                        rw [e3, e4]
                        simp only [countCh]
                        rw [e5, e6]
                        simp only [ccV, ccF, if_neg hq, if_neg hcl]
                        ring
                    · rw [if_neg hb4] at h
                      simp at h
              · rw [if_neg hb3] at h
                simp at h
        · rw [if_neg hb1] at h
          by_cases hb2 : c0 = '['
          · rw [if_pos hb2] at h
            subst hb2
            have e1 : countCh c s = countCh c ('[' :: r) := by
              rw [countCh_skipWs c hws s, hsw]
            cases hsw2 : skipWs r with
            | nil => rw [hsw2] at h; simp at h
            | cons c2 r2 =>
              rw [hsw2] at h
              dsimp only at h
              by_cases hb3 : c2 = ']'
              · rw [if_pos hb3] at h
                subst hb3
                have e2 : countCh c r = countCh c (']' :: r2) := by
                  rw [countCh_skipWs c hws r, hsw2]
                simp only [Option.some.injEq, Prod.mk.injEq] at h
                obtain ⟨hv, hr⟩ := h
                subst hv
                subst hr
                rw [e1]
                simp only [countCh]
                rw [e2]
                simp only [countCh, ccV, ccE]
                ring
              · rw [if_neg hb3] at h
                have e2 : countCh c r = countCh c (c2 :: r2) := by
                  rw [countCh_skipWs c hws r, hsw2]
                cases hpv : parseVal f (c2 :: r2) with
                | none => rw [hpv] at h; simp at h
                | some vp =>
                  rw [hpv] at h
                  obtain ⟨v1, r3⟩ := vp
                  dsimp only at h
                  have e3 := ihP (c2 :: r2) v1 r3 hpv
                  obtain ⟨es2, hw, e4⟩ :=
                    ihQ (JElems.cons v1 JElems.nil) r3 v rest h
                  subst hw
                  rw [show appendE (JElems.cons v1 JElems.nil) es2 =
                    JElems.cons v1 es2 from rfl]
                  rw [e1]
                  simp only [countCh]
                  rw [e2, e3, e4]
                  simp only [ccV, ccE]
                  ring
          · rw [if_neg hb2] at h
            by_cases hb3 : c0 = qch
            · rw [if_pos hb3] at h
              subst hb3
              have e1 : countCh c s = countCh c (qch :: r) := by
                rw [countCh_skipWs c hws s, hsw]
              cases hss : scanStr r with
              | none => rw [hss] at h; simp at h
              | some bp =>
                rw [hss] at h
                obtain ⟨b, r2⟩ := bp
                dsimp only at h
                simp only [Option.some.injEq, Prod.mk.injEq] at h
                obtain ⟨hv, hr⟩ := h
                subst hv
                subst hr
                rw [e1]
                simp only [countCh]
                rw [scanStr_decomp r.length r b r2 le_rfl hss, countCh_append]
                simp only [countCh, ccV, if_neg hq]
                ring
            · rw [if_neg hb3] at h
              by_cases hb4 : c0 = 't'
              · rw [if_pos hb4] at h
                subst hb4
                by_cases hp : (['r', 'u', 'e'].isPrefixOf r) = true
                · rw [if_pos hp] at h
                  simp only [Option.some.injEq, Prod.mk.injEq] at h
                  obtain ⟨hv, hr⟩ := h
                  subst hv
                  subst hr
                  have e1 : countCh c s = countCh c ('t' :: r) := by
                    rw [countCh_skipWs c hws s, hsw]
                  have hd : r = ['r', 'u', 'e'] ++ r.drop 3 := by
                    have := isPrefixOf_decomp (['r', 'u', 'e']) r hp
                    simpa using this
                  have e2 : countCh c r = countCh c (r.drop 3) := by
                    conv_lhs => rw [hd]
                    rw [countCh_append, hrue]
                    ring
                  rw [e1]
                  simp only [countCh]
                  rw [e2]
                  simp only [ccV, if_neg hlt]
                · rw [if_neg hp] at h
                  simp at h
              · rw [if_neg hb4] at h
                by_cases hb5 : c0 = 'f'
                · rw [if_pos hb5] at h
                  subst hb5
                  by_cases hp : (['a', 'l', 's', 'e'].isPrefixOf r) = true
                  · rw [if_pos hp] at h
                    simp only [Option.some.injEq, Prod.mk.injEq] at h
                    obtain ⟨hv, hr⟩ := h
                    subst hv
                    subst hr
                    have e1 : countCh c s = countCh c ('f' :: r) := by
                      rw [countCh_skipWs c hws s, hsw]
                    have hd : r = ['a', 'l', 's', 'e'] ++ r.drop 4 := by
                      have := isPrefixOf_decomp (['a', 'l', 's', 'e']) r hp
                      simpa using this
                    have e2 : countCh c r = countCh c (r.drop 4) := by
                      conv_lhs => rw [hd]
                      rw [countCh_append, halse]
                      ring
                    rw [e1]
                    simp only [countCh]
                    rw [e2]
                    simp only [ccV, if_neg hlf]
                  · rw [if_neg hp] at h
                    simp at h
                · rw [if_neg hb5] at h
                  by_cases hb6 : c0 = 'n'
                  · rw [if_pos hb6] at h
                    subst hb6
                    by_cases hp : (['u', 'l', 'l'].isPrefixOf r) = true
                    · rw [if_pos hp] at h
                      simp only [Option.some.injEq, Prod.mk.injEq] at h
                      obtain ⟨hv, hr⟩ := h
                      subst hv
                      subst hr
                      have e1 : countCh c s = countCh c ('n' :: r) := by
                        rw [countCh_skipWs c hws s, hsw]
                      have hd : r = ['u', 'l', 'l'] ++ r.drop 3 := by
                        have := isPrefixOf_decomp (['u', 'l', 'l']) r hp
                        simpa using this
                      have e2 : countCh c r = countCh c (r.drop 3) := by
                        conv_lhs => rw [hd]
                        rw [countCh_append, hull]
                        ring
                      rw [e1]
                      simp only [countCh]
                      rw [e2]
                      simp only [ccV, if_neg hln]
                    · rw [if_neg hp] at h
                      simp at h
                  · rw [if_neg hb6] at h
                    by_cases hb7 : (c0 = '-' || isDigitChar c0) = true
                    · rw [if_pos hb7] at h
                      cases hns : numScan (c0 :: r) with
                      | none => rw [hns] at h; simp at h
                      | some p =>
                        rw [hns] at h
                        obtain ⟨lex, r2⟩ := p
                        dsimp only at h
                        simp only [Option.some.injEq, Prod.mk.injEq] at h
                        obtain ⟨hv, hr⟩ := h
                        subst hv
                        subst hr
                        have e1 : countCh c s = countCh c (c0 :: r) := by
                          rw [countCh_skipWs c hws s, hsw]
                        rw [e1, numScan_decomp (c0 :: r) lex r2 hns, countCh_append]
                        simp only [ccV]
                    · rw [if_neg hb7] at h
                      simp at h
    · intro acc s w rest h
      rw [parseArrRest] at h
      cases hsw : skipWs s with
      | nil => rw [hsw] at h; simp at h
      | cons c0 r =>
        rw [hsw] at h
        dsimp only at h
        have e0 : countCh c s = countCh c (c0 :: r) := by
          rw [countCh_skipWs c hws s, hsw]
        by_cases hb1 : c0 = ']'
        · rw [if_pos hb1] at h
          subst hb1
          simp only [Option.some.injEq, Prod.mk.injEq] at h
          obtain ⟨hw, hr⟩ := h
          subst hw
          subst hr
          refine ⟨JElems.nil, ?_, ?_⟩
          · rw [appendE_nil]
          · rw [e0]
            simp only [countCh, ccE]
            ring
        · rw [if_neg hb1] at h
          by_cases hb2 : c0 = ','
          · rw [if_pos hb2] at h
            subst hb2
            cases hpv : parseVal f r with
            | none => rw [hpv] at h; simp at h
            | some vp =>
              rw [hpv] at h
              obtain ⟨v1, r2⟩ := vp
              dsimp only at h
              have e1 := ihP r v1 r2 hpv
              obtain ⟨es2, hw, e2⟩ := ihQ (snocE acc v1) r2 w rest h
              refine ⟨JElems.cons v1 es2, ?_, ?_⟩
              · rw [hw, appendE_snoc]
              · rw [e0]
                simp only [countCh]
                rw [e1, e2]
                simp only [ccE, if_neg hcm]
                ring
          · rw [if_neg hb2] at h
            simp at h
    · intro acc s w rest h
      rw [parseObjRest] at h
      cases hsw : skipWs s with
      | nil => rw [hsw] at h; simp at h
      | cons c0 r =>
        rw [hsw] at h
        dsimp only at h
        have e0 : countCh c s = countCh c (c0 :: r) := by
          rw [countCh_skipWs c hws s, hsw]
        by_cases hb1 : c0 = '}'
        · rw [if_pos hb1] at h
          subst hb1
          simp only [Option.some.injEq, Prod.mk.injEq] at h
          obtain ⟨hw, hr⟩ := h
          subst hw
          subst hr
          refine ⟨JFields.nil, ?_, ?_⟩
          · rw [appendF_nil]
          · rw [e0]
            simp only [countCh, ccF]
            ring
        · rw [if_neg hb1] at h
          by_cases hb2 : c0 = ','
          · rw [if_pos hb2] at h
            subst hb2
            cases hsw2 : skipWs r with
            | nil => rw [hsw2] at h; simp at h
            | cons c2 r2 =>
              rw [hsw2] at h
              dsimp only at h
              have e2 : countCh c r = countCh c (c2 :: r2) := by
                rw [countCh_skipWs c hws r, hsw2]
              by_cases hb3 : c2 = qch
              · rw [if_pos hb3] at h
                subst hb3
                cases hss : scanStr r2 with
                | none => rw [hss] at h; simp at h
                | some kp =>
                  rw [hss] at h
                  obtain ⟨k, r3⟩ := kp
                  dsimp only at h
                  have e3 : countCh c r2 = countCh c k + countCh c r3 := by
                    rw [scanStr_decomp r2.length r2 k r3 le_rfl hss, countCh_append]
                    simp only [countCh]
                    rw [if_neg hq]
                    ring
                  cases hsw3 : skipWs r3 with
                  | nil => rw [hsw3] at h; simp at h
                  | cons c3 r4 =>
                    rw [hsw3] at h
                    dsimp only at h
                    by_cases hb4 : c3 = ':'
                    · rw [if_pos hb4] at h
                      subst hb4
                      have e4 : countCh c r3 = countCh c (':' :: r4) := by
                        rw [countCh_skipWs c hws r3, hsw3]
                      cases hpv : parseVal f r4 with
                      | none => rw [hpv] at h; simp at h
                      | some vp =>
                        rw [hpv] at h
                        obtain ⟨v1, r5⟩ := vp
                        dsimp only at h
                        have e5 := ihP r4 v1 r5 hpv
                        obtain ⟨fs2, hw, e6⟩ := ihR (snocF acc k v1) r5 w rest h
                        refine ⟨JFields.cons k v1 fs2, ?_, ?_⟩
                        · rw [hw, appendF_snoc]
                        · rw [e0]
                          simp only [countCh]
                          rw [e2]
                          simp only [countCh]
                          rw [e3, e4]
                          simp only [countCh]
                          rw [e5, e6]
                          simp only [ccF, if_neg hq, if_neg hcl, if_neg hcm]
                          ring
                    · rw [if_neg hb4] at h
                      simp at h
              · rw [if_neg hb3] at h
                simp at h
          · rw [if_neg hb2] at h
            simp at h

theorem if_add_distrib (P : Prop) [Decidable P] (a b : Nat) :
    (if P then a + b else 0) = (if P then a else 0) + (if P then b else 0) := by
  by_cases h : P <;> simp [h]

theorem arrOne (c : Char) :
    (if '[' = c then (1 : Nat) else 0) + (if ']' = c then 1 else 0) =
      (if '[' = c ∨ ']' = c then 1 else 0) := by
  by_cases hA : '[' = c
  · subst hA
    decide
  · by_cases hB : ']' = c
    · subst hB
      decide
    · simp [hA, hB]

theorem objOne (c : Char) :
    (if '{' = c then (1 : Nat) else 0) + (if '}' = c then 1 else 0) =
      (if '{' = c ∨ '}' = c then 1 else 0) := by
  by_cases hA : '{' = c
  · subst hA
    decide
  · by_cases hB : '}' = c
    · subst hB
      decide
    · simp [hA, hB]

mutual
theorem ccV_split (c : Char) : ∀ v : JVal,
    ccV c v = (if '{' = c ∨ '}' = c then objCount v else 0) +
      (if '[' = c ∨ ']' = c then arrCount v else 0) + lexCount c v
  | JVal.jNull => by simp [ccV, objCount, arrCount, lexCount]
  | JVal.jBool b => by simp [ccV, objCount, arrCount, lexCount]
  | JVal.jNum l => by simp [ccV, objCount, arrCount, lexCount]
  | JVal.jStr b => by simp [ccV, objCount, arrCount, lexCount]
  | JVal.jArr es => by
    simp only [ccV, objCount, arrCount, lexCount, ccE_split c es, if_add_distrib]
    rw [← arrOne c]
    ring
  | JVal.jObj fs => by
    simp only [ccV, objCount, arrCount, lexCount, ccF_split c fs, if_add_distrib]
    rw [← objOne c]
    ring
theorem ccE_split (c : Char) : ∀ es : JElems,
    ccE c es = (if '{' = c ∨ '}' = c then objCountE es else 0) +
      (if '[' = c ∨ ']' = c then arrCountE es else 0) + lexCountE c es
  | JElems.nil => by simp [ccE, objCountE, arrCountE, lexCountE]
  | JElems.cons v es => by
    simp only [ccE, objCountE, arrCountE, lexCountE, ccV_split c v, ccE_split c es,
      if_add_distrib]
    ring
theorem ccF_split (c : Char) : ∀ fs : JFields,
    ccF c fs = (if '{' = c ∨ '}' = c then objCountF fs else 0) +
      (if '[' = c ∨ ']' = c then arrCountF fs else 0) + lexCountF c fs
  | JFields.nil => by simp [ccF, objCountF, arrCountF, lexCountF]
  | JFields.cons k v fs => by
    simp only [ccF, objCountF, arrCountF, lexCountF, ccV_split c v, ccF_split c fs,
      if_add_distrib]
    ring
end

/-- C2 (amended): whenever the repair pipeline succeeds and its
output additionally parses as JSON, every brace and bracket of the
output is accounted for by the parsed value: the '\x7b' count and the
'\x7d' count both equal the number of object nodes plus the
occurrences inside string bodies, object keys and number lexemes, and
likewise the '[' and ']' counts with array nodes — so the counts
balance exactly up to in-lexeme characters.  The unconditional form
of the claim is refuted by the counterexample: a successful repair
may return text that is not JSON and has strictly unbalanced
brackets. -/
theorem repair_ok_parse_bracket_counts (s t : List Char) (v : JVal)
    (h1 : repairJSON s = Except.ok t) (h2 : jparseFull t = some v) :
    countCh '{' t = objCount v + lexCount '{' v ∧
    countCh '}' t = objCount v + lexCount '}' v ∧
    countCh '[' t = arrCount v + lexCount '[' v ∧
    countCh ']' t = arrCount v + lexCount ']' v := by
  rw [jparseFull] at h2
  cases hp : parseVal (t.length + 1) t with
  | none => rw [hp] at h2; simp at h2
  | some p =>
    rw [hp] at h2
    obtain ⟨v0, rest⟩ := p
    dsimp only at h2
    by_cases hre : (skipWs rest).isEmpty = true
    · rw [if_pos hre] at h2
      simp only [Option.some.injEq] at h2
      subst h2
      have hrest : skipWs rest = [] := by
        cases hsw : skipWs rest with
        | nil => rfl
        | cons a b => rw [hsw] at hre; simp at hre
      have hzero : ∀ c2 : Char, isJSONWs c2 = false → countCh c2 rest = 0 := by
        intro c2 hc2
        rw [countCh_skipWs c2 hc2 rest, hrest]
        rfl
      refine ⟨?_, ?_, ?_, ?_⟩
      · have hA := ((parseCountAll '{' (Or.inl rfl)) (t.length + 1)).1 t v0 rest hp
        rw [ccV_split, hzero '{' (by decide)] at hA
        simpa using hA
      · have hA := ((parseCountAll '}' (Or.inr (Or.inl rfl))) (t.length + 1)).1
          t v0 rest hp
        rw [ccV_split, hzero '}' (by decide)] at hA
        simpa using hA
      · have hA := ((parseCountAll '[' (Or.inr (Or.inr (Or.inl rfl))))
          (t.length + 1)).1 t v0 rest hp
        rw [ccV_split, hzero '[' (by decide)] at hA
        simpa using hA
      · have hA := ((parseCountAll ']' (Or.inr (Or.inr (Or.inr rfl))))
          (t.length + 1)).1 t v0 rest hp
        rw [ccV_split, hzero ']' (by decide)] at hA
        simpa using hA
    · rw [if_neg hre] at h2
      simp at h2

/-- Witness for the amended C2 at a concrete repaired output with one
object node inside one array node. -/
theorem repair_ok_parse_bracket_counts_witness :
    countCh '{' ("[\x7b\"k\":8\x7d]".data) =
      objCount (JVal.jArr (JElems.cons (JVal.jObj (JFields.cons ['k'] (JVal.jNum ['8']) JFields.nil)) JElems.nil)) + lexCount '{' (JVal.jArr (JElems.cons (JVal.jObj (JFields.cons ['k'] (JVal.jNum ['8']) JFields.nil)) JElems.nil)) ∧
    countCh '}' ("[\x7b\"k\":8\x7d]".data) =
      objCount (JVal.jArr (JElems.cons (JVal.jObj (JFields.cons ['k'] (JVal.jNum ['8']) JFields.nil)) JElems.nil)) + lexCount '}' (JVal.jArr (JElems.cons (JVal.jObj (JFields.cons ['k'] (JVal.jNum ['8']) JFields.nil)) JElems.nil)) ∧
    countCh '[' ("[\x7b\"k\":8\x7d]".data) =
      arrCount (JVal.jArr (JElems.cons (JVal.jObj (JFields.cons ['k'] (JVal.jNum ['8']) JFields.nil)) JElems.nil)) + lexCount '[' (JVal.jArr (JElems.cons (JVal.jObj (JFields.cons ['k'] (JVal.jNum ['8']) JFields.nil)) JElems.nil)) ∧
    countCh ']' ("[\x7b\"k\":8\x7d]".data) =
      arrCount (JVal.jArr (JElems.cons (JVal.jObj (JFields.cons ['k'] (JVal.jNum ['8']) JFields.nil)) JElems.nil)) + lexCount ']' (JVal.jArr (JElems.cons (JVal.jObj (JFields.cons ['k'] (JVal.jNum ['8']) JFields.nil)) JElems.nil)) :=
  repair_ok_parse_bracket_counts ("[\x7b\"k\":8\x7d]".data)
    ("[\x7b\"k\":8\x7d]".data) (JVal.jArr (JElems.cons (JVal.jObj (JFields.cons ['k'] (JVal.jNum ['8']) JFields.nil)) JElems.nil)) (by decide) (by decide)

/-! ## Root-shape facts (claim C4) -/

theorem parseArrRest_shape : ∀ (f : Nat) (acc : JElems) (s : List Char) (w : JVal)
    (rest : List Char), parseArrRest f acc s = some (w, rest) →
    ∃ es, w = JVal.jArr es := by
  intro f
  induction f with
  | zero =>
    intro acc s w rest h
    simp [parseArrRest] at h
  | succ f ih =>
    intro acc s w rest h
    rw [parseArrRest] at h
    cases hsw : skipWs s with
    | nil => rw [hsw] at h; simp at h
    | cons c0 r =>
      rw [hsw] at h
      dsimp only at h
      by_cases hb1 : c0 = ']'
      · rw [if_pos hb1] at h
        simp only [Option.some.injEq, Prod.mk.injEq] at h
        exact ⟨acc, h.1.symm⟩
      · rw [if_neg hb1] at h
        by_cases hb2 : c0 = ','
        · rw [if_pos hb2] at h
          cases hpv : parseVal f r with
          | none => rw [hpv] at h; simp at h
          | some vp =>
            rw [hpv] at h
            obtain ⟨v1, r2⟩ := vp
            dsimp only at h
            exact ih (snocE acc v1) r2 w rest h
        · rw [if_neg hb2] at h
          simp at h

theorem parseVal_obj_head (f : Nat) (s : List Char) (fs : JFields) (rest : List Char)
    (h : parseVal f s = some (JVal.jObj fs, rest)) : ∃ r, skipWs s = '{' :: r := by
  cases f with
  | zero => simp [parseVal] at h
  | succ f =>
    rw [parseVal] at h
    cases hsw : skipWs s with
    | nil => rw [hsw] at h; simp at h
    | cons c0 r =>
      rw [hsw] at h
      dsimp only at h
      by_cases hb1 : c0 = '{'
      · subst hb1
        exact ⟨r, rfl⟩
      · exfalso
        rw [if_neg hb1] at h
        by_cases hb2 : c0 = '['
        · rw [if_pos hb2] at h
          cases hsw2 : skipWs r with
          | nil => rw [hsw2] at h; simp at h
          | cons c2 r2 =>
            rw [hsw2] at h
            dsimp only at h
            by_cases hb3 : c2 = ']'
            · rw [if_pos hb3] at h
              simp at h
            · rw [if_neg hb3] at h
              cases hpv : parseVal f (c2 :: r2) with
              | none => rw [hpv] at h; simp at h
              | some vp =>
                rw [hpv] at h
                obtain ⟨v1, r3⟩ := vp
                dsimp only at h
                obtain ⟨es, hes⟩ :=
                  parseArrRest_shape f (JElems.cons v1 JElems.nil) r3 _ _ h
                simp at hes
        · rw [if_neg hb2] at h
          by_cases hb3 : c0 = qch
          · rw [if_pos hb3] at h
            cases hss : scanStr r with
            | none => rw [hss] at h; simp at h
            | some bp =>
              rw [hss] at h
              obtain ⟨b, r2⟩ := bp
              dsimp only at h
              simp at h
          · rw [if_neg hb3] at h
            by_cases hb4 : c0 = 't'
            · rw [if_pos hb4] at h
              by_cases hp : (['r', 'u', 'e'].isPrefixOf r) = true
              · rw [if_pos hp] at h
                simp at h
              · rw [if_neg hp] at h
                simp at h
            · rw [if_neg hb4] at h
              by_cases hb5 : c0 = 'f'
              · rw [if_pos hb5] at h
                by_cases hp : (['a', 'l', 's', 'e'].isPrefixOf r) = true
                · rw [if_pos hp] at h
                  simp at h
                · rw [if_neg hp] at h
                  simp at h
              · rw [if_neg hb5] at h
                by_cases hb6 : c0 = 'n'
                · rw [if_pos hb6] at h
                  by_cases hp : (['u', 'l', 'l'].isPrefixOf r) = true
                  · rw [if_pos hp] at h
                    simp at h
                  · rw [if_neg hp] at h
                    simp at h
                · rw [if_neg hb6] at h
                  by_cases hb7 : (c0 = '-' || isDigitChar c0) = true
                  · rw [if_pos hb7] at h
                    cases hns : numScan (c0 :: r) with
                    | none => rw [hns] at h; simp at h
                    | some p =>
                      rw [hns] at h
                      dsimp only at h
                      simp at h
                  · rw [if_neg hb7] at h
                    simp at h

theorem isJSONArray_skipWs : ∀ s : List Char,
    isJSONArray s = (match skipWs s with
      | [] => false
      | b :: _ => decide (b = '[')) := by
  intro s
  induction s with
  | nil => rfl
  | cons b t ih =>
    rw [isJSONArray]
    by_cases hb : (b = ' ' || b = '\t' || b = '\n' || b = '\r') = true
    · rw [if_pos hb, ih]
      have hsw : skipWs (b :: t) = skipWs t := by
        simp only [skipWs, List.dropWhile]
        rw [show isJSONWs b = true from hb]
      rw [hsw]
    · rw [if_neg hb]
      have hws : isJSONWs b = false := Bool.eq_false_iff.mpr (fun hh => hb hh)
      have hsw : skipWs (b :: t) = b :: t := by
        simp only [skipWs, List.dropWhile]
        rw [hws]
      rw [hsw]

/-- C4 (amended): an input whose extracted working text parses as a
JSON object, decoded into the int-slice target, produces the
expected-array error for every option set within the size limit —
with repair enabled or not — but only after one direct decode attempt
has already run and failed; the repair pipeline is never invoked.
The original claim's "before any decode attempt" is refuted by the
counterexample. -/
theorem objectRoot_sliceTarget_error (raw : List Char) (opts : UnmarshalOptions)
    (fs : JFields)
    (hsize : opts.maxInputSize = 0 ∨ raw.length ≤ opts.maxInputSize)
    (hroot : jparseFull (((prepareJSONForUnmarshalling raw).getD []).filter
        (fun c => c ≠ '\n')) = some (JVal.jObj fs)) :
    ToWithOptionsT intSliceTarget raw opts =
      (Except.error UErr.expectedJSONArray, ⟨true, 1, false⟩) := by
  have hc1 : ¬((decide (opts.maxInputSize > 0) &&
      decide (raw.length > opts.maxInputSize)) = true) := by
    simp only [Bool.and_eq_true, decide_eq_true_eq, not_and, not_lt]
    intro hpos
    rcases hsize with h | h <;> omega
  simp only [ToWithOptionsT]
  rw [if_neg hc1]
  set data := ((prepareJSONForUnmarshalling raw).getD []).filter
    (fun c => c ≠ '\n') with hdata
  have hne : ¬(data = []) := by
    intro hnil
    rw [hnil] at hroot
    have hemp : jparseFull ([] : List Char) = none := rfl
    rw [hemp] at hroot
    exact Option.noConfusion hroot
  rw [if_neg hne]
  have hum : unmarshalWith intSliceTarget data = none := by
    rw [unmarshalWith, hroot]
    rfl
  rw [hum]
  have hija : isJSONArray data = false := by
    rw [jparseFull] at hroot
    cases hp : parseVal (data.length + 1) data with
    | none => rw [hp] at hroot; simp at hroot
    | some p =>
      rw [hp] at hroot
      obtain ⟨v0, rest⟩ := p
      dsimp only at hroot
      by_cases hre : (skipWs rest).isEmpty = true
      · rw [if_pos hre] at hroot
        simp only [Option.some.injEq] at hroot
        subst hroot
        obtain ⟨r, hr⟩ := parseVal_obj_head _ data fs rest hp
        rw [isJSONArray_skipWs data, hr]
        rfl
      · rw [if_neg hre] at hroot
        simp at hroot
  rw [hija]
  rfl

/-- Witness for the amended C4 at the object input of the claim. -/
theorem objectRoot_sliceTarget_error_witness :
    ToWithOptionsT intSliceTarget ("\x7b\"a\":1\x7d".data) DefaultOptions =
      (Except.error UErr.expectedJSONArray, ⟨true, 1, false⟩) :=
  objectRoot_sliceTarget_error ("\x7b\"a\":1\x7d".data) DefaultOptions
    (JFields.cons ['a'] (JVal.jNum ['1']) JFields.nil) (by decide) (by decide)

/-! ## Serialisation round trip (claim C1) -/

theorem skipWs_cons_false {x : Char} (hx : isJSONWs x = false) (y : List Char) :
    skipWs (x :: y) = x :: y := by
  simp only [skipWs, List.dropWhile]
  rw [hx]

theorem isPrefixOf_append_self : ∀ (p s : List Char), p.isPrefixOf (p ++ s) = true := by
  intro p
  induction p with
  | nil => intro s; simp [List.isPrefixOf]
  | cons a p2 ih =>
    intro s
    simp only [List.cons_append, List.isPrefixOf, Bool.and_eq_true, beq_iff_eq]
    exact ⟨trivial, ih s⟩

theorem takeWhile_all {p : Char → Bool} :
    ∀ {l : List Char}, (∀ x ∈ l, p x = true) → l.takeWhile p = l := by
  intro l
  induction l with
  | nil => intro _; rfl
  | cons c t ih =>
    intro h
    simp only [List.takeWhile]
    rw [h c (by simp)]
    rw [ih (fun x hx => h x (by simp [hx]))]

theorem dropWhile_all {p : Char → Bool} :
    ∀ {l : List Char}, (∀ x ∈ l, p x = true) → l.dropWhile p = [] := by
  intro l
  induction l with
  | nil => intro _; rfl
  | cons c t ih =>
    intro h
    simp only [List.dropWhile]
    rw [h c (by simp)]
    exact ih (fun x hx => h x (by simp [hx]))

theorem span_append (X : List Char)
    (hX : ∀ c2 r2, X = c2 :: r2 → isDigitChar c2 = false) :
    ∀ t : List Char, digitSpan (t ++ X) = ((digitSpan t).1, (digitSpan t).2 ++ X) := by
  intro t
  induction t with
  | nil =>
    simp only [List.nil_append, digitSpan, List.takeWhile_nil, List.dropWhile_nil]
    cases hx : X with
    | nil => simp
    | cons c2 r2 =>
      simp only [List.takeWhile, List.dropWhile]
      rw [hX c2 r2 hx]
  | cons c t ih =>
    simp only [List.cons_append, digitSpan, List.takeWhile, List.dropWhile]
    simp only [digitSpan, Prod.mk.injEq] at ih
    cases hd : isDigitChar c with
    | false => simp
    | true => simp [ih.1, ih.2]

theorem digitSpan_all {ds : List Char} (h : ∀ x ∈ ds, isDigitChar x = true) :
    digitSpan ds = (ds, []) := by
  simp only [digitSpan]
  rw [takeWhile_all h, dropWhile_all h]

theorem goTrimPrefixOf_nop {p0 c : Char} {p2 t : List Char} (hne : ¬(p0 = c)) :
    goTrimPrefixOf (p0 :: p2) (c :: t) = c :: t := by
  simp only [goTrimPrefixOf, List.isPrefixOf]
  rw [if_neg ?_]
  simp only [Bool.and_eq_true, beq_iff_eq]
  intro hcon
  exact hne hcon.1

theorem goTrimSuffixOf_nop {s0 c : Char} {s2 l : List Char} (hne : ¬(s0 = c))
    (hlast : l.getLast? = some c) :
    goTrimSuffixOf (s2 ++ [s0]) l = l := by
  simp only [goTrimSuffixOf, List.isSuffixOf]
  rw [if_neg ?_]
  rw [List.reverse_append]
  cases hrev : l.reverse with
  | nil =>
    rw [← List.head?_reverse, hrev] at hlast
    simp at hlast
  | cons c2 w =>
    rw [← List.head?_reverse, hrev] at hlast
    simp only [List.head?_cons, Option.some.injEq] at hlast
    subst hlast
    simp only [List.reverse_cons, List.nil_append, List.singleton_append,
      List.isPrefixOf, Bool.and_eq_true, beq_iff_eq]
    intro hcon
    exact hne hcon.1

theorem numIntPart_append {s ip r1 : List Char} (h : numIntPart s = some (ip, r1))
    (X : List Char)
    (hX : ∀ c2 r2, X = c2 :: r2 → isDigitChar c2 = false ∧ ¬(c2 = '.') ∧
      ¬(c2 = 'e') ∧ ¬(c2 = 'E')) :
    numIntPart (s ++ X) = some (ip, r1 ++ X) := by
  cases s with
  | nil => simp [numIntPart] at h
  | cons c t =>
    simp only [numIntPart] at h
    simp only [List.cons_append, numIntPart]
    by_cases h1 : c = '0'
    · rw [if_pos h1] at h
      rw [if_pos h1]
      simp only [Option.some.injEq, Prod.mk.injEq] at h
      obtain ⟨h2, h3⟩ := h
      subst h2
      subst h3
      rfl
    · rw [if_neg h1] at h
      rw [if_neg h1]
      by_cases h2 : isDigitChar c = true
      · rw [if_pos h2] at h
        rw [if_pos h2]
        simp only [Option.some.injEq, Prod.mk.injEq] at h
        obtain ⟨h3, h4⟩ := h
        subst h3
        subst h4
        rw [span_append X (fun c2 r2 hh => (hX c2 r2 hh).1) t]
      · rw [if_neg h2] at h
        simp at h

theorem numFracPart_append {s fp r2 : List Char} (h : numFracPart s = some (fp, r2))
    (X : List Char)
    (hX : ∀ c2 r2, X = c2 :: r2 → isDigitChar c2 = false ∧ ¬(c2 = '.') ∧
      ¬(c2 = 'e') ∧ ¬(c2 = 'E')) :
    numFracPart (s ++ X) = some (fp, r2 ++ X) := by
  cases s with
  | nil =>
    simp only [numFracPart, Option.some.injEq, Prod.mk.injEq] at h
    obtain ⟨h1, h2⟩ := h
    subst h1
    subst h2
    simp only [List.nil_append]
    cases hx : X with
    | nil => rfl
    | cons c2 t2 =>
      simp only [numFracPart]
      rw [if_neg (hX c2 t2 hx).2.1]
  | cons c t =>
    simp only [numFracPart] at h
    simp only [List.cons_append, numFracPart]
    by_cases h1 : c = '.'
    · rw [if_pos h1] at h
      rw [if_pos h1]
      rcases hds : digitSpan t with ⟨ds, rr⟩
      rw [hds] at h
      rw [span_append X (fun c2 r2 hh => (hX c2 r2 hh).1) t, hds]
      cases ds with
      | nil => simp at h
      | cons d ds2 =>
        simp only [Option.some.injEq, Prod.mk.injEq] at h
        obtain ⟨h2, h3⟩ := h
        subst h2
        subst h3
        rfl
    · rw [if_neg h1] at h
      rw [if_neg h1]
      simp only [Option.some.injEq, Prod.mk.injEq] at h
      obtain ⟨h2, h3⟩ := h
      subst h2
      subst h3
      rfl

theorem numExpPart_append {s ep r3 : List Char} (h : numExpPart s = some (ep, r3))
    (X : List Char)
    (hX : ∀ c2 r2, X = c2 :: r2 → isDigitChar c2 = false ∧ ¬(c2 = '.') ∧
      ¬(c2 = 'e') ∧ ¬(c2 = 'E')) :
    numExpPart (s ++ X) = some (ep, r3 ++ X) := by
  cases s with
  | nil =>
    simp only [numExpPart, Option.some.injEq, Prod.mk.injEq] at h
    obtain ⟨h1, h2⟩ := h
    subst h1
    subst h2
    simp only [List.nil_append]
    cases hx : X with
    | nil => rfl
    | cons c2 t2 =>
      simp only [numExpPart]
      rw [if_neg ?_]
      simp only [Bool.or_eq_true, decide_eq_true_eq]
      rintro (hh | hh)
      · exact (hX c2 t2 hx).2.2.1 hh
      · exact (hX c2 t2 hx).2.2.2 hh
  | cons c t =>
    simp only [numExpPart] at h
    simp only [List.cons_append, numExpPart]
    by_cases h1 : (c = 'e' || c = 'E') = true
    · rw [if_pos h1] at h
      rw [if_pos h1]
      cases t with
      | nil => simp at h
      | cons s2 t2 =>
        dsimp only at h
        dsimp only [List.cons_append]
        by_cases h2 : (s2 = '+' || s2 = '-') = true
        · rw [if_pos h2] at h
          rw [if_pos h2]
          rcases hds : digitSpan t2 with ⟨ds, rr⟩
          rw [hds] at h
          rw [span_append X (fun c2 r2 hh => (hX c2 r2 hh).1) t2, hds]
          cases ds with
          | nil => simp at h
          | cons d ds2 =>
            simp only [Option.some.injEq, Prod.mk.injEq] at h
            obtain ⟨h3, h4⟩ := h
            subst h3
            subst h4
            rfl
        · rw [if_neg h2] at h
          rw [if_neg h2]
          rcases hds : digitSpan (s2 :: t2) with ⟨ds, rr⟩
          rw [hds] at h
          rw [show s2 :: (t2 ++ X) = (s2 :: t2) ++ X from rfl,
            span_append X (fun c2 r2 hh => (hX c2 r2 hh).1) (s2 :: t2), hds]
          cases ds with
          | nil => simp at h
          | cons d ds2 =>
            simp only [Option.some.injEq, Prod.mk.injEq] at h
            obtain ⟨h3, h4⟩ := h
            subst h3
            subst h4
            rfl
    · rw [if_neg h1] at h
      rw [if_neg h1]
      simp only [Option.some.injEq, Prod.mk.injEq] at h
      obtain ⟨h2, h3⟩ := h
      subst h2
      subst h3
      rfl

theorem numScanPos_append {s l r : List Char} (h : numScanPos s = some (l, r))
    (X : List Char)
    (hX : ∀ c2 r2, X = c2 :: r2 → isDigitChar c2 = false ∧ ¬(c2 = '.') ∧
      ¬(c2 = 'e') ∧ ¬(c2 = 'E')) :
    numScanPos (s ++ X) = some (l, r ++ X) := by
  simp only [numScanPos] at h ⊢
  cases hip : numIntPart s with
  | none => rw [hip] at h; simp at h
  | some p1 =>
    rw [hip] at h
    obtain ⟨ip, r1⟩ := p1
    dsimp only at h
    rw [numIntPart_append hip X hX]
    dsimp only
    cases hfp : numFracPart r1 with
    | none => rw [hfp] at h; simp at h
    | some p2 =>
      rw [hfp] at h
      obtain ⟨fp, r2⟩ := p2
      dsimp only at h
      rw [numFracPart_append hfp X hX]
      dsimp only
      cases hep : numExpPart r2 with
      | none => rw [hep] at h; simp at h
      | some p3 =>
        rw [hep] at h
        obtain ⟨ep, r3⟩ := p3
        dsimp only at h
        rw [numExpPart_append hep X hX]
        dsimp only
        simp only [Option.some.injEq, Prod.mk.injEq] at h
        obtain ⟨h1, h2⟩ := h
        subst h1
        subst h2
        rfl

theorem stopOk_charFacts {X : List Char} (h : stopOk X = true) :
    ∀ c2 r2, X = c2 :: r2 → isDigitChar c2 = false ∧ ¬(c2 = '.') ∧
      ¬(c2 = 'e') ∧ ¬(c2 = 'E') := by
  intro c2 r2 hx
  subst hx
  simp only [stopOk, Bool.or_eq_true, decide_eq_true_eq] at h
  rcases h with (h | h) | h <;> subst h <;> refine ⟨by decide, by decide, by decide, by decide⟩

theorem numScan_append {l : List Char} (h : numScan l = some (l, []))
    (rest : List Char) (hstop : stopOk rest = true) :
    numScan (l ++ rest) = some (l, rest) := by
  have hX := stopOk_charFacts hstop
  cases l with
  | nil => simp [numScan] at h
  | cons c t =>
    simp only [numScan] at h
    simp only [List.cons_append, numScan]
    by_cases h1 : c = '-'
    · rw [if_pos h1] at h
      rw [if_pos h1]
      cases hp : numScanPos t with
      | none => rw [hp] at h; simp at h
      | some p =>
        rw [hp] at h
        obtain ⟨l2, r2⟩ := p
        dsimp only at h
        simp only [Option.some.injEq, Prod.mk.injEq, List.cons.injEq] at h
        obtain ⟨⟨h2, h3⟩, h4⟩ := h
        subst h3
        subst h4
        subst h2
        rw [numScanPos_append hp rest hX]
        simp
    · rw [if_neg h1] at h
      rw [if_neg h1]
      rw [show c :: (t ++ rest) = (c :: t) ++ rest from rfl]
      rw [numScanPos_append h rest hX]
      simp

theorem numIntPart_shape {s ip r1 : List Char} (h : numIntPart s = some (ip, r1)) :
    ∃ c0 ip2, ip = c0 :: ip2 ∧ isDigitChar c0 = true := by
  cases s with
  | nil => simp [numIntPart] at h
  | cons c t =>
    simp only [numIntPart] at h
    by_cases h1 : c = '0'
    · rw [if_pos h1] at h
      simp only [Option.some.injEq, Prod.mk.injEq] at h
      exact ⟨'0', [], h.1.symm, by decide⟩
    · rw [if_neg h1] at h
      by_cases h2 : isDigitChar c = true
      · rw [if_pos h2] at h
        simp only [Option.some.injEq, Prod.mk.injEq] at h
        exact ⟨c, (digitSpan t).1, h.1.symm, h2⟩
      · rw [if_neg h2] at h
        simp at h

theorem numFracPart_headshape {s fp r2 : List Char} (h : numFracPart s = some (fp, r2)) :
    fp = [] ∨ ∃ t2, fp = '.' :: t2 := by
  cases s with
  | nil =>
    simp only [numFracPart, Option.some.injEq, Prod.mk.injEq] at h
    exact Or.inl h.1.symm
  | cons c t =>
    simp only [numFracPart] at h
    by_cases h1 : c = '.'
    · rw [if_pos h1] at h
      rcases hds : digitSpan t with ⟨ds, rr⟩
      rw [hds] at h
      cases ds with
      | nil => simp at h
      | cons d ds2 =>
        simp only [Option.some.injEq, Prod.mk.injEq] at h
        exact Or.inr ⟨d :: ds2, h.1.symm⟩
    · rw [if_neg h1] at h
      simp only [Option.some.injEq, Prod.mk.injEq] at h
      exact Or.inl h.1.symm

theorem numExpPart_headshape {s ep r3 : List Char} (h : numExpPart s = some (ep, r3)) :
    ep = [] ∨ ∃ t2, ep = 'e' :: t2 ∨ ep = 'E' :: t2 := by
  cases s with
  | nil =>
    simp only [numExpPart, Option.some.injEq, Prod.mk.injEq] at h
    exact Or.inl h.1.symm
  | cons c t =>
    simp only [numExpPart] at h
    by_cases h1 : (c = 'e' || c = 'E') = true
    · rw [if_pos h1] at h
      cases t with
      | nil => simp at h
      | cons s2 t2 =>
        dsimp only at h
        simp only [Bool.or_eq_true, decide_eq_true_eq] at h1
        by_cases h2 : (s2 = '+' || s2 = '-') = true
        · rw [if_pos h2] at h
          rcases hds : digitSpan t2 with ⟨ds, rr⟩
          rw [hds] at h
          cases ds with
          | nil => simp at h
          | cons d ds2 =>
            simp only [Option.some.injEq, Prod.mk.injEq] at h
            refine Or.inr ⟨s2 :: d :: ds2, ?_⟩
            rcases h1 with h1 | h1 <;> subst h1
            · exact Or.inl h.1.symm
            · exact Or.inr h.1.symm
        · rw [if_neg h2] at h
          rcases hds : digitSpan (s2 :: t2) with ⟨ds, rr⟩
          rw [hds] at h
          cases ds with
          | nil => simp at h
          | cons d ds2 =>
            simp only [Option.some.injEq, Prod.mk.injEq] at h
            refine Or.inr ⟨d :: ds2, ?_⟩
            rcases h1 with h1 | h1 <;> subst h1
            · exact Or.inl h.1.symm
            · exact Or.inr h.1.symm
    · rw [if_neg h1] at h
      simp only [Option.some.injEq, Prod.mk.injEq] at h
      exact Or.inl h.1.symm

theorem numIntPart_self {s ip r1 : List Char} (h : numIntPart s = some (ip, r1))
    (X : List Char) (hX : ∀ c2 r2, X = c2 :: r2 → isDigitChar c2 = false) :
    numIntPart (ip ++ X) = some (ip, X) := by
  cases s with
  | nil => simp [numIntPart] at h
  | cons c t =>
    simp only [numIntPart] at h
    by_cases h1 : c = '0'
    · rw [if_pos h1] at h
      simp only [Option.some.injEq, Prod.mk.injEq] at h
      obtain ⟨h2, h3⟩ := h
      subst h2
      rfl
    · rw [if_neg h1] at h
      by_cases h2 : isDigitChar c = true
      · rw [if_pos h2] at h
        simp only [Option.some.injEq, Prod.mk.injEq] at h
        obtain ⟨h3, h4⟩ := h
        subst h3
        have hall : ∀ x ∈ (digitSpan t).1, isDigitChar x = true := by
          intro x hx
          exact mem_takeWhile_sat hx
        simp only [List.cons_append, numIntPart]
        rw [if_neg h1, if_pos h2, span_append X hX (digitSpan t).1,
          digitSpan_all hall]
        rfl
      · rw [if_neg h2] at h
        simp at h

theorem numFracPart_self {s fp r2 : List Char} (h : numFracPart s = some (fp, r2))
    (X : List Char)
    (hX : ∀ c2 r2, X = c2 :: r2 → isDigitChar c2 = false ∧ ¬(c2 = '.')) :
    numFracPart (fp ++ X) = some (fp, X) := by
  have hemp : numFracPart X = some ([], X) := by
    cases hx : X with
    | nil => rfl
    | cons c2 t2 =>
      simp only [numFracPart]
      rw [if_neg (hX c2 t2 hx).2]
  cases s with
  | nil =>
    simp only [numFracPart, Option.some.injEq, Prod.mk.injEq] at h
    obtain ⟨h1, h2⟩ := h
    subst h1
    simpa using hemp
  | cons c t =>
    simp only [numFracPart] at h
    by_cases h1 : c = '.'
    · rw [if_pos h1] at h
      rcases hds : digitSpan t with ⟨ds, rr⟩
      rw [hds] at h
      cases ds with
      | nil => simp at h
      | cons d ds2 =>
        simp only [Option.some.injEq, Prod.mk.injEq] at h
        obtain ⟨h2, h3⟩ := h
        subst h2
        have hall : ∀ x ∈ d :: ds2, isDigitChar x = true := by
          intro x hx
          refine mem_takeWhile_sat (l := t) ?_
          have h4 : (digitSpan t).1 = d :: ds2 := by rw [hds]
          rw [show t.takeWhile isDigitChar = (digitSpan t).1 from rfl, h4]
          exact hx
        simp only [List.cons_append, numFracPart, if_true]
        rw [show d :: (ds2 ++ X) = (d :: ds2) ++ X from rfl,
          span_append X (fun c2 r2 hh => (hX c2 r2 hh).1) (d :: ds2),
          digitSpan_all hall]
        rfl
    · rw [if_neg h1] at h
      simp only [Option.some.injEq, Prod.mk.injEq] at h
      obtain ⟨h2, h3⟩ := h
      subst h2
      simpa using hemp

theorem numExpPart_self {s ep r3 : List Char} (h : numExpPart s = some (ep, r3))
    (X : List Char)
    (hX : ∀ c2 r2, X = c2 :: r2 → isDigitChar c2 = false ∧ ¬(c2 = 'e') ∧
      ¬(c2 = 'E')) :
    numExpPart (ep ++ X) = some (ep, X) := by
  have hemp : numExpPart X = some ([], X) := by
    cases hx : X with
    | nil => rfl
    | cons c2 t2 =>
      simp only [numExpPart]
      rw [if_neg ?_]
      simp only [Bool.or_eq_true, decide_eq_true_eq]
      rintro (hh | hh)
      · exact (hX c2 t2 hx).2.1 hh
      · exact (hX c2 t2 hx).2.2 hh
  cases s with
  | nil =>
    simp only [numExpPart, Option.some.injEq, Prod.mk.injEq] at h
    obtain ⟨h1, h2⟩ := h
    subst h1
    simpa using hemp
  | cons c t =>
    simp only [numExpPart] at h
    by_cases h1 : (c = 'e' || c = 'E') = true
    · rw [if_pos h1] at h
      cases t with
      | nil => simp at h
      | cons s2 t2 =>
        dsimp only at h
        by_cases h2 : (s2 = '+' || s2 = '-') = true
        · rw [if_pos h2] at h
          rcases hds : digitSpan t2 with ⟨ds, rr⟩
          rw [hds] at h
          cases ds with
          | nil => simp at h
          | cons d ds2 =>
            simp only [Option.some.injEq, Prod.mk.injEq] at h
            obtain ⟨h3, h4⟩ := h
            subst h3
            have hall : ∀ x ∈ d :: ds2, isDigitChar x = true := by
              intro x hx
              refine mem_takeWhile_sat (l := t2) ?_
              have h5 : (digitSpan t2).1 = d :: ds2 := by rw [hds]
              rw [show t2.takeWhile isDigitChar = (digitSpan t2).1 from rfl, h5]
              exact hx
            simp only [List.cons_append, numExpPart]
            rw [if_pos h1, if_pos h2,
              show d :: (ds2 ++ X) = (d :: ds2) ++ X from rfl,
              span_append X (fun c2 r2 hh => (hX c2 r2 hh).1) (d :: ds2),
              digitSpan_all hall]
            rfl
        · rw [if_neg h2] at h
          rcases hds : digitSpan (s2 :: t2) with ⟨ds, rr⟩
          rw [hds] at h
          cases ds with
          | nil => simp at h
          | cons d ds2 =>
            simp only [Option.some.injEq, Prod.mk.injEq] at h
            obtain ⟨h3, h4⟩ := h
            subst h3
            have hall : ∀ x ∈ d :: ds2, isDigitChar x = true := by
              intro x hx
              refine mem_takeWhile_sat (l := s2 :: t2) ?_
              have h5 : (digitSpan (s2 :: t2)).1 = d :: ds2 := by rw [hds]
              rw [show (s2 :: t2).takeWhile isDigitChar =
                (digitSpan (s2 :: t2)).1 from rfl, h5]
              exact hx
            have hd : isDigitChar d = true := hall d (by simp)
            have hnsign : ¬((d = '+' || d = '-') = true) := by
              simp only [Bool.or_eq_true, decide_eq_true_eq]
              rintro (hh | hh) <;> subst hh
              · exact Bool.noConfusion
                  ((by decide : isDigitChar '+' = false).symm.trans hd)
              · exact Bool.noConfusion
                  ((by decide : isDigitChar '-' = false).symm.trans hd)
            simp only [List.cons_append, numExpPart]
            rw [if_pos h1, if_neg hnsign,
              show d :: (ds2 ++ X) = (d :: ds2) ++ X from rfl,
              span_append X (fun c2 r2 hh => (hX c2 r2 hh).1) (d :: ds2),
              digitSpan_all hall]
            rfl
    · rw [if_neg h1] at h
      simp only [Option.some.injEq, Prod.mk.injEq] at h
      obtain ⟨h2, h3⟩ := h
      subst h2
      simpa using hemp

theorem numScanPos_headDigit {s l r : List Char} (h : numScanPos s = some (l, r)) :
    ∃ c0 t0, l = c0 :: t0 ∧ isDigitChar c0 = true := by
  simp only [numScanPos] at h
  cases hip : numIntPart s with
  | none => rw [hip] at h; simp at h
  | some p1 =>
    rw [hip] at h
    obtain ⟨ip, r1⟩ := p1
    dsimp only at h
    cases hfp : numFracPart r1 with
    | none => rw [hfp] at h; simp at h
    | some p2 =>
      rw [hfp] at h
      obtain ⟨fp, r2⟩ := p2
      dsimp only at h
      cases hep : numExpPart r2 with
      | none => rw [hep] at h; simp at h
      | some p3 =>
        rw [hep] at h
        obtain ⟨ep, r3⟩ := p3
        dsimp only at h
        simp only [Option.some.injEq, Prod.mk.injEq] at h
        obtain ⟨h1, h2⟩ := h
        obtain ⟨c0, ip2, hip2, hd⟩ := numIntPart_shape hip
        refine ⟨c0, ip2 ++ fp ++ ep, ?_, hd⟩
        rw [← h1, hip2]
        simp

theorem numScanPos_self {s l r : List Char} (h : numScanPos s = some (l, r)) :
    numScanPos l = some (l, []) := by
  simp only [numScanPos] at h ⊢
  cases hip : numIntPart s with
  | none => rw [hip] at h; simp at h
  | some p1 =>
    rw [hip] at h
    obtain ⟨ip, r1⟩ := p1
    dsimp only at h
    cases hfp : numFracPart r1 with
    | none => rw [hfp] at h; simp at h
    | some p2 =>
      rw [hfp] at h
      obtain ⟨fp, r2⟩ := p2
      dsimp only at h
      cases hep : numExpPart r2 with
      | none => rw [hep] at h; simp at h
      | some p3 =>
        rw [hep] at h
        obtain ⟨ep, r3⟩ := p3
        dsimp only at h
        simp only [Option.some.injEq, Prod.mk.injEq] at h
        obtain ⟨h1, h2⟩ := h
        subst h1
        subst h2
        have hfs := numFracPart_headshape hfp
        have hes := numExpPart_headshape hep
        have hXfe : ∀ c2 r4, fp ++ ep = c2 :: r4 → isDigitChar c2 = false := by
          intro c2 r4 hh
          rcases hfs with hfs | ⟨t2, hfs⟩
          · subst hfs
            simp only [List.nil_append] at hh
            rcases hes with hes | ⟨t3, hes | hes⟩
            · rw [hes] at hh
              exact absurd hh (by simp)
            · rw [hes] at hh
              simp only [List.cons.injEq] at hh
              rw [← hh.1]
              decide
            · rw [hes] at hh
              simp only [List.cons.injEq] at hh
              rw [← hh.1]
              decide
          · rw [hfs] at hh
            simp only [List.cons_append, List.cons.injEq] at hh
            rw [← hh.1]
            decide
        have hXe : ∀ c2 r4, ep = c2 :: r4 →
            isDigitChar c2 = false ∧ ¬(c2 = '.') := by
          intro c2 r4 hh
          rcases hes with hes | ⟨t3, hes | hes⟩
          · rw [hes] at hh
            exact absurd hh (by simp)
          · rw [hes] at hh
            simp only [List.cons.injEq] at hh
            exact ⟨by rw [← hh.1]; decide, by rw [← hh.1]; decide⟩
          · rw [hes] at hh
            simp only [List.cons.injEq] at hh
            exact ⟨by rw [← hh.1]; decide, by rw [← hh.1]; decide⟩
        have hA := numIntPart_self hip (fp ++ ep) hXfe
        have hB := numFracPart_self hfp ep hXe
        have hC := numExpPart_self hep []
          (by intro c2 r4 hh; exact absurd hh (by simp))
        rw [List.append_nil] at hC
        rw [show ip ++ fp ++ ep = ip ++ (fp ++ ep) from List.append_assoc ip fp ep,
          hA]
        dsimp only
        rw [hB]
        dsimp only
        rw [hC]
        simp

theorem numScan_self {s l r : List Char} (h : numScan s = some (l, r)) :
    numScan l = some (l, []) := by
  cases s with
  | nil => simp [numScan] at h
  | cons c t =>
    simp only [numScan] at h
    by_cases h1 : c = '-'
    · rw [if_pos h1] at h
      cases hp : numScanPos t with
      | none => rw [hp] at h; simp at h
      | some p =>
        rw [hp] at h
        obtain ⟨l2, r2⟩ := p
        dsimp only at h
        simp only [Option.some.injEq, Prod.mk.injEq] at h
        obtain ⟨h2, h3⟩ := h
        subst h2
        have hPS := numScanPos_self hp
        simp [numScan, hPS]
    · rw [if_neg h1] at h
      have hPS := numScanPos_self h
      obtain ⟨c0, t0, hl, hdig⟩ := numScanPos_headDigit h
      subst hl
      have hnm : ¬(c0 = '-') := by
        intro hcon
        rw [hcon] at hdig
        exact absurd hdig (by decide)
      simp only [numScan]
      rw [if_neg hnm]
      exact hPS

theorem scanStr_of_okBody : ∀ (n : Nat) (b : List Char), b.length ≤ n →
    okBody b = true → ∀ rest, scanStr (b ++ qch :: rest) = some (b, rest) := by
  intro n
  induction n with
  | zero =>
    intro b hl hok rest
    cases b with
    | nil =>
      simp only [List.nil_append]
      unfold scanStr
      rw [if_pos rfl]
    | cons c t => simp at hl
  | succ n ih =>
    intro b hl hok rest
    cases b with
    | nil =>
      simp only [List.nil_append]
      unfold scanStr
      rw [if_pos rfl]
    | cons c t =>
      unfold okBody at hok
      simp only [List.cons_append]
      unfold scanStr
      by_cases h1 : c = '\\'
      · rw [if_pos h1] at hok
        subst h1
        rw [if_neg (by decide), if_pos rfl]
        cases t with
        | nil => simp at hok
        | cons e r2 =>
          dsimp only at hok
          simp only [List.cons_append]
          by_cases h2 : e = 'u'
          · rw [if_pos h2] at hok
            rw [if_pos h2]
            subst h2
            cases r2 with
            | nil => simp at hok
            | cons a1 t1 =>
              cases t1 with
              | nil => simp at hok
              | cons a2 t2 =>
                cases t2 with
                | nil => simp at hok
                | cons a3 t3 =>
                  cases t3 with
                  | nil => simp at hok
                  | cons a4 r3 =>
                    dsimp only at hok
                    simp only [Bool.and_eq_true] at hok
                    obtain ⟨⟨⟨⟨hh1, hh2⟩, hh3⟩, hh4⟩, hok3⟩ := hok
                    have hhex : (isHexChar a1 && isHexChar a2 && isHexChar a3 &&
                        isHexChar a4) = true := by
                      simp [hh1, hh2, hh3, hh4]
                    simp only [List.cons_append]
                    rw [if_pos hhex]
                    rw [ih r3 (by simp only [List.length_cons] at hl; omega)
                      hok3 rest]
                    rfl
          · rw [if_neg h2] at hok
            rw [if_neg h2]
            simp only [Bool.and_eq_true] at hok
            obtain ⟨hesc, hok2⟩ := hok
            rw [if_pos hesc]
            rw [ih r2 (by simp only [List.length_cons] at hl; omega) hok2 rest]
            rfl
      · rw [if_neg h1] at hok
        simp only [Bool.and_eq_true, decide_eq_true_eq] at hok
        obtain ⟨⟨hq2, hge⟩, hok2⟩ := hok
        rw [if_neg hq2, if_neg h1, if_pos hge,
          ih t (by simp only [List.length_cons] at hl; omega) hok2 rest]
        rfl

theorem scanStr_ok : ∀ (n : Nat) (s b r : List Char), s.length ≤ n →
    scanStr s = some (b, r) → okBody b = true := by
  intro n
  induction n with
  | zero =>
    intro s b r hl h
    cases s with
    | nil => simp [scanStr] at h
    | cons c t => simp at hl
  | succ n ih =>
    intro s b r hl h
    cases s with
    | nil => simp [scanStr] at h
    | cons c t =>
      unfold scanStr at h
      by_cases h1 : c = qch
      · rw [if_pos h1] at h
        simp only [Option.some.injEq, Prod.mk.injEq] at h
        rw [← h.1]
        rfl
      · rw [if_neg h1] at h
        by_cases h2 : c = '\\'
        · rw [if_pos h2] at h
          cases t with
          | nil => simp at h
          | cons e r2 =>
            dsimp only at h
            by_cases h3 : e = 'u'
            · rw [if_pos h3] at h
              cases r2 with
              | nil => simp at h
              | cons a1 t1 =>
                cases t1 with
                | nil => simp at h
                | cons a2 t2 =>
                  cases t2 with
                  | nil => simp at h
                  | cons a3 t3 =>
                    cases t3 with
                    | nil => simp at h
                    | cons a4 r3 =>
                      dsimp only at h
                      by_cases h4 : (isHexChar a1 && isHexChar a2 && isHexChar a3 &&
                          isHexChar a4) = true
                      · rw [if_pos h4] at h
                        cases hs3 : scanStr r3 with
                        | none => rw [hs3] at h; simp at h
                        | some p =>
                          rw [hs3] at h
                          obtain ⟨p1, p2⟩ := p
                          simp only [Option.map_some', Option.some.injEq,
                            Prod.mk.injEq] at h
                          obtain ⟨hb, hr⟩ := h
                          have hokp := ih r3 p1 p2
                            (by simp only [List.length_cons] at hl; omega) hs3
                          simp only [Bool.and_eq_true] at h4
                          obtain ⟨⟨⟨hh1, hh2⟩, hh3⟩, hh4⟩ := h4
                          rw [← hb]
                          subst h3
                          unfold okBody
                          simp [hh1, hh2, hh3, hh4, hokp]
                      · rw [if_neg h4] at h
                        simp at h
            · rw [if_neg h3] at h
              by_cases h4 : isEscChar e = true
              · rw [if_pos h4] at h
                cases hs2 : scanStr r2 with
                | none => rw [hs2] at h; simp at h
                | some p =>
                  rw [hs2] at h
                  obtain ⟨p1, p2⟩ := p
                  simp only [Option.map_some', Option.some.injEq, Prod.mk.injEq] at h
                  obtain ⟨hb, hr⟩ := h
                  have hokp := ih r2 p1 p2
                    (by simp only [List.length_cons] at hl; omega) hs2
                  rw [← hb]
                  unfold okBody
                  simp [h3, h4, hokp]
              · rw [if_neg h4] at h
                simp at h
        · rw [if_neg h2] at h
          by_cases h3 : 0x20 ≤ c.toNat
          · rw [if_pos h3] at h
            cases hs : scanStr t with
            | none => rw [hs] at h; simp at h
            | some p =>
              rw [hs] at h
              obtain ⟨p1, p2⟩ := p
              simp only [Option.map_some', Option.some.injEq, Prod.mk.injEq] at h
              obtain ⟨hb, hr⟩ := h
              have hokp := ih t p1 p2
                (by simp only [List.length_cons] at hl; omega) hs
              rw [← hb]
              unfold okBody
              simp [h1, h2, h3, hokp]
          · rw [if_neg h3] at h
            simp at h

theorem wfE_snoc : ∀ (a : JElems) (v : JVal), wfE a = true → wfV v = true →
    wfE (snocE a v) = true
  | JElems.nil, v, _, hv => by simp [snocE, wfE, hv]
  | JElems.cons w es, v, ha, hv => by
    simp only [wfE, Bool.and_eq_true] at ha
    simp only [snocE, wfE, Bool.and_eq_true]
    exact ⟨ha.1, wfE_snoc es v ha.2 hv⟩

theorem wfF_snoc : ∀ (a : JFields) (k : List Char) (v : JVal), wfF a = true →
    okBody k = true → wfV v = true → wfF (snocF a k v) = true
  | JFields.nil, k, v, _, hk, hv => by simp [snocF, wfF, hk, hv]
  | JFields.cons k0 v0 fs, k, v, ha, hk, hv => by
    simp only [wfF, Bool.and_eq_true] at ha
    simp only [snocF, wfF, Bool.and_eq_true]
    exact ⟨ha.1, wfF_snoc fs k v ha.2 hk hv⟩

theorem parseWfAll : ∀ f : Nat,
    (∀ s v rest, parseVal f s = some (v, rest) → wfV v = true) ∧
    (∀ acc s w rest, wfE acc = true → parseArrRest f acc s = some (w, rest) →
      wfV w = true) ∧
    (∀ acc s w rest, wfF acc = true → parseObjRest f acc s = some (w, rest) →
      wfV w = true) := by
  intro f
  induction f with
  | zero =>
    refine ⟨?_, ?_, ?_⟩
    · intro s v rest h
      simp [parseVal] at h
    · intro acc s w rest _ h
      simp [parseArrRest] at h
    · intro acc s w rest _ h
      simp [parseObjRest] at h
  | succ f ih =>
    obtain ⟨ihP, ihQ, ihR⟩ := ih
    refine ⟨?_, ?_, ?_⟩
    · intro s v rest h
      rw [parseVal] at h
      cases hsw : skipWs s with
      | nil => rw [hsw] at h; simp at h
      | cons c0 r =>
        rw [hsw] at h
        dsimp only at h
        by_cases hb1 : c0 = '{'
        · rw [if_pos hb1] at h
          cases hsw2 : skipWs r with
          | nil => rw [hsw2] at h; simp at h
          | cons c2 r2 =>
            rw [hsw2] at h
            dsimp only at h
            by_cases hb2 : c2 = '}'
            · rw [if_pos hb2] at h
              simp only [Option.some.injEq, Prod.mk.injEq] at h
              rw [← h.1]
              rfl
            · rw [if_neg hb2] at h
              by_cases hb3 : c2 = qch
              · rw [if_pos hb3] at h
                cases hss : scanStr r2 with
                | none => rw [hss] at h; simp at h
                | some kp =>
                  rw [hss] at h
                  obtain ⟨k, r3⟩ := kp
                  dsimp only at h
                  cases hsw3 : skipWs r3 with
                  | nil => rw [hsw3] at h; simp at h
                  | cons c3 r4 =>
                    rw [hsw3] at h
                    dsimp only at h
                    by_cases hb4 : c3 = ':'
                    · rw [if_pos hb4] at h
                      cases hpv : parseVal f r4 with
                      | none => rw [hpv] at h; simp at h
                      | some vp =>
                        rw [hpv] at h
                        obtain ⟨v1, r5⟩ := vp
                        dsimp only at h
                        have hwf1 : wfF (JFields.cons k v1 JFields.nil) = true := by
                          simp [wfF, scanStr_ok r2.length r2 k r3 le_rfl hss,
                            ihP r4 v1 r5 hpv]
                        exact ihR (JFields.cons k v1 JFields.nil) r5 v rest hwf1 h
                    · rw [if_neg hb4] at h
                      simp at h
              · rw [if_neg hb3] at h
                simp at h
        · rw [if_neg hb1] at h
          by_cases hb2 : c0 = '['
          · rw [if_pos hb2] at h
            cases hsw2 : skipWs r with
            | nil => rw [hsw2] at h; simp at h
            | cons c2 r2 =>
              rw [hsw2] at h
              dsimp only at h
              by_cases hb3 : c2 = ']'
              · rw [if_pos hb3] at h
                simp only [Option.some.injEq, Prod.mk.injEq] at h
                rw [← h.1]
                rfl
              · rw [if_neg hb3] at h
                cases hpv : parseVal f (c2 :: r2) with
                | none => rw [hpv] at h; simp at h
                | some vp =>
                  rw [hpv] at h
                  obtain ⟨v1, r3⟩ := vp
                  dsimp only at h
                  have hwf1 : wfE (JElems.cons v1 JElems.nil) = true := by
                    simp [wfE, ihP (c2 :: r2) v1 r3 hpv]
                  exact ihQ (JElems.cons v1 JElems.nil) r3 v rest hwf1 h
          · rw [if_neg hb2] at h
            by_cases hb3 : c0 = qch
            · rw [if_pos hb3] at h
              cases hss : scanStr r with
              | none => rw [hss] at h; simp at h
              | some bp =>
                rw [hss] at h
                obtain ⟨b, r2⟩ := bp
                dsimp only at h
                simp only [Option.some.injEq, Prod.mk.injEq] at h
                rw [← h.1]
                simp only [wfV]
                exact scanStr_ok r.length r b r2 le_rfl hss
            · rw [if_neg hb3] at h
              by_cases hb4 : c0 = 't'
              · rw [if_pos hb4] at h
                by_cases hp : (['r', 'u', 'e'].isPrefixOf r) = true
                · rw [if_pos hp] at h
                  simp only [Option.some.injEq, Prod.mk.injEq] at h
                  rw [← h.1]
                  rfl
                · rw [if_neg hp] at h
                  simp at h
              · rw [if_neg hb4] at h
                by_cases hb5 : c0 = 'f'
                · rw [if_pos hb5] at h
                  by_cases hp : (['a', 'l', 's', 'e'].isPrefixOf r) = true
                  · rw [if_pos hp] at h
                    simp only [Option.some.injEq, Prod.mk.injEq] at h
                    rw [← h.1]
                    rfl
                  · rw [if_neg hp] at h
                    simp at h
                · rw [if_neg hb5] at h
                  by_cases hb6 : c0 = 'n'
                  · rw [if_pos hb6] at h
                    by_cases hp : (['u', 'l', 'l'].isPrefixOf r) = true
                    · rw [if_pos hp] at h
                      simp only [Option.some.injEq, Prod.mk.injEq] at h
                      rw [← h.1]
                      rfl
                    · rw [if_neg hp] at h
                      simp at h
                  · rw [if_neg hb6] at h
                    by_cases hb7 : (c0 = '-' || isDigitChar c0) = true
                    · rw [if_pos hb7] at h
                      cases hns : numScan (c0 :: r) with
                      | none => rw [hns] at h; simp at h
                      | some p =>
                        rw [hns] at h
                        obtain ⟨lex, r2⟩ := p
                        dsimp only at h
                        simp only [Option.some.injEq, Prod.mk.injEq] at h
                        rw [← h.1]
                        simp only [wfV]
                        simp [numScan_self hns]
                    · rw [if_neg hb7] at h
                      simp at h
    · intro acc s w rest ha h
      rw [parseArrRest] at h
      cases hsw : skipWs s with
      | nil => rw [hsw] at h; simp at h
      | cons c0 r =>
        rw [hsw] at h
        dsimp only at h
        by_cases hb1 : c0 = ']'
        · rw [if_pos hb1] at h
          simp only [Option.some.injEq, Prod.mk.injEq] at h
          rw [← h.1]
          simpa only [wfV] using ha
        · rw [if_neg hb1] at h
          by_cases hb2 : c0 = ','
          · rw [if_pos hb2] at h
            cases hpv : parseVal f r with
            | none => rw [hpv] at h; simp at h
            | some vp =>
              rw [hpv] at h
              obtain ⟨v1, r2⟩ := vp
              dsimp only at h
              exact ihQ (snocE acc v1) r2 w rest
                (wfE_snoc acc v1 ha (ihP r v1 r2 hpv)) h
          · rw [if_neg hb2] at h
            simp at h
    · intro acc s w rest ha h
      rw [parseObjRest] at h
      cases hsw : skipWs s with
      | nil => rw [hsw] at h; simp at h
      | cons c0 r =>
        rw [hsw] at h
        dsimp only at h
        by_cases hb1 : c0 = '}'
        · rw [if_pos hb1] at h
          simp only [Option.some.injEq, Prod.mk.injEq] at h
          rw [← h.1]
          simpa only [wfV] using ha
        · rw [if_neg hb1] at h
          by_cases hb2 : c0 = ','
          · rw [if_pos hb2] at h
            cases hsw2 : skipWs r with
            | nil => rw [hsw2] at h; simp at h
            | cons c2 r2 =>
              rw [hsw2] at h
              dsimp only at h
              by_cases hb3 : c2 = qch
              · rw [if_pos hb3] at h
                cases hss : scanStr r2 with
                | none => rw [hss] at h; simp at h
                | some kp =>
                  rw [hss] at h
                  obtain ⟨k, r3⟩ := kp
                  dsimp only at h
                  cases hsw3 : skipWs r3 with
                  | nil => rw [hsw3] at h; simp at h
                  | cons c3 r4 =>
                    rw [hsw3] at h
                    dsimp only at h
                    by_cases hb4 : c3 = ':'
                    · rw [if_pos hb4] at h
                      cases hpv : parseVal f r4 with
                      | none => rw [hpv] at h; simp at h
                      | some vp =>
                        rw [hpv] at h
                        obtain ⟨v1, r5⟩ := vp
                        dsimp only at h
                        exact ihR (snocF acc k v1) r5 w rest
                          (wfF_snoc acc k v1 ha
                            (scanStr_ok r2.length r2 k r3 le_rfl hss)
                            (ihP r4 v1 r5 hpv)) h
                    · rw [if_neg hb4] at h
                      simp at h
              · rw [if_neg hb3] at h
                simp at h
          · rw [if_neg hb2] at h
            simp at h

theorem weightV_pos : ∀ v : JVal, 1 ≤ weightV v
  | JVal.jNull => le_refl 1
  | JVal.jBool _ => le_refl 1
  | JVal.jNum _ => le_refl 1
  | JVal.jStr _ => le_refl 1
  | JVal.jArr JElems.nil => le_refl 1
  | JVal.jArr (JElems.cons _ _) => Nat.le_add_right 1 _
  | JVal.jObj JFields.nil => le_refl 1
  | JVal.jObj (JFields.cons _ _ _) => Nat.le_add_right 1 _

theorem needE_pos : ∀ es : JElems, 1 ≤ needE es
  | JElems.nil => le_refl 1
  | JElems.cons _ _ => Nat.le_add_right 1 _

theorem needF_pos : ∀ fs : JFields, 1 ≤ needF fs
  | JFields.nil => le_refl 1
  | JFields.cons _ _ _ => Nat.le_add_right 1 _

theorem digit_ws_false {c : Char} (hd : isDigitChar c = true) : isJSONWs c = false := by
  simp only [isJSONWs, Bool.or_eq_false_iff, decide_eq_false_iff_not]
  refine ⟨⟨⟨?_, ?_⟩, ?_⟩, ?_⟩ <;> intro hcon <;> subst hcon <;>
    exact absurd hd (by decide)

theorem numScan_headOk {c0 : Char} {t l r : List Char}
    (h : numScan (c0 :: t) = some (l, r)) : c0 = '-' ∨ isDigitChar c0 = true := by
  simp only [numScan] at h
  by_cases h1 : c0 = '-'
  · exact Or.inl h1
  · rw [if_neg h1] at h
    right
    simp only [numScanPos] at h
    cases hip : numIntPart (c0 :: t) with
    | none => rw [hip] at h; simp at h
    | some p =>
      simp only [numIntPart] at hip
      by_cases h2 : c0 = '0'
      · subst h2
        decide
      · rw [if_neg h2] at hip
        by_cases h3 : isDigitChar c0 = true
        · exact h3
        · rw [if_neg h3] at hip
          exact absurd hip (by simp)

theorem serV_head : ∀ v : JVal, wfV v = true →
    ∃ c0 t0, serV v = c0 :: t0 ∧ isJSONWs c0 = false ∧ ¬(c0 = ']')
  | JVal.jNull, _ => ⟨'n', _, rfl, by decide, by decide⟩
  | JVal.jBool true, _ => ⟨'t', _, rfl, by decide, by decide⟩
  | JVal.jBool false, _ => ⟨'f', _, rfl, by decide, by decide⟩
  | JVal.jStr b, _ => ⟨qch, _, rfl, by decide, by decide⟩
  | JVal.jArr JElems.nil, _ => ⟨'[', _, rfl, by decide, by decide⟩
  | JVal.jArr (JElems.cons v es), _ => ⟨'[', _, rfl, by decide, by decide⟩
  | JVal.jObj JFields.nil, _ => ⟨'{', _, rfl, by decide, by decide⟩
  | JVal.jObj (JFields.cons k v fs), _ => ⟨'{', _, rfl, by decide, by decide⟩
  | JVal.jNum l, hwf => by
    simp only [wfV, beq_iff_eq] at hwf
    cases l with
    | nil => simp [numScan] at hwf
    | cons c0 t =>
      have hdm := numScan_headOk hwf
      refine ⟨c0, t, rfl, ?_, ?_⟩
      · rcases hdm with rfl | hd
        · decide
        · exact digit_ws_false hd
      · rcases hdm with rfl | hd
        · decide
        · intro hcon
          subst hcon
          exact absurd hd (by decide)

theorem stopOk_elemsTail (es : JElems) (rest : List Char) :
    stopOk (serElemsTail es ++ ']' :: rest) = true := by
  cases es with
  | nil => simp [serElemsTail, stopOk]
  | cons v es2 => simp [serElemsTail, stopOk]

theorem stopOk_fieldsTail (fs : JFields) (rest : List Char) :
    stopOk (serFieldsTail fs ++ '}' :: rest) = true := by
  cases fs with
  | nil => simp [serFieldsTail, stopOk]
  | cons k v fs2 => simp [serFieldsTail, stopOk]

theorem serRT : ∀ f : Nat,
    (∀ v rest, wfV v = true → weightV v ≤ f → stopOk rest = true →
      parseVal f (serV v ++ rest) = some (v, rest)) ∧
    (∀ es acc rest, wfE es = true → needE es ≤ f →
      parseArrRest f acc (serElemsTail es ++ ']' :: rest) =
        some (JVal.jArr (appendE acc es), rest)) ∧
    (∀ fs acc rest, wfF fs = true → needF fs ≤ f →
      parseObjRest f acc (serFieldsTail fs ++ '}' :: rest) =
        some (JVal.jObj (appendF acc fs), rest)) := by
  intro f
  induction f with
  | zero =>
    refine ⟨?_, ?_, ?_⟩
    · intro v rest _ hwt _
      exact absurd hwt (by have := weightV_pos v; omega)
    · intro es acc rest _ hnd
      exact absurd hnd (by have := needE_pos es; omega)
    · intro fs acc rest _ hnd
      exact absurd hnd (by have := needF_pos fs; omega)
  | succ f ih =>
    obtain ⟨ihP, ihQ, ihR⟩ := ih
    refine ⟨?_, ?_, ?_⟩
    · intro v rest hwf hwt hstop
      cases v with
      | jNull =>
        rw [show serV JVal.jNull ++ rest = 'n' :: 'u' :: 'l' :: 'l' :: rest from rfl]
        rw [parseVal, skipWs_cons_false (by decide)]
        dsimp only
        rw [if_neg (show ¬('n' = '{') by decide),
          if_neg (show ¬('n' = '[') by decide),
          if_neg (show ¬('n' = qch) by decide),
          if_neg (show ¬('n' = 't') by decide),
          if_neg (show ¬('n' = 'f') by decide),
          if_pos rfl,
          if_pos (show (['u', 'l', 'l'].isPrefixOf ('u' :: 'l' :: 'l' :: rest)) = true from
            isPrefixOf_append_self ['u', 'l', 'l'] rest)]
        rfl
      | jBool b =>
        cases b with
        | true =>
          rw [show serV (JVal.jBool true) ++ rest =
            't' :: 'r' :: 'u' :: 'e' :: rest from rfl]
          rw [parseVal, skipWs_cons_false (by decide)]
          dsimp only
          rw [if_neg (show ¬('t' = '{') by decide),
            if_neg (show ¬('t' = '[') by decide),
            if_neg (show ¬('t' = qch) by decide),
            if_pos rfl,
            if_pos (show (['r', 'u', 'e'].isPrefixOf ('r' :: 'u' :: 'e' :: rest)) = true from
            isPrefixOf_append_self ['r', 'u', 'e'] rest)]
          rfl
        | false =>
          rw [show serV (JVal.jBool false) ++ rest =
            'f' :: 'a' :: 'l' :: 's' :: 'e' :: rest from rfl]
          rw [parseVal, skipWs_cons_false (by decide)]
          dsimp only
          rw [if_neg (show ¬('f' = '{') by decide),
            if_neg (show ¬('f' = '[') by decide),
            if_neg (show ¬('f' = qch) by decide),
            if_neg (show ¬('f' = 't') by decide),
            if_pos rfl,
            if_pos (show (['a', 'l', 's', 'e'].isPrefixOf ('a' :: 'l' :: 's' :: 'e' :: rest)) = true from
            isPrefixOf_append_self ['a', 'l', 's', 'e'] rest)]
          rfl
      | jNum l =>
        simp only [wfV, beq_iff_eq] at hwf
        cases l with
        | nil => simp [numScan] at hwf
        | cons c0 t =>
          have hdm := numScan_headOk hwf
          have hws0 : isJSONWs c0 = false := by
            rcases hdm with rfl | hd
            · decide
            · exact digit_ws_false hd
          have hnot : ∀ x : Char, isDigitChar x = false → ¬(x = '-') →
              ¬(c0 = x) := by
            intro x hx hxm hcon
            rcases hdm with rfl | hd
            · exact hxm hcon.symm
            · subst hcon
              rw [hd] at hx
              exact Bool.noConfusion hx
          rw [show serV (JVal.jNum (c0 :: t)) ++ rest = c0 :: (t ++ rest) from rfl]
          rw [parseVal, skipWs_cons_false hws0]
          dsimp only
          rw [if_neg (hnot '{' (by decide) (by decide)),
            if_neg (hnot '[' (by decide) (by decide)),
            if_neg (hnot qch (by decide) (by decide)),
            if_neg (hnot 't' (by decide) (by decide)),
            if_neg (hnot 'f' (by decide) (by decide)),
            if_neg (hnot 'n' (by decide) (by decide))]
          have hcond : (c0 = '-' || isDigitChar c0) = true := by
            rcases hdm with rfl | hd
            · simp
            · simp [hd]
          rw [if_pos hcond]
          rw [show c0 :: (t ++ rest) = (c0 :: t) ++ rest from rfl]
          rw [numScan_append hwf rest hstop]
      | jStr b =>
        simp only [wfV] at hwf
        rw [show serV (JVal.jStr b) ++ rest = qch :: (b ++ qch :: rest) from by
          simp [serV]]
        rw [parseVal, skipWs_cons_false (by decide)]
        dsimp only
        rw [if_neg (show ¬(qch = '{') by decide),
          if_neg (show ¬(qch = '[') by decide),
          if_pos rfl,
          scanStr_of_okBody b.length b le_rfl hwf rest]
      | jArr es =>
        cases es with
        | nil =>
          rw [show serV (JVal.jArr JElems.nil) ++ rest = '[' :: ']' :: rest from rfl]
          rw [parseVal, skipWs_cons_false (by decide)]
          dsimp only
          rw [if_neg (show ¬('[' = '{') by decide), if_pos rfl,
            skipWs_cons_false (by decide)]
          dsimp only
          rw [if_pos rfl]
        | cons v1 es2 =>
          simp only [wfV, wfE, Bool.and_eq_true] at hwf
          obtain ⟨hw1, hwes⟩ := hwf
          rw [weightV] at hwt
          have hm : max (weightV v1) (needE es2) ≤ f := by omega
          have hw1f : weightV v1 ≤ f := le_trans (Nat.le_max_left _ _) hm
          have hwef : needE es2 ≤ f := le_trans (Nat.le_max_right _ _) hm
          obtain ⟨c0, t0, hs1, hc0ws, hc0b⟩ := serV_head v1 hw1
          rw [show serV (JVal.jArr (JElems.cons v1 es2)) ++ rest =
            '[' :: (serV v1 ++ (serElemsTail es2 ++ ']' :: rest)) from by
              simp [serV]]
          rw [parseVal, skipWs_cons_false (by decide)]
          dsimp only
          rw [if_neg (show ¬('[' = '{') by decide), if_pos rfl, hs1]
          rw [show (c0 :: t0) ++ (serElemsTail es2 ++ ']' :: rest) =
            c0 :: (t0 ++ (serElemsTail es2 ++ ']' :: rest)) from rfl]
          rw [skipWs_cons_false hc0ws]
          dsimp only
          rw [if_neg hc0b]
          rw [show c0 :: (t0 ++ (serElemsTail es2 ++ ']' :: rest)) =
            serV v1 ++ (serElemsTail es2 ++ ']' :: rest) from by rw [hs1]; rfl]
          rw [ihP v1 (serElemsTail es2 ++ ']' :: rest) hw1 hw1f
            (stopOk_elemsTail es2 rest)]
          dsimp only
          rw [ihQ es2 (JElems.cons v1 JElems.nil) rest hwes hwef]
          rfl
      | jObj fs =>
        cases fs with
        | nil =>
          rw [show serV (JVal.jObj JFields.nil) ++ rest = '{' :: '}' :: rest from rfl]
          rw [parseVal, skipWs_cons_false (by decide)]
          dsimp only
          rw [if_pos rfl, skipWs_cons_false (by decide)]
          dsimp only
          rw [if_pos rfl]
        | cons k v1 fs2 =>
          simp only [wfV, wfF, Bool.and_eq_true] at hwf
          obtain ⟨⟨hok, hw1⟩, hwfs⟩ := hwf
          rw [weightV] at hwt
          have hm : max (weightV v1) (needF fs2) ≤ f := by omega
          have hw1f : weightV v1 ≤ f := le_trans (Nat.le_max_left _ _) hm
          have hwff : needF fs2 ≤ f := le_trans (Nat.le_max_right _ _) hm
          rw [show serV (JVal.jObj (JFields.cons k v1 fs2)) ++ rest =
            '{' :: (qch :: (k ++ (qch :: (':' ::
              (serV v1 ++ (serFieldsTail fs2 ++ '}' :: rest)))))) from by
                simp [serV]]
          rw [parseVal, skipWs_cons_false (by decide)]
          dsimp only
          rw [if_pos rfl, skipWs_cons_false (by decide)]
          dsimp only
          rw [if_neg (show ¬(qch = '}') by decide), if_pos rfl,
            scanStr_of_okBody k.length k le_rfl hok
              (':' :: (serV v1 ++ (serFieldsTail fs2 ++ '}' :: rest)))]
          dsimp only
          rw [skipWs_cons_false (by decide)]
          dsimp only
          rw [if_pos rfl]
          rw [ihP v1 (serFieldsTail fs2 ++ '}' :: rest) hw1 hw1f
            (stopOk_fieldsTail fs2 rest)]
          dsimp only
          rw [ihR fs2 (JFields.cons k v1 JFields.nil) rest hwfs hwff]
          rfl
    · intro es acc rest hwf hnd
      cases es with
      | nil =>
        rw [show serElemsTail JElems.nil ++ ']' :: rest = ']' :: rest from rfl]
        rw [parseArrRest, skipWs_cons_false (by decide)]
        dsimp only
        rw [if_pos rfl, appendE_nil]
      | cons v1 es2 =>
        simp only [wfE, Bool.and_eq_true] at hwf
        obtain ⟨hw1, hwes⟩ := hwf
        rw [needE] at hnd
        have hm : max (weightV v1) (needE es2) ≤ f := by omega
        have hw1f : weightV v1 ≤ f := le_trans (Nat.le_max_left _ _) hm
        have hwef : needE es2 ≤ f := le_trans (Nat.le_max_right _ _) hm
        rw [show serElemsTail (JElems.cons v1 es2) ++ ']' :: rest =
          ',' :: (serV v1 ++ (serElemsTail es2 ++ ']' :: rest)) from by
            simp [serElemsTail]]
        rw [parseArrRest, skipWs_cons_false (by decide)]
        dsimp only
        rw [if_neg (show ¬(',' = ']') by decide), if_pos rfl,
          ihP v1 (serElemsTail es2 ++ ']' :: rest) hw1 hw1f
            (stopOk_elemsTail es2 rest)]
        dsimp only
        rw [ihQ es2 (snocE acc v1) rest hwes hwef, appendE_snoc]
    · intro fs acc rest hwf hnd
      cases fs with
      | nil =>
        rw [show serFieldsTail JFields.nil ++ '}' :: rest = '}' :: rest from rfl]
        rw [parseObjRest, skipWs_cons_false (by decide)]
        dsimp only
        rw [if_pos rfl, appendF_nil]
      | cons k v1 fs2 =>
        simp only [wfF, Bool.and_eq_true] at hwf
        obtain ⟨⟨hok, hw1⟩, hwfs⟩ := hwf
        rw [needF] at hnd
        have hm : max (weightV v1) (needF fs2) ≤ f := by omega
        have hw1f : weightV v1 ≤ f := le_trans (Nat.le_max_left _ _) hm
        have hwff : needF fs2 ≤ f := le_trans (Nat.le_max_right _ _) hm
        rw [show serFieldsTail (JFields.cons k v1 fs2) ++ '}' :: rest =
          ',' :: (qch :: (k ++ (qch :: (':' ::
            (serV v1 ++ (serFieldsTail fs2 ++ '}' :: rest)))))) from by
              simp [serFieldsTail]]
        rw [parseObjRest, skipWs_cons_false (by decide)]
        dsimp only
        rw [if_neg (show ¬(',' = '}') by decide), if_pos rfl,
          skipWs_cons_false (by decide)]
        dsimp only
        rw [if_pos rfl,
          scanStr_of_okBody k.length k le_rfl hok
            (':' :: (serV v1 ++ (serFieldsTail fs2 ++ '}' :: rest)))]
        dsimp only
        rw [skipWs_cons_false (by decide)]
        dsimp only
        rw [if_pos rfl,
          ihP v1 (serFieldsTail fs2 ++ '}' :: rest) hw1 hw1f
            (stopOk_fieldsTail fs2 rest)]
        dsimp only
        rw [ihR fs2 (snocF acc k v1) rest hwfs hwff, appendF_snoc]

mutual
theorem weightV_le : ∀ v : JVal, weightV v ≤ (serV v).length + 1
  | JVal.jNull => by decide
  | JVal.jBool b => by cases b <;> decide
  | JVal.jNum l => by
    simp only [weightV, serV]
    omega
  | JVal.jStr b => by
    simp only [weightV, serV, List.length_cons, List.length_append]
    omega
  | JVal.jArr JElems.nil => by decide
  | JVal.jArr (JElems.cons v es) => by
    have h1 := weightV_le v
    have h2 := needE_le es
    simp only [weightV, serV, List.length_cons, List.length_append]
    have h3 : max (weightV v) (needE es) ≤
        (serV v).length + (serElemsTail es).length + 1 :=
      Nat.max_le.mpr ⟨by omega, by omega⟩
    omega
  | JVal.jObj JFields.nil => by decide
  | JVal.jObj (JFields.cons k v fs) => by
    have h1 := weightV_le v
    have h2 := needF_le fs
    simp only [weightV, serV, List.length_cons, List.length_append]
    have h3 : max (weightV v) (needF fs) ≤
        (serV v).length + (serFieldsTail fs).length + 1 :=
      Nat.max_le.mpr ⟨by omega, by omega⟩
    omega
theorem needE_le : ∀ es : JElems, needE es ≤ (serElemsTail es).length + 1
  | JElems.nil => by decide
  | JElems.cons v es => by
    have h1 := weightV_le v
    have h2 := needE_le es
    simp only [needE, serElemsTail, List.length_cons, List.length_append]
    have h3 : max (weightV v) (needE es) ≤
        (serV v).length + (serElemsTail es).length + 1 :=
      Nat.max_le.mpr ⟨by omega, by omega⟩
    omega
theorem needF_le : ∀ fs : JFields, needF fs ≤ (serFieldsTail fs).length + 1
  | JFields.nil => by decide
  | JFields.cons k v fs => by
    have h1 := weightV_le v
    have h2 := needF_le fs
    simp only [needF, serFieldsTail, List.length_cons, List.length_append]
    have h3 : max (weightV v) (needF fs) ≤
        (serV v).length + (serFieldsTail fs).length + 1 :=
      Nat.max_le.mpr ⟨by omega, by omega⟩
    omega
end

theorem jparse_serV {v : JVal} (hwf : wfV v = true) : jparseFull (serV v) = some v := by
  have h := (serRT ((serV v).length + 1)).1 v [] hwf (weightV_le v) rfl
  rw [List.append_nil] at h
  rw [jparseFull, h]
  rfl

theorem jsonws_go {c : Char} (h : isJSONWs c = true) : isGoSpace c = true := by
  simp only [isJSONWs, Bool.or_eq_true, decide_eq_true_eq] at h
  rcases h with ((h | h) | h) | h <;> subst h <;> decide

theorem goTrimSpace_idem (l : List Char) : goTrimSpace (goTrimSpace l) = goTrimSpace l := by
  cases hgt : goTrimSpace l with
  | nil => rfl
  | cons c r =>
    have hhd : isGoSpace c = false := goTrim_head_not_space hgt
    cases hl : (c :: r).getLast? with
    | none => exact absurd hl (by simp)
    | some a =>
      have hla : isGoSpace a = false := by
        refine goTrim_getLast_not_space (l := l) ?_
        rw [hgt]
        exact hl
      simp only [goTrimSpace]
      have h1 : (c :: r).dropWhile isGoSpace = c :: r := by
        simp only [List.dropWhile]
        rw [hhd]
      rw [h1]
      cases hrev : (c :: r).reverse with
      | nil => exact absurd (congrArg List.length hrev) (by simp)
      | cons a2 w =>
        have ha2 : a2 = a := by
          have hh := List.head?_reverse (c :: r)
          rw [hrev, hl] at hh
          simpa using hh
        have hla2 : isGoSpace a2 = false := by
          rw [ha2]
          exact hla
        have h2 : (a2 :: w).dropWhile isGoSpace = a2 :: w := by
          simp only [List.dropWhile]
          rw [hla2]
        rw [h2, ← hrev, List.reverse_reverse]

theorem all_digits_last {ds : List Char} (hne : ds ≠ [])
    (h : ∀ x ∈ ds, isDigitChar x = true) :
    ∃ u b, ds = u ++ [b] ∧ isDigitChar b = true :=
  ⟨ds.dropLast, ds.getLast hne, (List.dropLast_append_getLast hne).symm,
    h _ (List.getLast_mem hne)⟩

theorem numIntPart_last {s ip r1 : List Char} (h : numIntPart s = some (ip, r1)) :
    ∃ u b, ip = u ++ [b] ∧ isDigitChar b = true := by
  cases s with
  | nil => simp [numIntPart] at h
  | cons c t =>
    simp only [numIntPart] at h
    by_cases h1 : c = '0'
    · rw [if_pos h1] at h
      simp only [Option.some.injEq, Prod.mk.injEq] at h
      exact ⟨[], '0', h.1.symm, by decide⟩
    · rw [if_neg h1] at h
      by_cases h2 : isDigitChar c = true
      · rw [if_pos h2] at h
        simp only [Option.some.injEq, Prod.mk.injEq] at h
        cases hds : (digitSpan t).1 with
        | nil =>
          refine ⟨[], c, ?_, h2⟩
          rw [← h.1, hds]
          rfl
        | cons d ds2 =>
          have hall : ∀ x ∈ d :: ds2, isDigitChar x = true := by
            intro x hx
            refine mem_takeWhile_sat (l := t) ?_
            rw [show t.takeWhile isDigitChar = (digitSpan t).1 from rfl, hds]
            exact hx
          obtain ⟨u, b, hu, hb⟩ := all_digits_last (by simp) hall
          refine ⟨c :: u, b, ?_, hb⟩
          rw [← h.1, hds, hu]
          rfl
      · rw [if_neg h2] at h
        simp at h

theorem numFracPart_last {s fp r2 : List Char} (h : numFracPart s = some (fp, r2)) :
    fp = [] ∨ ∃ u b, fp = u ++ [b] ∧ isDigitChar b = true := by
  cases s with
  | nil =>
    simp only [numFracPart, Option.some.injEq, Prod.mk.injEq] at h
    exact Or.inl h.1.symm
  | cons c t =>
    simp only [numFracPart] at h
    by_cases h1 : c = '.'
    · rw [if_pos h1] at h
      rcases hds : digitSpan t with ⟨ds, rr⟩
      rw [hds] at h
      cases ds with
      | nil => simp at h
      | cons d ds2 =>
        simp only [Option.some.injEq, Prod.mk.injEq] at h
        have hall : ∀ x ∈ d :: ds2, isDigitChar x = true := by
          intro x hx
          refine mem_takeWhile_sat (l := t) ?_
          have h4 : (digitSpan t).1 = d :: ds2 := by rw [hds]
          rw [show t.takeWhile isDigitChar = (digitSpan t).1 from rfl, h4]
          exact hx
        obtain ⟨u, b, hu, hb⟩ := all_digits_last (by simp) hall
        refine Or.inr ⟨'.' :: u, b, ?_, hb⟩
        rw [← h.1, hu]
        rfl
    · rw [if_neg h1] at h
      simp only [Option.some.injEq, Prod.mk.injEq] at h
      exact Or.inl h.1.symm

theorem numExpPart_last {s ep r3 : List Char} (h : numExpPart s = some (ep, r3)) :
    ep = [] ∨ ∃ u b, ep = u ++ [b] ∧ isDigitChar b = true := by
  cases s with
  | nil =>
    simp only [numExpPart, Option.some.injEq, Prod.mk.injEq] at h
    exact Or.inl h.1.symm
  | cons c t =>
    simp only [numExpPart] at h
    by_cases h1 : (c = 'e' || c = 'E') = true
    · rw [if_pos h1] at h
      cases t with
      | nil => simp at h
      | cons s2 t2 =>
        dsimp only at h
        by_cases h2 : (s2 = '+' || s2 = '-') = true
        · rw [if_pos h2] at h
          rcases hds : digitSpan t2 with ⟨ds, rr⟩
          rw [hds] at h
          cases ds with
          | nil => simp at h
          | cons d ds2 =>
            simp only [Option.some.injEq, Prod.mk.injEq] at h
            have hall : ∀ x ∈ d :: ds2, isDigitChar x = true := by
              intro x hx
              refine mem_takeWhile_sat (l := t2) ?_
              have h5 : (digitSpan t2).1 = d :: ds2 := by rw [hds]
              rw [show t2.takeWhile isDigitChar = (digitSpan t2).1 from rfl, h5]
              exact hx
            obtain ⟨u, b, hu, hb⟩ := all_digits_last (by simp) hall
            refine Or.inr ⟨c :: s2 :: u, b, ?_, hb⟩
            rw [← h.1, hu]
            rfl
        · rw [if_neg h2] at h
          rcases hds : digitSpan (s2 :: t2) with ⟨ds, rr⟩
          rw [hds] at h
          cases ds with
          | nil => simp at h
          | cons d ds2 =>
            simp only [Option.some.injEq, Prod.mk.injEq] at h
            have hall : ∀ x ∈ d :: ds2, isDigitChar x = true := by
              intro x hx
              refine mem_takeWhile_sat (l := s2 :: t2) ?_
              have h5 : (digitSpan (s2 :: t2)).1 = d :: ds2 := by rw [hds]
              rw [show (s2 :: t2).takeWhile isDigitChar =
                (digitSpan (s2 :: t2)).1 from rfl, h5]
              exact hx
            obtain ⟨u, b, hu, hb⟩ := all_digits_last (by simp) hall
            refine Or.inr ⟨c :: u, b, ?_, hb⟩
            rw [← h.1, hu]
            rfl
    · rw [if_neg h1] at h
      simp only [Option.some.injEq, Prod.mk.injEq] at h
      exact Or.inl h.1.symm

theorem numScan_last {s lex r : List Char} (h : numScan s = some (lex, r)) :
    ∃ u b, lex = u ++ [b] ∧ isDigitChar b = true := by
  cases s with
  | nil => simp [numScan] at h
  | cons c t =>
    simp only [numScan] at h
    have main : ∀ s2 l2 r2, numScanPos s2 = some (l2, r2) →
        ∃ u b, l2 = u ++ [b] ∧ isDigitChar b = true := by
      intro s2 l2 r2 h2
      simp only [numScanPos] at h2
      cases hip : numIntPart s2 with
      | none => rw [hip] at h2; simp at h2
      | some p1 =>
        rw [hip] at h2
        obtain ⟨ip, r1⟩ := p1
        dsimp only at h2
        cases hfp : numFracPart r1 with
        | none => rw [hfp] at h2; simp at h2
        | some p2 =>
          rw [hfp] at h2
          obtain ⟨fp, r2b⟩ := p2
          dsimp only at h2
          cases hep : numExpPart r2b with
          | none => rw [hep] at h2; simp at h2
          | some p3 =>
            rw [hep] at h2
            obtain ⟨ep, r3⟩ := p3
            dsimp only at h2
            simp only [Option.some.injEq, Prod.mk.injEq] at h2
            obtain ⟨h3, h4⟩ := h2
            rcases numExpPart_last hep with hel | ⟨u, b, hu, hb⟩
            · rcases numFracPart_last hfp with hfl | ⟨u, b, hu, hb⟩
              · obtain ⟨u, b, hu, hb⟩ := numIntPart_last hip
                refine ⟨u, b, ?_, hb⟩
                rw [← h3, hel, hfl, hu]
                simp
              · refine ⟨ip ++ u, b, ?_, hb⟩
                rw [← h3, hel, hu]
                simp
            · refine ⟨ip ++ fp ++ u, b, ?_, hb⟩
              rw [← h3, hu]
              simp
    by_cases h1 : c = '-'
    · rw [if_pos h1] at h
      subst h1
      cases hp : numScanPos t with
      | none => rw [hp] at h; simp at h
      | some p =>
        rw [hp] at h
        obtain ⟨l2, r2⟩ := p
        dsimp only at h
        simp only [Option.some.injEq, Prod.mk.injEq] at h
        obtain ⟨h2, h3⟩ := h
        obtain ⟨u, b, hu, hb⟩ := main t l2 r2 hp
        refine ⟨'-' :: u, b, ?_, hb⟩
        rw [← h2, hu]
        rfl
    · rw [if_neg h1] at h
      exact main (c :: t) lex r h

theorem skipWs_split {s : List Char} {c0 : Char} {r : List Char}
    (hsw : skipWs s = c0 :: r) : s = s.takeWhile isJSONWs ++ (c0 :: r) := by
  conv_lhs => rw [← List.takeWhile_append_dropWhile isJSONWs s]
  rw [show s.dropWhile isJSONWs = skipWs s from rfl, hsw]

theorem parseLastAll : ∀ f : Nat,
    (∀ s v rest, parseVal f s = some (v, rest) →
      ∃ u c0, s = u ++ c0 :: rest ∧ ¬(c0 = Char.ofNat 96)) ∧
    (∀ acc s w rest, parseArrRest f acc s = some (w, rest) →
      ∃ u, s = u ++ ']' :: rest) ∧
    (∀ acc s w rest, parseObjRest f acc s = some (w, rest) →
      ∃ u, s = u ++ '}' :: rest) := by
  intro f
  induction f with
  | zero =>
    refine ⟨?_, ?_, ?_⟩
    · intro s v rest h
      simp [parseVal] at h
    · intro acc s w rest h
      simp [parseArrRest] at h
    · intro acc s w rest h
      simp [parseObjRest] at h
  | succ f ih =>
    obtain ⟨ihP, ihQ, ihR⟩ := ih
    refine ⟨?_, ?_, ?_⟩
    · intro s v rest h
      rw [parseVal] at h
      cases hsw : skipWs s with
      | nil => rw [hsw] at h; simp at h
      | cons c0 r =>
        rw [hsw] at h
        dsimp only at h
        by_cases hb1 : c0 = '{'
        · rw [if_pos hb1] at h
          subst hb1
          cases hsw2 : skipWs r with
          | nil => rw [hsw2] at h; simp at h
          | cons c2 r2 =>
            rw [hsw2] at h
            dsimp only at h
            by_cases hb2 : c2 = '}'
            · rw [if_pos hb2] at h
              subst hb2
              simp only [Option.some.injEq, Prod.mk.injEq] at h
              obtain ⟨hv, hr⟩ := h
              subst hr
              refine ⟨s.takeWhile isJSONWs ++ '{' :: r.takeWhile isJSONWs, '}',
                ?_, by decide⟩
              conv_lhs => rw [skipWs_split hsw, skipWs_split hsw2]
              simp
            · rw [if_neg hb2] at h
              by_cases hb3 : c2 = qch
              · rw [if_pos hb3] at h
                subst hb3
                cases hss : scanStr r2 with
                | none => rw [hss] at h; simp at h
                | some kp =>
                  rw [hss] at h
                  obtain ⟨k, r3⟩ := kp
                  dsimp only at h
                  have hk : r2 = k ++ qch :: r3 :=
                    scanStr_decomp r2.length r2 k r3 le_rfl hss
                  cases hsw3 : skipWs r3 with
                  | nil => rw [hsw3] at h; simp at h
                  | cons c3 r4 =>
                    rw [hsw3] at h
                    dsimp only at h
                    by_cases hb4 : c3 = ':'
                    · rw [if_pos hb4] at h
                      subst hb4
                      cases hpv : parseVal f r4 with
                      | none => rw [hpv] at h; simp at h
                      | some vp =>
                        rw [hpv] at h
                        obtain ⟨v1, r5⟩ := vp
                        dsimp only at h
                        obtain ⟨u4, c4, hd4, _⟩ := ihP r4 v1 r5 hpv
                        obtain ⟨u5, hd5⟩ :=
                          ihR (JFields.cons k v1 JFields.nil) r5 v rest h
                        refine ⟨s.takeWhile isJSONWs ++ '{' ::
                          (r.takeWhile isJSONWs ++ qch :: (k ++ qch ::
                            (r3.takeWhile isJSONWs ++ ':' ::
                              (u4 ++ c4 :: u5)))), '}', ?_, by decide⟩
                        conv_lhs => rw [skipWs_split hsw, skipWs_split hsw2, hk,
                          skipWs_split hsw3, hd4, hd5]
                        simp
                    · rw [if_neg hb4] at h
                      simp at h
              · rw [if_neg hb3] at h
                simp at h
        · rw [if_neg hb1] at h
          by_cases hb2 : c0 = '['
          · rw [if_pos hb2] at h
            subst hb2
            cases hsw2 : skipWs r with
            | nil => rw [hsw2] at h; simp at h
            | cons c2 r2 =>
              rw [hsw2] at h
              dsimp only at h
              by_cases hb3 : c2 = ']'
              · rw [if_pos hb3] at h
                subst hb3
                simp only [Option.some.injEq, Prod.mk.injEq] at h
                obtain ⟨hv, hr⟩ := h
                subst hr
                refine ⟨s.takeWhile isJSONWs ++ '[' :: r.takeWhile isJSONWs, ']',
                  ?_, by decide⟩
                conv_lhs => rw [skipWs_split hsw, skipWs_split hsw2]
                simp
              · rw [if_neg hb3] at h
                cases hpv : parseVal f (c2 :: r2) with
                | none => rw [hpv] at h; simp at h
                | some vp =>
                  rw [hpv] at h
                  obtain ⟨v1, r3⟩ := vp
                  dsimp only at h
                  obtain ⟨u1, c1, hd1, _⟩ := ihP (c2 :: r2) v1 r3 hpv
                  obtain ⟨u2, hd2⟩ :=
                    ihQ (JElems.cons v1 JElems.nil) r3 v rest h
                  refine ⟨s.takeWhile isJSONWs ++ '[' ::
                    (r.takeWhile isJSONWs ++ (u1 ++ c1 :: u2)), ']', ?_,
                    by decide⟩
                  conv_lhs => rw [skipWs_split hsw, skipWs_split hsw2, hd1, hd2]
                  simp
          · rw [if_neg hb2] at h
            by_cases hb3 : c0 = qch
            · rw [if_pos hb3] at h
              subst hb3
              cases hss : scanStr r with
              | none => rw [hss] at h; simp at h
              | some bp =>
                rw [hss] at h
                obtain ⟨b, r2⟩ := bp
                dsimp only at h
                simp only [Option.some.injEq, Prod.mk.injEq] at h
                obtain ⟨hv, hr⟩ := h
                subst hr
                have hkd : r = b ++ qch :: r2 :=
                  scanStr_decomp r.length r b r2 le_rfl hss
                refine ⟨s.takeWhile isJSONWs ++ qch :: b, qch, ?_, by decide⟩
                conv_lhs => rw [skipWs_split hsw, hkd]
                simp
            · rw [if_neg hb3] at h
              by_cases hb4 : c0 = 't'
              · rw [if_pos hb4] at h
                subst hb4
                by_cases hp : (['r', 'u', 'e'].isPrefixOf r) = true
                · rw [if_pos hp] at h
                  simp only [Option.some.injEq, Prod.mk.injEq] at h
                  obtain ⟨hv, hr⟩ := h
                  subst hr
                  have hd : r = ['r', 'u', 'e'] ++ r.drop 3 := by
                    have := isPrefixOf_decomp (['r', 'u', 'e']) r hp
                    simpa using this
                  refine ⟨s.takeWhile isJSONWs ++ 't' :: ['r', 'u'], 'e', ?_,
                    by decide⟩
                  conv_lhs => rw [skipWs_split hsw, hd]
                  simp
                · rw [if_neg hp] at h
                  simp at h
              · rw [if_neg hb4] at h
                by_cases hb5 : c0 = 'f'
                · rw [if_pos hb5] at h
                  subst hb5
                  by_cases hp : (['a', 'l', 's', 'e'].isPrefixOf r) = true
                  · rw [if_pos hp] at h
                    simp only [Option.some.injEq, Prod.mk.injEq] at h
                    obtain ⟨hv, hr⟩ := h
                    subst hr
                    have hd : r = ['a', 'l', 's', 'e'] ++ r.drop 4 := by
                      have := isPrefixOf_decomp (['a', 'l', 's', 'e']) r hp
                      simpa using this
                    refine ⟨s.takeWhile isJSONWs ++ 'f' :: ['a', 'l', 's'], 'e',
                      ?_, by decide⟩
                    conv_lhs => rw [skipWs_split hsw, hd]
                    simp
                  · rw [if_neg hp] at h
                    simp at h
                · rw [if_neg hb5] at h
                  by_cases hb6 : c0 = 'n'
                  · rw [if_pos hb6] at h
                    subst hb6
                    by_cases hp : (['u', 'l', 'l'].isPrefixOf r) = true
                    · rw [if_pos hp] at h
                      simp only [Option.some.injEq, Prod.mk.injEq] at h
                      obtain ⟨hv, hr⟩ := h
                      subst hr
                      have hd : r = ['u', 'l', 'l'] ++ r.drop 3 := by
                        have := isPrefixOf_decomp (['u', 'l', 'l']) r hp
                        simpa using this
                      refine ⟨s.takeWhile isJSONWs ++ 'n' :: ['u', 'l'], 'l', ?_,
                        by decide⟩
                      conv_lhs => rw [skipWs_split hsw, hd]
                      simp
                    · rw [if_neg hp] at h
                      simp at h
                  · rw [if_neg hb6] at h
                    by_cases hb7 : (c0 = '-' || isDigitChar c0) = true
                    · rw [if_pos hb7] at h
                      cases hns : numScan (c0 :: r) with
                      | none => rw [hns] at h; simp at h
                      | some p =>
                        rw [hns] at h
                        obtain ⟨lex, r2⟩ := p
                        dsimp only at h
                        simp only [Option.some.injEq, Prod.mk.injEq] at h
                        obtain ⟨hv, hr⟩ := h
                        subst hr
                        have hd : c0 :: r = lex ++ r2 :=
                          numScan_decomp (c0 :: r) lex r2 hns
                        obtain ⟨u2, b, hlex, hbd⟩ := numScan_last hns
                        refine ⟨s.takeWhile isJSONWs ++ u2, b, ?_, ?_⟩
                        · conv_lhs => rw [skipWs_split hsw, hd, hlex]
                          simp
                        · intro hcon
                          subst hcon
                          exact absurd hbd (by decide)
                    · rw [if_neg hb7] at h
                      simp at h
    · intro acc s w rest h
      rw [parseArrRest] at h
      cases hsw : skipWs s with
      | nil => rw [hsw] at h; simp at h
      | cons c0 r =>
        rw [hsw] at h
        dsimp only at h
        by_cases hb1 : c0 = ']'
        · rw [if_pos hb1] at h
          subst hb1
          simp only [Option.some.injEq, Prod.mk.injEq] at h
          obtain ⟨hw, hr⟩ := h
          subst hr
          exact ⟨s.takeWhile isJSONWs, skipWs_split hsw⟩
        · rw [if_neg hb1] at h
          by_cases hb2 : c0 = ','
          · rw [if_pos hb2] at h
            subst hb2
            cases hpv : parseVal f r with
            | none => rw [hpv] at h; simp at h
            | some vp =>
              rw [hpv] at h
              obtain ⟨v1, r2⟩ := vp
              dsimp only at h
              obtain ⟨u1, c1, hd1, _⟩ := ihP r v1 r2 hpv
              obtain ⟨u2, hd2⟩ := ihQ (snocE acc v1) r2 w rest h
              refine ⟨s.takeWhile isJSONWs ++ ',' :: (u1 ++ c1 :: u2), ?_⟩
              conv_lhs => rw [skipWs_split hsw, hd1, hd2]
              simp
          · rw [if_neg hb2] at h
            simp at h
    · intro acc s w rest h
      rw [parseObjRest] at h
      cases hsw : skipWs s with
      | nil => rw [hsw] at h; simp at h
      | cons c0 r =>
        rw [hsw] at h
        dsimp only at h
        by_cases hb1 : c0 = '}'
        · rw [if_pos hb1] at h
          subst hb1
          simp only [Option.some.injEq, Prod.mk.injEq] at h
          obtain ⟨hw, hr⟩ := h
          subst hr
          exact ⟨s.takeWhile isJSONWs, skipWs_split hsw⟩
        · rw [if_neg hb1] at h
          by_cases hb2 : c0 = ','
          · rw [if_pos hb2] at h
            subst hb2
            cases hsw2 : skipWs r with
            | nil => rw [hsw2] at h; simp at h
            | cons c2 r2 =>
              rw [hsw2] at h
              dsimp only at h
              by_cases hb3 : c2 = qch
              · rw [if_pos hb3] at h
                subst hb3
                cases hss : scanStr r2 with
                | none => rw [hss] at h; simp at h
                | some kp =>
                  rw [hss] at h
                  obtain ⟨k, r3⟩ := kp
                  dsimp only at h
                  have hk : r2 = k ++ qch :: r3 :=
                    scanStr_decomp r2.length r2 k r3 le_rfl hss
                  cases hsw3 : skipWs r3 with
                  | nil => rw [hsw3] at h; simp at h
                  | cons c3 r4 =>
                    rw [hsw3] at h
                    dsimp only at h
                    by_cases hb4 : c3 = ':'
                    · rw [if_pos hb4] at h
                      subst hb4
                      cases hpv : parseVal f r4 with
                      | none => rw [hpv] at h; simp at h
                      | some vp =>
                        rw [hpv] at h
                        obtain ⟨v1, r5⟩ := vp
                        dsimp only at h
                        obtain ⟨u4, c4, hd4, _⟩ := ihP r4 v1 r5 hpv
                        obtain ⟨u5, hd5⟩ := ihR (snocF acc k v1) r5 w rest h
                        refine ⟨s.takeWhile isJSONWs ++ ',' ::
                          (r.takeWhile isJSONWs ++ qch :: (k ++ qch ::
                            (r3.takeWhile isJSONWs ++ ':' ::
                              (u4 ++ c4 :: u5)))), ?_⟩
                        conv_lhs => rw [skipWs_split hsw, skipWs_split hsw2, hk,
                          skipWs_split hsw3, hd4, hd5]
                        simp
                    · rw [if_neg hb4] at h
                      simp at h
              · rw [if_neg hb3] at h
                simp at h
          · rw [if_neg hb2] at h
            simp at h

/-- C1 (amended): for every input whose trimmed text is valid JSON
and starts with an opening brace, opening bracket or double quote,
repairJSON takes the valid fast path and returns the compacted
serialisation of the parsed value; the returned text reparses to the
structurally identical value, so decoding the repaired text agrees
with decoding the trimmed original for every target.  The unrestricted
claim is refuted by the counterexample: a valid scalar root such as
the literal true is destroyed (repaired to the empty-string literal),
because the opener cut precedes the validity fast path. -/
theorem repairJSON_valid_fastpath (s : List Char) (v : JVal)
    (hv : jparseFull (goTrimSpace s) = some v)
    (hhead : (goTrimSpace s).head? = some '{' ∨ (goTrimSpace s).head? = some '[' ∨
      (goTrimSpace s).head? = some qch) :
    repairJSON s = Except.ok (serV v) ∧ jparseFull (serV v) = some v ∧
    (∀ (α : Type) (tg : DecTarget α),
      unmarshalWith tg (serV v) = unmarshalWith tg (goTrimSpace s)) := by
  set t := goTrimSpace s with ht
  have hex : ∃ h0 r0, t = h0 :: r0 ∧ (h0 = '{' ∨ h0 = '[' ∨ h0 = qch) := by
    cases htc : t with
    | nil =>
      rw [htc] at hhead
      rcases hhead with hh | hh | hh <;> simp at hh
    | cons a b =>
      rw [htc] at hhead
      refine ⟨a, b, rfl, ?_⟩
      rcases hhead with hh | hh | hh <;>
        simp only [List.head?_cons, Option.some.injEq] at hh
      · exact Or.inl hh
      · exact Or.inr (Or.inl hh)
      · exact Or.inr (Or.inr hh)
  obtain ⟨h0, r0, ht0, hh0⟩ := hex
  have hvp := hv
  rw [jparseFull] at hvp
  cases hp : parseVal (t.length + 1) t with
  | none => rw [hp] at hvp; simp at hvp
  | some p =>
    rw [hp] at hvp
    obtain ⟨v0, rest⟩ := p
    dsimp only at hvp
    by_cases hre : (skipWs rest).isEmpty = true
    · rw [if_pos hre] at hvp
      simp only [Option.some.injEq] at hvp
      subst hvp
      have hskip : skipWs rest = [] := by
        cases hsw : skipWs rest with
        | nil => rfl
        | cons a b => rw [hsw] at hre; simp at hre
      have hallws : ∀ x ∈ rest, isJSONWs x = true := by
        intro x hx
        have htk : rest.takeWhile isJSONWs = rest := by
          have h2 := List.takeWhile_append_dropWhile isJSONWs rest
          rw [show rest.dropWhile isJSONWs = skipWs rest from rfl, hskip,
            List.append_nil] at h2
          exact h2
        rw [← htk] at hx
        exact mem_takeWhile_sat hx
      obtain ⟨u4, c4, hdec4, hbk⟩ := (parseLastAll (t.length + 1)).1 t v0 rest hp
      have hrestnil : rest = [] := by
        cases hrc : rest with
        | nil => rfl
        | cons a b =>
          exfalso
          have hne2 : rest ≠ [] := by rw [hrc]; simp
          have hglr : t.getLast? = rest.getLast? := by
            rw [hdec4, show u4 ++ c4 :: rest = (u4 ++ [c4]) ++ rest from by simp]
            exact List.getLast?_append_of_ne_nil _ hne2
          have hgl2 : rest.getLast? = some (rest.getLast hne2) :=
            List.getLast?_eq_getLast rest hne2
          have hwsx := hallws _ (List.getLast_mem hne2)
          have hlast : (goTrimSpace s).getLast? = some (rest.getLast hne2) := by
            rw [← ht, hglr, hgl2]
          have hns := goTrim_getLast_not_space hlast
          rw [jsonws_go hwsx] at hns
          exact Bool.noConfusion hns
      subst hrestnil
      have htlast : t.getLast? = some c4 := by
        rw [hdec4, show u4 ++ c4 :: ([] : List Char) = u4 ++ [c4] from rfl,
          List.getLast?_append_of_ne_nil _ (by simp)]
        rfl
      have hwf : wfV v0 = true := (parseWfAll (t.length + 1)).1 t v0 [] hp
      have hser : jparseFull (serV v0) = some v0 := jparse_serV hwf
      have hB : goTrimPrefixOf ("```json".data) t = t := by
        rw [ht0, show ("```json".data : List Char) =
          Char.ofNat 96 :: ("``json".data) from rfl]
        refine goTrimPrefixOf_nop ?_
        rcases hh0 with rfl | rfl | rfl <;> decide
      have hC : goTrimSuffixOf ("```".data) t = t := by
        rw [show ("```".data : List Char) = ("``".data) ++ [Char.ofNat 96] from rfl]
        exact goTrimSuffixOf_nop (fun hcon => hbk hcon.symm) htlast
      have hidem : goTrimSpace t = t := by
        rw [ht]
        exact goTrimSpace_idem s
      have hsne : ¬(s = []) := by
        intro hcon
        rw [hcon] at ht
        rw [show goTrimSpace ([] : List Char) = [] from rfl] at ht
        rw [ht] at ht0
        exact List.noConfusion ht0
      have hq1 : ¬(t = [qch]) := by
        intro hcon
        rw [hcon] at hv
        rw [show jparseFull [qch] = none from by decide] at hv
        exact Option.noConfusion hv
      have hq2 : ¬((t = ['\n'] || t = [' ']) = true) := by
        simp only [Bool.or_eq_true, decide_eq_true_eq]
        rintro (hc | hc) <;>
          (rw [ht0] at hc
           simp only [List.cons.injEq] at hc
           rcases hh0 with rfl | rfl | rfl <;> exact absurd hc.1 (by decide))
      have hq3 : ¬((t = [']'] || t = ['}']) = true) := by
        simp only [Bool.or_eq_true, decide_eq_true_eq]
        rintro (hc | hc) <;>
          (rw [ht0] at hc
           simp only [List.cons.injEq] at hc
           rcases hh0 with rfl | rfl | rfl <;> exact absurd hc.1 (by decide))
      have hpren : ¬((!(['{'].isPrefixOf t) && !(['['].isPrefixOf t) &&
          !([qch].isPrefixOf t)) = true) := by
        rw [ht0]
        rcases hh0 with rfl | rfl | rfl <;> simp [List.isPrefixOf]
      have hval : jsonValid t = true := by
        rw [jsonValid, hv]
        rfl
      have hcomp : jsonCompact t = serV v0 := by
        rw [jsonCompact, hv]
      refine ⟨?_, hser, ?_⟩
      · simp only [repairJSON]
        rw [if_neg hsne]
        rw [← ht, hB, hC, hidem]
        rw [if_neg hq1, if_neg hq2, if_neg hq3, if_neg hpren]
        dsimp only
        rw [if_pos hval, hcomp]
      · intro α tg
        rw [unmarshalWith, unmarshalWith, hser, hv]
    · rw [if_neg hre] at hvp
      simp at hvp

/-- Witness for the amended C1 at a padded valid object input with a
nested array, a number and a boolean. -/
theorem repairJSON_valid_fastpath_witness :
    repairJSON ("  \x7b\"a\": [1, true]\x7d  ".data) =
      Except.ok ("\x7b\"a\":[1,true]\x7d".data) := by
  have h := repairJSON_valid_fastpath ("  \x7b\"a\": [1, true]\x7d  ".data)
    (JVal.jObj (JFields.cons ['a'] (JVal.jArr (JElems.cons (JVal.jNum ['1'])
      (JElems.cons (JVal.jBool true) JElems.nil))) JFields.nil))
    (by decide) (by decide)
  exact h.1.trans (by decide)

/-! ## The unquoted-value stage on a parametric object (claim C6) -/

theorem char_toNat_ofNat (n : Nat) (h : n.isValidChar) : (Char.ofNat n).toNat = n := by
  unfold Char.ofNat
  rw [dif_pos h]
  rfl

theorem word_ne_colon {x : Char} (hx : isWordChar x = true) : ¬(x = ':') := by
  intro hcon
  subst hcon
  exact absurd hx (by decide)

theorem alpha_word {x : Char} (hx : isAlphaChar x = true) : isWordChar x = true := by
  simp only [isAlphaChar, Bool.or_eq_true] at hx
  rcases hx with h | h <;> simp [isWordChar, h]

theorem reWs_lower_self {x : Char} (hx : isReWs x = true) : lowerChar x = x := by
  simp only [isReWs, Bool.or_eq_true, decide_eq_true_eq] at hx
  rcases hx with (((h | h) | h) | h) | h <;> subst h <;> decide

theorem alpha_not_ws {x : Char} (hx : isAlphaChar x = true) : isReWs x = false := by
  cases hr : isReWs x with
  | false => rfl
  | true =>
    exfalso
    simp only [isReWs, Bool.or_eq_true, decide_eq_true_eq] at hr
    rcases hr with (((h | h) | h) | h) | h <;> subst h <;> exact absurd hx (by decide)

theorem word_lower_ne_colon {x : Char} (hx : isWordChar x = true) :
    ¬(lowerChar x = ':') := by
  intro hcon
  simp only [lowerChar] at hcon
  by_cases hup : ('A' ≤ x && x ≤ 'Z') = true
  · rw [if_pos hup] at hcon
    simp only [Bool.and_eq_true, decide_eq_true_eq] at hup
    have h1 : (65 : Nat) ≤ x.toNat := hup.1
    have h2 : x.toNat ≤ (90 : Nat) := hup.2
    have hv : (x.toNat + 32).isValidChar := Or.inl (by omega)
    have h3 := congrArg Char.toNat hcon
    rw [char_toNat_ofNat _ hv] at h3
    have h5 : x.toNat + 32 = 58 := h3
    omega
  · rw [if_neg hup] at hcon
    subst hcon
    exact absurd hx (by decide)

theorem takeWhile_append_stop {p : Char → Bool} : ∀ (A B : List Char),
    (∀ x ∈ A, p x = true) → (∀ c t2, B = c :: t2 → p c = false) →
    (A ++ B).takeWhile p = A ∧ (A ++ B).dropWhile p = B := by
  intro A
  induction A with
  | nil =>
    intro B _ hB
    cases B with
    | nil => exact ⟨rfl, rfl⟩
    | cons c t2 =>
      have hc := hB c t2 rfl
      refine ⟨?_, ?_⟩ <;> simp [List.takeWhile, List.dropWhile, hc]
  | cons a A2 ih =>
    intro B hA hB
    obtain ⟨ih1, ih2⟩ := ih B (fun x hx => hA x (by simp [hx])) hB
    have hpa := hA a (by simp)
    refine ⟨?_, ?_⟩
    · simp [List.takeWhile, hpa, ih1]
    · simp [List.dropWhile, hpa, ih2]

theorem append_eq_prefix : ∀ (p A r B : List Char), p ++ r = A ++ B →
    p.length ≤ A.length → ∃ q, A = p ++ q := by
  intro p
  induction p with
  | nil =>
    intro A r B _ _
    exact ⟨A, rfl⟩
  | cons c p2 ih =>
    intro A r B heq hlen
    cases A with
    | nil => simp at hlen
    | cons a A2 =>
      simp only [List.cons_append, List.cons.injEq] at heq
      obtain ⟨h1, h2⟩ := heq
      subst h1
      obtain ⟨q, hq⟩ := ih A2 r B h2 (by simpa using hlen)
      exact ⟨q, by rw [List.cons_append, ← hq]⟩

theorem lit_prefix_break {lit A : List Char} {e : Char} (hlast : lit.getLast? = some e)
    (hee : ¬(e = '}')) (hA : lit.isPrefixOf A = false) :
    lit.isPrefixOf (A ++ ['}']) = false := by
  cases hP : lit.isPrefixOf (A ++ ['}']) with
  | false => rfl
  | true =>
    exfalso
    have hdec := isPrefixOf_decomp lit (A ++ ['}']) hP
    by_cases hlen : lit.length ≤ A.length
    · obtain ⟨q, hq⟩ := append_eq_prefix lit A ((A ++ ['}']).drop lit.length) ['}']
        hdec.symm hlen
      rw [hq, isPrefixOf_append_self] at hA
      exact Bool.noConfusion hA
    · obtain ⟨R, hdecR⟩ : ∃ R, A ++ ['}'] = lit ++ R := ⟨_, hdec⟩
      obtain ⟨q, hq⟩ := append_eq_prefix A lit ['}'] R hdecR (by omega)
      have h2 : ['}'] = q ++ R := by
        have h3 := hdecR
        rw [hq, List.append_assoc] at h3
        exact List.append_cancel_left h3
      cases q with
      | nil =>
        rw [hq] at hlen
        simp at hlen
      | cons qc q2 =>
        simp only [List.cons_append, List.cons.injEq] at h2
        obtain ⟨h3, h4⟩ := h2
        subst h3
        have h5 : q2 = [] := by
          cases q2 with
          | nil => rfl
          | cons a b => exact absurd h4.symm (by simp)
        subst h5
        rw [hq] at hlast
        rw [List.getLast?_append_of_ne_nil _ (by simp)] at hlast
        have h6 : e = '}' := (Option.some.inj hlast).symm
        exact hee h6

theorem ciPrefixOf_sound : ∀ (lit s r : List Char), ciPrefixOf lit s = some r →
    ∃ p, s = p ++ r ∧ lowerStr p = lit := by
  intro lit
  induction lit with
  | nil =>
    intro s r h
    simp only [ciPrefixOf, Option.some.injEq] at h
    exact ⟨[], by rw [h]; rfl, rfl⟩
  | cons l ls ih =>
    intro s r h
    cases s with
    | nil => simp [ciPrefixOf] at h
    | cons c cs =>
      simp only [ciPrefixOf] at h
      by_cases h1 : lowerChar c = l
      · rw [if_pos h1] at h
        obtain ⟨p, hp, hl⟩ := ih cs r h
        refine ⟨c :: p, by rw [List.cons_append, ← hp], ?_⟩
        simp only [lowerStr, List.map_cons]
        simp only [lowerStr] at hl
        rw [h1, hl]
      · rw [if_neg h1] at h
        exact absurd h (by simp)

theorem ciPrefixOf_complete : ∀ (p r : List Char),
    ciPrefixOf (lowerStr p) (p ++ r) = some r := by
  intro p
  induction p with
  | nil => intro r; rfl
  | cons c p2 ih =>
    intro r
    simp only [lowerStr, List.map_cons, List.cons_append, ciPrefixOf, if_true]
    exact ih r

theorem ciPrefixOf_none_boundary {lit ident : List Char} {e : Char}
    (hlast : lit.getLast? = some e) (hee : ¬(e = '}'))
    (hA : lit.isPrefixOf (lowerStr ident) = false) :
    ciPrefixOf lit (ident ++ ['}']) = none := by
  cases h : ciPrefixOf lit (ident ++ ['}']) with
  | none => rfl
  | some r =>
    exfalso
    obtain ⟨p, hp, hl⟩ := ciPrefixOf_sound lit _ r h
    have h2 : lowerStr ident ++ ['}'] = lit ++ lowerStr r := by
      have h3 := congrArg lowerStr hp
      simp only [lowerStr, List.map_append, List.map_cons] at h3
      rw [show lowerChar '}' = '}' from by decide] at h3
      simp only [lowerStr] at hl
      rw [← hl]
      simpa [lowerStr] using h3
    have h4 : lit.isPrefixOf (lowerStr ident ++ ['}']) = true := by
      rw [h2]
      exact isPrefixOf_append_self lit (lowerStr r)
    rw [lit_prefix_break hlast hee hA] at h4
    exact Bool.noConfusion h4

theorem containsStr_append_false {needle : List Char} {nt : List Char}
    (hn : needle = ':' :: nt) :
    ∀ (A B : List Char), (∀ x ∈ A, ¬(x = ':')) → containsStr B needle = false →
      containsStr (A ++ B) needle = false := by
  intro A
  induction A with
  | nil =>
    intro B _ hB
    simpa using hB
  | cons c A2 ih =>
    intro B hA hB
    simp only [List.cons_append, containsStr]
    have hpf : needle.isPrefixOf (c :: (A2 ++ B)) = false := by
      rw [hn]
      simp only [List.isPrefixOf]
      have hcc : (':' == c) = false :=
        beq_eq_false_iff_ne.mpr (fun hh => hA c (by simp) hh.symm)
      rw [hcc]
      rfl
    rw [hpf]
    simp only [Bool.false_or]
    exact ih B (fun x hx => hA x (by simp [hx])) hB

theorem replaceScanF_id (tryM : List Char → Option (List Char × List Char)) :
    ∀ (n : Nat) (s : List Char), (∀ i, tryM (s.drop i) = none) →
      replaceScanF tryM n s = s := by
  intro n
  induction n with
  | zero =>
    intro s h
    cases s <;> rfl
  | succ n ih =>
    intro s h
    cases s with
    | nil => rfl
    | cons c t =>
      rw [replaceScanF]
      have h0 := h 0
      simp only [List.drop_zero] at h0
      rw [h0]
      rw [ih t (fun i => by have h2 := h (i + 1); simpa using h2)]

theorem replaceScan_id (tryM : List Char → Option (List Char × List Char))
    (s : List Char) (h : ∀ i, tryM (s.drop i) = none) : replaceScan tryM s = s :=
  replaceScanF_id tryM s.length s h

theorem replaceScanF_once (tryM : List Char → Option (List Char × List Char)) :
    ∀ (n : Nat) (pre mid rep : List Char), pre.length < n →
    (∀ i, i < pre.length → tryM ((pre ++ mid).drop i) = none) →
    tryM mid = some (rep, []) → mid ≠ [] →
    replaceScanF tryM n (pre ++ mid) = pre ++ rep := by
  intro n
  induction n with
  | zero =>
    intro pre mid rep hlen _ _ _
    omega
  | succ n ih =>
    intro pre mid rep hlen hpre hm hne
    cases pre with
    | nil =>
      simp only [List.nil_append]
      cases mid with
      | nil => exact absurd rfl hne
      | cons c t =>
        have hz : replaceScanF tryM n ([] : List Char) = [] := by cases n <;> rfl
        simp [replaceScanF, hm, hz]
    | cons p ps =>
      have h0 := hpre 0 (by simp)
      simp only [List.drop_zero] at h0
      simp only [List.cons_append] at h0 ⊢
      simp only [replaceScanF, h0]
      rw [ih ps mid rep (by simp at hlen; omega)
        (fun i hi => by
          have h2 := hpre (i + 1) (by simp; omega)
          simpa using h2) hm hne]

theorem replaceScan_once (tryM : List Char → Option (List Char × List Char))
    (pre mid rep : List Char)
    (hpre : ∀ i, i < pre.length → tryM ((pre ++ mid).drop i) = none)
    (hm : tryM mid = some (rep, [])) (hne : mid ≠ []) :
    replaceScan tryM (pre ++ mid) = pre ++ rep := by
  refine replaceScanF_once tryM (pre ++ mid).length pre mid rep ?_ hpre hm hne
  simp only [List.length_append]
  cases mid with
  | nil => exact absurd rfl hne
  | cons c t => simp

theorem scan_fail_chunks {tryM : List Char → Option (List Char × List Char)}
    (hne : ∀ c t2, ¬(c = ':') → tryM (c :: t2) = none) :
    ∀ (A B : List Char), (∀ x ∈ A, ¬(x = ':')) →
      (∀ j, tryM (B.drop j) = none) → ∀ j, tryM ((A ++ B).drop j) = none := by
  intro A
  induction A with
  | nil =>
    intro B _ hB j
    simpa using hB j
  | cons c A2 ih =>
    intro B hA hB j
    cases j with
    | zero =>
      simp only [List.drop_zero, List.cons_append]
      exact hne c _ (hA c (by simp))
    | succ j =>
      simp only [List.cons_append, List.drop_succ_cons]
      exact ih B (fun x hx => hA x (by simp [hx])) hB j

theorem scan_fail_brace {tryM : List Char → Option (List Char × List Char)}
    (h0 : tryM [] = none)
    (hne : ∀ c t2, ¬(c = ':') → tryM (c :: t2) = none) :
    ∀ j, tryM ((['}'] : List Char).drop j) = none := by
  intro j
  cases j with
  | zero => exact hne '}' [] (by decide)
  | succ j =>
    simp only [List.drop_succ_cons, List.drop_nil]
    exact h0

theorem scan_fail_colon_cons {tryM : List Char → Option (List Char × List Char)}
    {C : List Char} (hcol : tryM (':' :: C) = none)
    (hC : ∀ j, tryM (C.drop j) = none) : ∀ j, tryM ((':' :: C).drop j) = none := by
  intro j
  cases j with
  | zero => exact hcol
  | succ j =>
    simp only [List.drop_succ_cons]
    exact hC j

theorem bnTry_nil : bnTry [] = none := rfl

theorem bnTry_ne_colon {c : Char} {t : List Char} (h : ¬(c = ':')) :
    bnTry (c :: t) = none := by
  simp only [bnTry]
  rw [if_neg h]

theorem uvTry_nil : uvTry [] = none := rfl

theorem uvTry_ne_colon {c : Char} {t : List Char} (h : ¬(c = ':')) :
    uvTry (c :: t) = none := by
  simp only [uvTry]
  rw [if_neg h]

theorem uveTry_nil : uveTry [] = none := rfl

theorem uveTry_ne_colon {c : Char} {t : List Char} (h : ¬(c = ':')) :
    uveTry (c :: t) = none := by
  simp only [uveTry]
  rw [if_neg h]

theorem tw_space (c1 : Char) (t : List Char) (h : isReWs c1 = false) :
    List.takeWhile isReWs (' ' :: c1 :: t) = [' '] ∧
    List.dropWhile isReWs (' ' :: c1 :: t) = c1 :: t := by
  constructor <;>
    simp [List.takeWhile, List.dropWhile, h, show isReWs ' ' = true from by decide]

theorem wordTail_split (w0 : List Char) (hw0 : ∀ x ∈ w0, isWordChar x = true) :
    List.takeWhile isWordChar (w0 ++ ['}']) = w0 ∧
    List.dropWhile isWordChar (w0 ++ ['}']) = ['}'] := by
  refine takeWhile_append_stop w0 ['}'] hw0 ?_
  intro c t2 h
  injection h with h1 h2
  rw [← h1]
  decide

theorem uveTry_colon_quote (X : List Char) : uveTry (':' :: ' ' :: qch :: X) = none := by
  have hd : List.dropWhile isReWs (' ' :: qch :: X) = qch :: X :=
    (tw_space qch X (by decide)).2
  simp only [uveTry, hd, if_true, show isAlphaChar qch = false from by decide,
    Bool.false_eq_true, if_false]

theorem containsStr_ml_false (lit : List Char) {ident : List Char} {e : Char}
    (hw : ∀ x ∈ ident, isWordChar x = true)
    (hlast : lit.getLast? = some e) (hee : ¬(e = '}'))
    (hA : lit.isPrefixOf (lowerStr ident) = false) :
    containsStr (':' :: ' ' :: (lowerStr ident ++ ['}'])) (':' :: ' ' :: lit) = false := by
  have hp1 : List.isPrefixOf (':' :: ' ' :: lit) (':' :: ' ' :: (lowerStr ident ++ ['}'])) =
      List.isPrefixOf lit (lowerStr ident ++ ['}']) := by
    simp [List.isPrefixOf]
  have hp2 : List.isPrefixOf (':' :: ' ' :: lit) (' ' :: (lowerStr ident ++ ['}'])) = false := by
    simp only [List.isPrefixOf]
    rw [show ((':' : Char) == ' ') = false from by decide]
    rfl
  have hp3 : containsStr ['}'] (':' :: ' ' :: lit) = false := by
    simp only [containsStr, List.isPrefixOf]
    rw [show ((':' : Char) == '}') = false from by decide]
    rfl
  have hp4 : containsStr (lowerStr ident ++ ['}']) (':' :: ' ' :: lit) = false := by
    refine containsStr_append_false rfl (lowerStr ident) ['}'] ?_ hp3
    intro x hx
    obtain ⟨y, hy, hxy⟩ := List.mem_map.mp hx
    rw [← hxy]
    exact word_lower_ne_colon (hw y hy)
  simp only [containsStr, hp1, hp2, hp4, lit_prefix_break hlast hee hA, Bool.false_or]

theorem bnTry_mid_none (c1 : Char) (w0 : List Char) (hc1 : isAlphaChar c1 = true)
    (hT : List.isPrefixOf ['t', 'r', 'u', 'e'] (lowerStr (c1 :: w0)) = false)
    (hF : List.isPrefixOf ['f', 'a', 'l', 's', 'e'] (lowerStr (c1 :: w0)) = false)
    (hN : List.isPrefixOf ['n', 'u', 'l', 'l'] (lowerStr (c1 :: w0)) = false) :
    bnTry (':' :: ' ' :: ((c1 :: w0) ++ ['}'])) = none := by
  have hd : List.dropWhile isReWs (' ' :: ((c1 :: w0) ++ ['}'])) = (c1 :: w0) ++ ['}'] :=
    (tw_space c1 (w0 ++ ['}']) (alpha_not_ws hc1)).2
  have h1 : ciPrefixOf ['t', 'r', 'u', 'e'] ((c1 :: w0) ++ ['}']) = none :=
    ciPrefixOf_none_boundary (e := 'e') (by decide) (by decide) hT
  have h2 : ciPrefixOf ['f', 'a', 'l', 's', 'e'] ((c1 :: w0) ++ ['}']) = none :=
    ciPrefixOf_none_boundary (e := 'e') (by decide) (by decide) hF
  have h3 : ciPrefixOf ['n', 'u', 'l', 'l'] ((c1 :: w0) ++ ['}']) = none :=
    ciPrefixOf_none_boundary (e := 'l') (by decide) (by decide) hN
  simp only [bnTry, hd, h1, h2, h3, if_true]

theorem bnTry_mid_true (c1 : Char) (w0 : List Char) (hc1 : isAlphaChar c1 = true)
    (hlit : lowerStr (c1 :: w0) = ['t', 'r', 'u', 'e']) :
    bnTry (':' :: ' ' :: ((c1 :: w0) ++ ['}'])) =
      some (':' :: ' ' :: 't' :: 'r' :: 'u' :: 'e' :: '}' :: [], []) := by
  have htw : List.takeWhile isReWs (' ' :: ((c1 :: w0) ++ ['}'])) = [' '] :=
    (tw_space c1 (w0 ++ ['}']) (alpha_not_ws hc1)).1
  have hd : List.dropWhile isReWs (' ' :: ((c1 :: w0) ++ ['}'])) = (c1 :: w0) ++ ['}'] :=
    (tw_space c1 (w0 ++ ['}']) (alpha_not_ws hc1)).2
  have hci : ciPrefixOf ['t', 'r', 'u', 'e'] ((c1 :: w0) ++ ['}']) = some ['}'] := by
    have h := ciPrefixOf_complete (c1 :: w0) ['}']
    rw [hlit] at h
    exact h
  simp only [bnTry, htw, hd, hci, if_true,
    show reCloseGroup ['}'] = some (['}'], []) from rfl]
  rfl

theorem bnTry_mid_false (c1 : Char) (w0 : List Char) (hc1 : isAlphaChar c1 = true)
    (hlit : lowerStr (c1 :: w0) = ['f', 'a', 'l', 's', 'e']) :
    bnTry (':' :: ' ' :: ((c1 :: w0) ++ ['}'])) =
      some (':' :: ' ' :: 'f' :: 'a' :: 'l' :: 's' :: 'e' :: '}' :: [], []) := by
  have htw : List.takeWhile isReWs (' ' :: ((c1 :: w0) ++ ['}'])) = [' '] :=
    (tw_space c1 (w0 ++ ['}']) (alpha_not_ws hc1)).1
  have hd : List.dropWhile isReWs (' ' :: ((c1 :: w0) ++ ['}'])) = (c1 :: w0) ++ ['}'] :=
    (tw_space c1 (w0 ++ ['}']) (alpha_not_ws hc1)).2
  have h1 : ciPrefixOf ['t', 'r', 'u', 'e'] ((c1 :: w0) ++ ['}']) = none :=
    ciPrefixOf_none_boundary (e := 'e') (by decide) (by decide) (by rw [hlit]; decide)
  have hci : ciPrefixOf ['f', 'a', 'l', 's', 'e'] ((c1 :: w0) ++ ['}']) = some ['}'] := by
    have h := ciPrefixOf_complete (c1 :: w0) ['}']
    rw [hlit] at h
    exact h
  simp only [bnTry, htw, hd, h1, hci, if_true,
    show reCloseGroup ['}'] = some (['}'], []) from rfl]
  rfl

theorem bnTry_mid_null (c1 : Char) (w0 : List Char) (hc1 : isAlphaChar c1 = true)
    (hlit : lowerStr (c1 :: w0) = ['n', 'u', 'l', 'l']) :
    bnTry (':' :: ' ' :: ((c1 :: w0) ++ ['}'])) =
      some (':' :: ' ' :: 'n' :: 'u' :: 'l' :: 'l' :: '}' :: [], []) := by
  have htw : List.takeWhile isReWs (' ' :: ((c1 :: w0) ++ ['}'])) = [' '] :=
    (tw_space c1 (w0 ++ ['}']) (alpha_not_ws hc1)).1
  have hd : List.dropWhile isReWs (' ' :: ((c1 :: w0) ++ ['}'])) = (c1 :: w0) ++ ['}'] :=
    (tw_space c1 (w0 ++ ['}']) (alpha_not_ws hc1)).2
  have h1 : ciPrefixOf ['t', 'r', 'u', 'e'] ((c1 :: w0) ++ ['}']) = none :=
    ciPrefixOf_none_boundary (e := 'e') (by decide) (by decide) (by rw [hlit]; decide)
  have h2 : ciPrefixOf ['f', 'a', 'l', 's', 'e'] ((c1 :: w0) ++ ['}']) = none :=
    ciPrefixOf_none_boundary (e := 'e') (by decide) (by decide) (by rw [hlit]; decide)
  have hci : ciPrefixOf ['n', 'u', 'l', 'l'] ((c1 :: w0) ++ ['}']) = some ['}'] := by
    have h := ciPrefixOf_complete (c1 :: w0) ['}']
    rw [hlit] at h
    exact h
  simp only [bnTry, htw, hd, h1, h2, hci, if_true,
    show reCloseGroup ['}'] = some (['}'], []) from rfl]
  rfl

theorem uvTry_mid_wrap (c1 : Char) (w0 : List Char) (hc1 : isAlphaChar c1 = true)
    (hw0 : ∀ x ∈ w0, isWordChar x = true)
    (hT : List.isPrefixOf ['t', 'r', 'u', 'e'] (lowerStr (c1 :: w0)) = false)
    (hF : List.isPrefixOf ['f', 'a', 'l', 's', 'e'] (lowerStr (c1 :: w0)) = false)
    (hN : List.isPrefixOf ['n', 'u', 'l', 'l'] (lowerStr (c1 :: w0)) = false) :
    uvTry (':' :: ' ' :: ((c1 :: w0) ++ ['}'])) =
      some (':' :: ' ' :: qch :: c1 :: ((w0 ++ [qch]) ++ ['}']), []) := by
  have htw : List.takeWhile isReWs (' ' :: ((c1 :: w0) ++ ['}'])) = [' '] :=
    (tw_space c1 (w0 ++ ['}']) (alpha_not_ws hc1)).1
  have hd : List.dropWhile isReWs (' ' :: ((c1 :: w0) ++ ['}'])) = c1 :: (w0 ++ ['}']) :=
    (tw_space c1 (w0 ++ ['}']) (alpha_not_ws hc1)).2
  have hwt := wordTail_split w0 hw0
  have hwall : ∀ x ∈ c1 :: w0, isWordChar x = true := by
    intro x hx
    simp only [List.mem_cons] at hx
    rcases hx with rfl | hx
    · exact alpha_word hc1
    · exact hw0 x hx
  have hml : lowerStr (((':' :: [' ']) ++ (c1 :: w0)) ++ ['}']) =
      ':' :: ' ' :: (lowerStr (c1 :: w0) ++ ['}']) := by
    simp [lowerStr, show lowerChar ':' = ':' from by decide,
      show lowerChar ' ' = ' ' from by decide, show lowerChar '}' = '}' from by decide]
  have hcT := containsStr_ml_false ['t', 'r', 'u', 'e'] (e := 'e') hwall (by decide) (by decide) hT
  have hcF := containsStr_ml_false ['f', 'a', 'l', 's', 'e'] (e := 'e') hwall (by decide) (by decide) hF
  have hcN := containsStr_ml_false ['n', 'u', 'l', 'l'] (e := 'l') hwall (by decide) (by decide) hN
  simp only [uvTry, htw, hd, hwt.1, hwt.2, hc1, if_true,
    show reCloseGroup ['}'] = some (['}'], []) from rfl, hml, hcT, hcF, hcN,
    Bool.false_or, Bool.false_eq_true, if_false]
  rfl

theorem pre4_fail (tryM : List Char → Option (List Char × List Char))
    (h : ∀ c t2, ¬(c = ':') → tryM (c :: t2) = none) (MID : List Char) :
    ∀ i, i < (['{', qch, 'k', qch] : List Char).length →
      tryM (((['{', qch, 'k', qch] : List Char) ++ MID).drop i) = none := by
  intro i hi
  have h4 : i < 4 := by simpa using hi
  interval_cases i
  · exact h '{' _ (by decide)
  · exact h qch _ (by decide)
  · exact h 'k' _ (by decide)
  · exact h qch _ (by decide)

/-- C6: The unquoted-value stage (fixUnquotedValues) on an object text
with a colon followed by one space and a bare alphabetic identifier
before the closing brace: when the lowercased identifier is not
prefixed by true, false or null, the identifier is wrapped in double
quotes; when the lowercased identifier is exactly one of the three
literals, the stage lowercases it and keeps it unquoted.  (The spec's
unconditional claim fails without the space, see the counterexample
fixValues_literal_quoted.) -/
theorem fixUnquotedValues_colon_space (c1 : Char) (w0 : List Char)
    (hc1 : isAlphaChar c1 = true) (hw0 : ∀ x ∈ w0, isWordChar x = true) :
    ((List.isPrefixOf ['t', 'r', 'u', 'e'] (lowerStr (c1 :: w0)) = false ∧
      List.isPrefixOf ['f', 'a', 'l', 's', 'e'] (lowerStr (c1 :: w0)) = false ∧
      List.isPrefixOf ['n', 'u', 'l', 'l'] (lowerStr (c1 :: w0)) = false) →
      fixUnquotedValues ('{' :: qch :: 'k' :: qch :: ':' :: ' ' :: ((c1 :: w0) ++ ['}'])) =
        '{' :: qch :: 'k' :: qch :: ':' :: ' ' :: qch :: ((c1 :: w0) ++ [qch, '}'])) ∧
    ((lowerStr (c1 :: w0) = ['t', 'r', 'u', 'e'] ∨
      lowerStr (c1 :: w0) = ['f', 'a', 'l', 's', 'e'] ∨
      lowerStr (c1 :: w0) = ['n', 'u', 'l', 'l']) →
      fixUnquotedValues ('{' :: qch :: 'k' :: qch :: ':' :: ' ' :: ((c1 :: w0) ++ ['}'])) =
        '{' :: qch :: 'k' :: qch :: ':' :: ' ' :: (lowerStr (c1 :: w0) ++ ['}'])) := by
  constructor
  · intro hA
    obtain ⟨hT, hF, hN⟩ := hA
    have hbnfail : ∀ i, bnTry
        (('{' :: qch :: 'k' :: qch :: ':' :: ' ' :: ((c1 :: w0) ++ ['}'])).drop i) = none := by
      intro i
      exact scan_fail_chunks (fun c t2 hc => bnTry_ne_colon hc) ['{', qch, 'k', qch]
        (':' :: ' ' :: ((c1 :: w0) ++ ['}'])) (by decide)
        (scan_fail_colon_cons (bnTry_mid_none c1 w0 hc1 hT hF hN)
          (fun j => scan_fail_chunks (fun c t2 hc => bnTry_ne_colon hc) (' ' :: c1 :: w0) ['}']
            (by
              intro x hx
              simp only [List.mem_cons] at hx
              rcases hx with rfl | rfl | hx
              · decide
              · exact word_ne_colon (alpha_word hc1)
              · exact word_ne_colon (hw0 x hx))
            (scan_fail_brace bnTry_nil (fun c t2 hc => bnTry_ne_colon hc)) j)) i
    have h1 : replaceScan bnTry ('{' :: qch :: 'k' :: qch :: ':' :: ' ' :: ((c1 :: w0) ++ ['}'])) =
        '{' :: qch :: 'k' :: qch :: ':' :: ' ' :: ((c1 :: w0) ++ ['}']) :=
      replaceScan_id bnTry _ hbnfail
    have h2 : replaceScan uvTry ('{' :: qch :: 'k' :: qch :: ':' :: ' ' :: ((c1 :: w0) ++ ['}'])) =
        '{' :: qch :: 'k' :: qch :: ':' :: ' ' :: qch :: c1 :: ((w0 ++ [qch]) ++ ['}']) :=
      replaceScan_once uvTry ['{', qch, 'k', qch] (':' :: ' ' :: ((c1 :: w0) ++ ['}']))
        (':' :: ' ' :: qch :: c1 :: ((w0 ++ [qch]) ++ ['}']))
        (pre4_fail uvTry (fun c t2 hc => uvTry_ne_colon hc) _)
        (uvTry_mid_wrap c1 w0 hc1 hw0 hT hF hN) (by simp)
    have hvefail : ∀ i, uveTry
        (('{' :: qch :: 'k' :: qch :: ':' :: ' ' :: qch :: c1 ::
          ((w0 ++ [qch]) ++ ['}'])).drop i) = none := by
      intro i
      exact scan_fail_chunks (fun c t2 hc => uveTry_ne_colon hc) ['{', qch, 'k', qch]
        (':' :: ' ' :: qch :: c1 :: ((w0 ++ [qch]) ++ ['}'])) (by decide)
        (scan_fail_colon_cons (uveTry_colon_quote (c1 :: ((w0 ++ [qch]) ++ ['}'])))
          (fun j => scan_fail_chunks (fun c t2 hc => uveTry_ne_colon hc)
            (' ' :: qch :: c1 :: (w0 ++ [qch])) ['}']
            (by
              intro x hx
              simp only [List.mem_cons, List.mem_append] at hx
              rcases hx with rfl | rfl | rfl | hx | rfl | hx0
              · decide
              · decide
              · exact word_ne_colon (alpha_word hc1)
              · exact word_ne_colon (hw0 x hx)
              · decide
              · exact absurd hx0 (by simp))
            (scan_fail_brace uveTry_nil (fun c t2 hc => uveTry_ne_colon hc)) j)) i
    have h3 : replaceScan uveTry
        ('{' :: qch :: 'k' :: qch :: ':' :: ' ' :: qch :: c1 :: ((w0 ++ [qch]) ++ ['}'])) =
        '{' :: qch :: 'k' :: qch :: ':' :: ' ' :: qch :: c1 :: ((w0 ++ [qch]) ++ ['}']) :=
      replaceScan_id uveTry _ hvefail
    simp only [fixUnquotedValues, boolNullPass, unquotedValuePass, unquotedValueEndPass,
      h1, h2, h3]
    simp [List.append_assoc]
  · intro hlit
    rcases hlit with h | h | h
    · have h1 : replaceScan bnTry
          ('{' :: qch :: 'k' :: qch :: ':' :: ' ' :: ((c1 :: w0) ++ ['}'])) =
          '{' :: qch :: 'k' :: qch :: ':' :: ' ' :: 't' :: 'r' :: 'u' :: 'e' :: '}' :: [] :=
        replaceScan_once bnTry ['{', qch, 'k', qch] (':' :: ' ' :: ((c1 :: w0) ++ ['}']))
          (':' :: ' ' :: 't' :: 'r' :: 'u' :: 'e' :: '}' :: [])
          (pre4_fail bnTry (fun c t2 hc => bnTry_ne_colon hc) _)
          (bnTry_mid_true c1 w0 hc1 h) (by simp)
      simp only [fixUnquotedValues, boolNullPass, unquotedValuePass, unquotedValueEndPass,
        h1, h]
      decide
    · have h1 : replaceScan bnTry
          ('{' :: qch :: 'k' :: qch :: ':' :: ' ' :: ((c1 :: w0) ++ ['}'])) =
          '{' :: qch :: 'k' :: qch :: ':' :: ' ' :: 'f' :: 'a' :: 'l' :: 's' :: 'e' :: '}' :: [] :=
        replaceScan_once bnTry ['{', qch, 'k', qch] (':' :: ' ' :: ((c1 :: w0) ++ ['}']))
          (':' :: ' ' :: 'f' :: 'a' :: 'l' :: 's' :: 'e' :: '}' :: [])
          (pre4_fail bnTry (fun c t2 hc => bnTry_ne_colon hc) _)
          (bnTry_mid_false c1 w0 hc1 h) (by simp)
      simp only [fixUnquotedValues, boolNullPass, unquotedValuePass, unquotedValueEndPass,
        h1, h]
      decide
    · have h1 : replaceScan bnTry
          ('{' :: qch :: 'k' :: qch :: ':' :: ' ' :: ((c1 :: w0) ++ ['}'])) =
          '{' :: qch :: 'k' :: qch :: ':' :: ' ' :: 'n' :: 'u' :: 'l' :: 'l' :: '}' :: [] :=
        replaceScan_once bnTry ['{', qch, 'k', qch] (':' :: ' ' :: ((c1 :: w0) ++ ['}']))
          (':' :: ' ' :: 'n' :: 'u' :: 'l' :: 'l' :: '}' :: [])
          (pre4_fail bnTry (fun c t2 hc => bnTry_ne_colon hc) _)
          (bnTry_mid_null c1 w0 hc1 h) (by simp)
      simp only [fixUnquotedValues, boolNullPass, unquotedValuePass, unquotedValueEndPass,
        h1, h]
      decide

/-- Witness for C6: the identifier data is wrapped in quotes, the
identifier TRUE is lowercased and kept bare. -/
theorem fixUnquotedValues_colon_space_witness :
    fixUnquotedValues ('{' :: qch :: 'k' :: qch :: ':' :: ' ' :: (('d' :: ['a', 't', 'a']) ++ ['}'])) =
      '{' :: qch :: 'k' :: qch :: ':' :: ' ' :: qch :: (('d' :: ['a', 't', 'a']) ++ [qch, '}']) ∧
    fixUnquotedValues ('{' :: qch :: 'k' :: qch :: ':' :: ' ' :: (('T' :: ['R', 'U', 'E']) ++ ['}'])) =
      '{' :: qch :: 'k' :: qch :: ':' :: ' ' :: (lowerStr ('T' :: ['R', 'U', 'E']) ++ ['}']) :=
  ⟨(fixUnquotedValues_colon_space 'd' ['a', 't', 'a'] (by decide) (by decide)).1
      ⟨by decide, by decide, by decide⟩,
   (fixUnquotedValues_colon_space 'T' ['R', 'U', 'E'] (by decide) (by decide)).2
      (Or.inl (by decide))⟩

end SafeUnmarshal
